import Mathlib

/-!
Verification of the AutoDocs ingestion pipeline against its specification.

Each section below gives a shallow embedding of one part of the Python
source (file paths are noted per definition) followed by theorems that
settle the corresponding specification claims.  Machine-level details that
the claims do not depend on (the HTTP layer, SQLAlchemy plumbing, the
actual network clients) are abstracted into explicit inputs; every piece
of logic a claim turns on is translated faithfully from the source.
-/

namespace AutoDocs

/-! ## Search response shaping (src/ingestion/src/api/main.py)

The `/search` endpoint shapes backend rows into `SemanticSearchResult`
values.  A backend row carries an entity type, an entity id, an optional
distance (vector distance for ANN rows, the SQLite `bm25(...)` rank for
FTS rows) and an optional summary. -/

namespace ApiMain

/-- One row coming back from `vector_search` / `fts_definitions` /
`fts_files` (a dict in the source; the fields the response shaping reads). -/
structure SearchRow where
  entity_type : String
  entity_id : Int
  entity_name : String
  distance : Option ℚ
  ai_summary : Option String
deriving DecidableEq

/-- `to_similarity` from `api/main.py`: `None ↦ 0.0`, otherwise
`1.0 / (1.0 + distance)`.  Python raises `ZeroDivisionError` at
`distance = -1` and the `except` arm returns `0.0`; rational division by
zero in Lean also yields `0`, so the translation is exact on ℚ. -/
def to_similarity (distance : Option ℚ) : ℚ :=
  match distance with
  | none => 0
  | some d => 1 / (1 + d)

/-- The shaped result the endpoint appends to `results`. -/
structure ShapedResult where
  entity_type : String
  entity_id : Int
  similarity_score : ℚ
  summary_text : String
deriving DecidableEq

/-- Validation failure raised while shaping a row (HTTP 500 in the source). -/
inductive ShapeError where
  | invalidEntityType (t : String)
deriving DecidableEq

/-- The per-row shaping loop of the `/search` endpoint: reject rows whose
`entity_type` is not `file`/`definition`, convert the distance with
`to_similarity`, default the summary to `""` (`r.get("ai_summary") or ""`). -/
def shape_row (r : SearchRow) : Except ShapeError ShapedResult :=
  if r.entity_type = "file" ∨ r.entity_type = "definition" then
    .ok { entity_type := r.entity_type
        , entity_id := r.entity_id
        , similarity_score := to_similarity r.distance
        , summary_text := r.ai_summary.getD "" }
  else
    .error (.invalidEntityType r.entity_type)

/-- A definition row found by full-text search: SQLite `bm25()` returns
`-1` times the (nonnegative) BM25 score, so a matching row carries a
nonpositive rank; `-2` is a typical value for a good match. -/
def bm25Row : SearchRow :=
  { entity_type := "definition", entity_id := 7, entity_name := "parse"
  , distance := some (-2), ai_summary := some "Parses input." }

end ApiMain

/-! ## Embedding document assembly (src/ingestion/src/embeddings/generator.py)

Two code paths build the `page_content` strings that are sent to the
embeddings service for definitions: `_iter_definition_rows` (the full
run) and `generate_embeddings_for_definitions_async` (the incremental,
per-definition-id run). -/

namespace EmbeddingsGenerator

/-- The columns of a `definitions` row that the generator reads. -/
structure DefRecord where
  id : ℕ
  name : String
  definition_type : String
  ai_summary : Option String
  file_path : String
deriving DecidableEq

/-- Truthiness of the SQL filter pair
`ai_summary.isnot(None) ∧ ai_summary != ''`. -/
def hasSummary (s : Option String) : Bool :=
  match s with
  | none => false
  | some t => t ≠ ""

/-- One document handed to `_process_batches_parallel`. -/
structure EmbedDoc where
  page_content : String
  entity_type : String
  entity_id : ℕ
deriving DecidableEq

/-- The page content built by `_iter_definition_rows` (full path):
`f"{d.ai_summary}\n\nName: {d.name}\nType: {d.definition_type}"`. -/
def fullDefPage (d : DefRecord) : String :=
  (d.ai_summary.getD "") ++ "\n\nName: " ++ d.name ++ "\nType: " ++ d.definition_type

/-- `_iter_definition_rows`: keep definitions with a non-empty summary and
emit the suffixed page content. -/
def iter_definition_rows (defs : List DefRecord) : List EmbedDoc :=
  (defs.filter (fun d => hasSummary d.ai_summary)).map (fun d =>
    { page_content := fullDefPage d, entity_type := "definition", entity_id := d.id })

/-- `generate_embeddings_for_definitions_async` (incremental path): select
the requested ids with a non-empty summary, but emit `d.ai_summary` alone
as the page content (the `Name:`/`Type:` suffix is absent in the source). -/
def defn_rows_for_ids (defs : List DefRecord) (ids : List ℕ) : List EmbedDoc :=
  ((defs.filter (fun d => d.id ∈ ids)).filter (fun d => hasSummary d.ai_summary)).map
    (fun d => { page_content := d.ai_summary.getD ""
              , entity_type := "definition", entity_id := d.id })

/-- A demonstration definition row with a stored summary. -/
def demoDef : DefRecord :=
  { id := 1, name := "f", definition_type := "function"
  , ai_summary := some "S", file_path := "a.ts" }

end EmbeddingsGenerator

/-! ## Rate-limit sleep in the summary level driver
(src/ingestion/src/ai_analysis/parallel_summaries.py, process_level)

`summaries.py` holds a module-level counter `summaries_generated` that its
LLM wrappers rebind via `global summaries_generated; summaries_generated += 1`.
`parallel_summaries.py` executes
`from ai_analysis.summaries import summaries_generated`, which copies the
*value* (an immutable int, `0` at import time) into a separate binding in
the `parallel_summaries` module namespace.  The `global summaries_generated`
statement inside `process_level` refers to that second binding, which no
statement ever rebinds.  The state below models both bindings explicitly. -/

namespace SummariesCounters

/-- The two module-level bindings that are both named `summaries_generated`. -/
structure CounterState where
  /-- binding in `ai_analysis.summaries` (incremented by the LLM wrappers) -/
  summaries_generated : ℕ
  /-- binding in `ai_analysis.parallel_summaries`, created by the
  from-import; never rebound after module import -/
  parallel_alias : ℕ
deriving DecidableEq

/-- State right after both modules are imported: the summaries counter is
`0` and the from-import copies that value. -/
def importTimeBinding : CounterState := { summaries_generated := 0, parallel_alias := 0 }

/-- Effect of one `generate_*_summary_with_llm` call on the counters
(summaries.py lines 412-413 and 542-543): only the binding inside
`ai_analysis.summaries` is rebound. -/
def record_llm_summary (c : CounterState) : CounterState :=
  { c with summaries_generated := c.summaries_generated + 1 }

/-- Events observable from `process_level`. -/
inductive LevelEvent where
  | batch (size : ℕ)
  | sleep (seconds : ℚ)
deriving DecidableEq

/-- Whether an event is the inter-batch sleep. -/
def isSleep : LevelEvent → Bool
  | .sleep _ => true
  | .batch _ => false

/-- Chunking of the level's group list into batches. -/
def chunksAux (n : ℕ) : ℕ → List ℕ → List (List ℕ)
  | 0, _ => []
  | _, [] => []
  | fuel + 1, l => l.take n :: chunksAux n fuel (l.drop n)

/-- `ids[i : i + batch_size]` slices of the python loop. -/
def chunks (n : ℕ) (l : List ℕ) : List (List ℕ) := chunksAux n l.length l

/-- The batch loop of `process_level`.  Each list entry of a batch is the
number of LLM summaries that batch element actually generates (elements
already cached or persisted generate none).  After gathering a batch the
driver consults `summaries_generated` — the *alias* binding in the
`parallel_summaries` module — and sleeps only when the current batch is
not the last and that alias is positive. -/
def runBatches (delay : ℚ) : CounterState → List (List ℕ) → List LevelEvent × CounterState
  | c, [] => ([], c)
  | c, b :: rest =>
    (.batch b.length ::
      ((if rest ≠ [] ∧ 0 < c.parallel_alias then [.sleep delay] else []) ++
        (runBatches delay
          { c with summaries_generated := c.summaries_generated + b.sum } rest).1),
      (runBatches delay
        { c with summaries_generated := c.summaries_generated + b.sum } rest).2)

/-- `process_level`: batch size `min(min_batch_size, len(ids))`, delay
`batch_size / max_requests_per_second`, then the batch loop. -/
def process_level (min_batch_size mrps : ℕ) (gen_counts : List ℕ)
    (c : CounterState) : List LevelEvent × CounterState :=
  if gen_counts = [] then ([], c)
  else
    runBatches ((min min_batch_size gen_counts.length : ℕ) / (mrps : ℚ)) c
      (chunks (min min_batch_size gen_counts.length) gen_counts)

end SummariesCounters

/-! ## Vector nearest-neighbour query (src/ingestion/src/database/manager.py)

`query_nearest_neighbors` issues one SQL statement: the `embeddings_vec`
virtual table returns the `k` nearest vectors (the `MATCH ... AND v.k = :k`
constraint), the result is joined back to `embeddings`, and only then is
the optional `entity_type` predicate applied, followed by
`ORDER BY v.distance LIMIT :k`. -/

namespace DatabaseManager

/-- An `embeddings` row joined to its vector-index row; the second
component is the ANN distance to the query vector. -/
structure EmbeddingRow where
  id : ℕ
  entity_type : String
  entity_id : ℕ
deriving DecidableEq

/-- Ascending-distance comparison used by `ORDER BY v.distance`. -/
def distLE (a b : EmbeddingRow × ℚ) : Prop := a.2 ≤ b.2

instance : DecidableRel distLE := fun a b => inferInstanceAs (Decidable (a.2 ≤ b.2))

/-- `query_nearest_neighbors`: the vec0 constraint picks the `top_k`
nearest rows of the whole index, the outer `WHERE` then filters by
`entity_type`, and `ORDER BY distance LIMIT :k` caps the result again. -/
def query_nearest_neighbors (store : List (EmbeddingRow × ℚ)) (top_k : ℕ)
    (entity_type : Option String) : List (EmbeddingRow × ℚ) :=
  let knn := (store.insertionSort distLE).take top_k
  let filtered :=
    match entity_type with
    | none => knn
    | some t => knn.filter (fun r => r.1.entity_type = t)
  filtered.take top_k

/-- A store with one `file` embedding and one nearer `definition`
embedding. -/
def c10Store : List (EmbeddingRow × ℚ) :=
  [(⟨1, "definition", 5⟩, 1), (⟨2, "file", 9⟩, 2)]

end DatabaseManager

/-! ## Source hashing (src/ingestion/src/ast_parsing/utils/db_utils.py)

`hash_source_code(def_name, source_code_cleaned)` removes whole-word
occurrences of the definition's own name (`re.sub(rf"\b{name}\b", "", …)`,
skipped for empty or `"anonymous"` names), normalizes whitespace (CRLF
and CR to LF, split into lines, strip each line, drop blank lines, join
with LF) and returns the SHA-256 hex digest of the UTF-8 bytes. -/

namespace DbUtils

/-- ASCII word characters of the regex `\b` boundary (`\w`). -/
def wordChar (c : Char) : Bool := c.isAlphanum || c = '_'

/-- Word-character test of an optional lookahead character. -/
def wordCharOpt : Option Char → Bool
  | none => false
  | some c => wordChar c

/-- Match of the escaped pattern `\b name \b` at the head of `s`.  The
scanner tracks in `prevW` whether the character before the current
position is a word character; `\b` matches exactly when the word-ness of
the characters on its two sides differs (a position outside the string
counts as non-word).  `re.escape` makes `name` a literal, so the middle
of the pattern is a plain prefix test.  The empty pattern never arises:
`hash_source_code` guards on truthiness of the name. -/
def matchAt (name : List Char) (prevW : Bool) (s : List Char) : Bool :=
  match name with
  | [] => false
  | c :: _ =>
    name.isPrefixOf s && (prevW != wordChar c) &&
      (wordCharOpt (s.drop name.length).head? != wordChar (name.getLastD c))

/-- The left-to-right non-overlapping scan of
`re.sub(rf"\b{re.escape(name)}\b", repl, …)`: at each position try the
pattern; on success emit `repl` (never rescanned) and resume after the
matched text, whose last character becomes the new preceding character;
otherwise emit the current character and advance one position.  The fuel
is instantiated with the string length; each step consumes at least one
character for the non-empty names the caller passes. -/
def subWordAux (name repl : List Char) : ℕ → Bool → List Char → List Char
  | 0, _, s => s
  | fuel + 1, prevW, s =>
    match s with
    | [] => []
    | c :: rest =>
      if matchAt name prevW (c :: rest) then
        repl ++ subWordAux name repl fuel (wordChar (name.getLastD c))
          ((c :: rest).drop name.length)
      else
        c :: subWordAux name repl fuel (wordChar c) rest

/-- `re.sub` with word boundaries from a given left context (`prevW =
false` at the start of the string: no preceding character). -/
def subw (name repl : List Char) (prevW : Bool) (s : List Char) : List Char :=
  subWordAux name repl s.length prevW s

/-- Whether the pattern `\b name \b` matches anywhere in `s` (checked at
every position). -/
def hasWordOcc (name : List Char) : Bool → List Char → Bool
  | _, [] => false
  | prevW, c :: rest => matchAt name prevW (c :: rest) || hasWordOcc name (wordChar c) rest

/-- `source.replace("\r\n", "\n")`. -/
def replaceCrlf : List Char → List Char
  | [] => []
  | '\r' :: '\n' :: rest => '\n' :: replaceCrlf rest
  | c :: rest => c :: replaceCrlf rest

/-- `source.replace("\r", "\n")` (applied after the CRLF pass). -/
def replaceCr (l : List Char) : List Char :=
  l.map (fun c => if c = '\r' then '\n' else c)

/-- The line terminators `str.splitlines` recognizes once CR and CRLF
have already been normalized to LF. -/
def isLineBreak (c : Char) : Bool :=
  c ∈ ['\n', '\x0b', '\x0c', '\x1c', '\x1d', '\x1e', '\u0085', '\u2028', '\u2029']

/-- `str.splitlines` (no trailing empty line after a final terminator). -/
def splitLinesAux : List Char → List Char → List (List Char)
  | acc, [] => if acc.isEmpty then [] else [acc.reverse]
  | acc, c :: rest =>
    if isLineBreak c then acc.reverse :: splitLinesAux [] rest
    else splitLinesAux (c :: acc) rest

/-- `str.splitlines` from the start of the string. -/
def splitLines (l : List Char) : List (List Char) := splitLinesAux [] l

/-- The characters `str.strip()` removes (Python whitespace; the ASCII
class plus the common Unicode line and space separators). -/
def pySpace (c : Char) : Bool :=
  c ∈ [' ', '\t', '\n', '\r', '\x0b', '\x0c', '\x1c', '\x1d', '\x1e', '\x1f',
    '\u0085', '\u00A0', '\u2028', '\u2029']

/-- `line.strip()`. -/
def pyStrip (l : List Char) : List Char :=
  ((l.dropWhile pySpace).reverse.dropWhile pySpace).reverse

/-- The whitespace normalization of `hash_source_code`: normalize line
endings, split into lines, strip each line, drop blank lines, join with
`"\n"`. -/
def normalizeWs (l : List Char) : List Char :=
  let lines := splitLines (replaceCr (replaceCrlf l))
  let kept := (lines.map pyStrip).filter (fun ln => !ln.isEmpty)
  (kept.intersperse ['\n']).flatten

/-- UTF-8 encoding of one code point (`str.encode("utf-8")`). -/
def utf8Bytes (c : Char) : List ℕ :=
  let n := c.toNat
  if n < 128 then [n]
  else if n < 2048 then [192 + n / 64, 128 + n % 64]
  else if n < 65536 then [224 + n / 4096, 128 + n / 64 % 64, 128 + n % 64]
  else [240 + n / 262144, 128 + n / 4096 % 64, 128 + n / 64 % 64, 128 + n % 64]

/-- UTF-8 encoding of a string given as its character list. -/
def utf8Encode (l : List Char) : List ℕ :=
  (l.map utf8Bytes).flatten

/-! SHA-256 (`hashlib.sha256`, FIPS 180-4) over byte lists, with 32-bit
words as naturals reduced modulo `2^32`. -/

/-- Truncation to a 32-bit word. -/
def w32 (n : ℕ) : ℕ := n % 4294967296

/-- Right rotation of a 32-bit word by `k` bits. -/
def rotr (k n : ℕ) : ℕ := w32 (n / 2 ^ k + n % 2 ^ k * 2 ^ (32 - k))

/-- Logical right shift by `k` bits. -/
def shr (k n : ℕ) : ℕ := n / 2 ^ k

/-- Bitwise complement of a 32-bit word. -/
def not32 (n : ℕ) : ℕ := Nat.xor n 4294967295

/-- The `Ch` function of FIPS 180-4. -/
def ch (x y z : ℕ) : ℕ := Nat.xor (Nat.land x y) (Nat.land (not32 x) z)

/-- The `Maj` function of FIPS 180-4. -/
def maj (x y z : ℕ) : ℕ :=
  Nat.xor (Nat.land x y) (Nat.xor (Nat.land x z) (Nat.land y z))

/-- `Σ₀`. -/
def bsig0 (x : ℕ) : ℕ := Nat.xor (rotr 2 x) (Nat.xor (rotr 13 x) (rotr 22 x))

/-- `Σ₁`. -/
def bsig1 (x : ℕ) : ℕ := Nat.xor (rotr 6 x) (Nat.xor (rotr 11 x) (rotr 25 x))

/-- `σ₀`. -/
def ssig0 (x : ℕ) : ℕ := Nat.xor (rotr 7 x) (Nat.xor (rotr 18 x) (shr 3 x))

/-- `σ₁`. -/
def ssig1 (x : ℕ) : ℕ := Nat.xor (rotr 17 x) (Nat.xor (rotr 19 x) (shr 10 x))

/-- The 64 round constants. -/
def K : List ℕ :=
  [1116352408, 1899447441, 3049323471, 3921009573, 961987163, 1508970993,
   2453635748, 2870763221, 3624381080, 310598401, 607225278, 1426881987,
   1925078388, 2162078206, 2614888103, 3248222580, 3835390401, 4022224774,
   264347078, 604807628, 770255983, 1249150122, 1555081692, 1996064986,
   2554220882, 2821834349, 2952996808, 3210313671, 3336571891, 3584528711,
   113926993, 338241895, 666307205, 773529912, 1294757372, 1396182291,
   1695183700, 1986661051, 2177026350, 2456956037, 2730485921, 2820302411,
   3259730800, 3345764771, 3516065817, 3600352804, 4094571909, 275423344,
   430227734, 506948616, 659060556, 883997877, 958139571, 1322822218,
   1537002063, 1747873779, 1955562222, 2024104815, 2227730452, 2361852424,
   2428436474, 2756734187, 3204031479, 3329325298]

/-- The initial hash value. -/
def H0 : List ℕ :=
  [1779033703, 3144134277, 1013904242, 2773480762, 1359893119, 2600822924,
   528734635, 1541459225]

/-- Big-endian bytes of a 64-bit length. -/
def be64 (n : ℕ) : List ℕ :=
  [n / 2 ^ 56 % 256, n / 2 ^ 48 % 256, n / 2 ^ 40 % 256, n / 2 ^ 32 % 256,
   n / 2 ^ 24 % 256, n / 2 ^ 16 % 256, n / 2 ^ 8 % 256, n % 256]

/-- Padding: append `0x80`, zeros to 56 mod 64, then the bit length. -/
def pad (m : List ℕ) : List ℕ :=
  m ++ 128 :: List.replicate ((119 - m.length % 64) % 64) 0 ++
    be64 (m.length * 8 % 18446744073709551616)

/-- Split into 64-byte blocks (the padded message's length is a multiple
of 64; the fuel is instantiated with the list length). -/
def toBlocksAux : ℕ → List ℕ → List (List ℕ)
  | 0, _ => []
  | fuel + 1, l => if l.isEmpty then [] else l.take 64 :: toBlocksAux fuel (l.drop 64)

/-- Split a byte list into 64-byte blocks. -/
def toBlocks (l : List ℕ) : List (List ℕ) := toBlocksAux l.length l

/-- Big-endian 32-bit words of a block. -/
def bytesToWords : List ℕ → List ℕ
  | b0 :: b1 :: b2 :: b3 :: rest =>
    (((b0 * 256 + b1) * 256 + b2) * 256 + b3) :: bytesToWords rest
  | _ => []

/-- Extend 16 words to a 64-entry message schedule:
`w[t] = σ₁(w[t-2]) + w[t-7] + σ₀(w[t-15]) + w[t-16]`. -/
def extendSchedule (w : List ℕ) : List ℕ :=
  (List.range 48).foldl
    (fun acc i =>
      acc ++ [w32 (ssig1 (acc.getD (i + 14) 0) + acc.getD (i + 9) 0 +
        ssig0 (acc.getD (i + 1) 0) + acc.getD i 0)])
    w

/-- One compression round on the state `[a,b,c,d,e,f,g,h]`, given
`K[t] + w[t]`. -/
def compressRound (st : List ℕ) (kw : ℕ) : List ℕ :=
  match st with
  | [a, b, c, d, e, f, g, h] =>
    let t1 := w32 (h + bsig1 e + ch e f g + kw)
    let t2 := w32 (bsig0 a + maj a b c)
    [w32 (t1 + t2), a, b, c, w32 (d + t1), e, f, g]
  | st => st

/-- Process one 64-byte block. -/
def compress (h : List ℕ) (block : List ℕ) : List ℕ :=
  let w := extendSchedule (bytesToWords block)
  let st := (List.zipWith (fun k wi => w32 (k + wi)) K w).foldl compressRound h
  List.zipWith (fun x y => w32 (x + y)) h st

/-- SHA-256 of a byte list, as eight 32-bit words. -/
def sha256 (msg : List ℕ) : List ℕ :=
  (toBlocks (pad msg)).foldl compress H0

/-- Lower-case hexadecimal digit. -/
def hexDigit (n : ℕ) : Char :=
  if n < 10 then Char.ofNat (48 + n) else Char.ofNat (87 + n)

/-- Eight hex digits of a 32-bit word. -/
def wordHex (n : ℕ) : List Char :=
  [hexDigit (n / 2 ^ 28 % 16), hexDigit (n / 2 ^ 24 % 16),
   hexDigit (n / 2 ^ 20 % 16), hexDigit (n / 2 ^ 16 % 16),
   hexDigit (n / 2 ^ 12 % 16), hexDigit (n / 2 ^ 8 % 16),
   hexDigit (n / 2 ^ 4 % 16), hexDigit (n % 16)]

/-- `hashlib.sha256(bytes).hexdigest()`. -/
def sha256hex (msg : List ℕ) : List Char :=
  ((sha256 msg).map wordHex).flatten

/-- `hash_source_code(def_name, source_code_cleaned)`
(src/ingestion/src/ast_parsing/utils/db_utils.py, lines 30–52): remove
whole-word occurrences of the definition name unless it is falsy or
`"anonymous"`, normalize whitespace, hash. -/
def hash_source_code (def_name : String) (source_code_cleaned : String) : List Char :=
  let removed :=
    if def_name = "" ∨ def_name = "anonymous" then source_code_cleaned.data
    else subw def_name.data [] false source_code_cleaned.data
  sha256hex (utf8Encode (normalizeWs removed))

/-- The claim's input transformation: `B` with every whole-word
occurrence of `n` replaced by `n'` (the same boundary-respecting
substitution, with the new name as replacement). -/
def renameWord (n n' : String) (B : String) : String :=
  ⟨subw n.data n'.data false B.data⟩

end DbUtils

/-! ## Embedding upsert with vector-index mirroring
(src/ingestion/src/embeddings/generator.py, `_upsert_batch_async`)

A batch of documents is embedded, packed into float32 bytes, upserted
into the `embeddings` table with `ON CONFLICT(entity_type, entity_id)
DO UPDATE` (replacing vector, metadata and `updated_at`, keeping `id` and
`created_at`), and each returned row id is mirrored into the
`embeddings_vec` virtual table with `INSERT OR REPLACE`.  The embeddings
client and the byte packing are deterministic, modelled by the function
`embedBytes`. -/

namespace EmbeddingsUpsert

/-- A row of the `embeddings` table. -/
structure EmbRow where
  id : ℕ
  entity_type : String
  entity_id : ℕ
  entity_name : String
  file_path : String
  embedding_model : String
  embedding_dims : ℕ
  embedding : List ℕ
  created_at : ℕ
  updated_at : ℕ
deriving DecidableEq

/-- The relational table plus the sqlite-vec mirror (`rowid ↦ vector`). -/
structure Store where
  embeddings : List EmbRow
  next_id : ℕ
  vec_index : List (ℕ × List ℕ)
deriving DecidableEq

/-- One document of the batch. -/
structure UpsertDoc where
  entity_type : String
  entity_id : ℕ
  entity_name : String
  file_path : String
  page_content : String
deriving DecidableEq

/-- The upsert key of a table row. -/
def rowKey (r : EmbRow) : String × ℕ := (r.entity_type, r.entity_id)

/-- The upsert key of a document. -/
def docKey (d : UpsertDoc) : String × ℕ := (d.entity_type, d.entity_id)

/-- `INSERT OR REPLACE INTO embeddings_vec(rowid, embedding)`. -/
def vecReplace (idx : List (ℕ × List ℕ)) (rid : ℕ) (payload : List ℕ) :
    List (ℕ × List ℕ) :=
  if idx.any (fun e => decide (e.1 = rid)) then
    idx.map (fun e => if e.1 = rid then (rid, payload) else e)
  else idx ++ [(rid, payload)]

/-- The `DO UPDATE SET` clause applied to a conflicting row: metadata,
vector bytes and `updated_at` are replaced; `id` and `created_at` stay. -/
def updateRow (emodel : String) (dims : ℕ) (embedBytes : String → List ℕ) (now : ℕ)
    (doc : UpsertDoc) (q : EmbRow) : EmbRow :=
  { q with
    entity_name := doc.entity_name
    file_path := doc.file_path
    embedding_model := emodel
    embedding_dims := dims
    embedding := embedBytes doc.page_content
    updated_at := now }

/-- The row inserted for an unseen key, under the autoincrement id. -/
def freshRow (emodel : String) (dims : ℕ) (embedBytes : String → List ℕ) (now : ℕ)
    (nid : ℕ) (doc : UpsertDoc) : EmbRow :=
  { id := nid
  , entity_type := doc.entity_type
  , entity_id := doc.entity_id
  , entity_name := doc.entity_name
  , file_path := doc.file_path
  , embedding_model := emodel
  , embedding_dims := dims
  , embedding := embedBytes doc.page_content
  , created_at := now
  , updated_at := now }

/-- Upsert of one document: on a key conflict the existing row keeps its
`id` and `created_at` and receives the new metadata, vector bytes and
`updated_at`; otherwise a fresh row is inserted.  The returned id is then
mirrored into the vector index. -/
def upsertRow (emodel : String) (dims : ℕ) (embedBytes : String → List ℕ) (now : ℕ)
    (st : Store) (doc : UpsertDoc) : Store :=
  match st.embeddings.find? (fun r => decide (rowKey r = docKey doc)) with
  | some r =>
    { embeddings := st.embeddings.map (fun q =>
        if rowKey q = docKey doc then updateRow emodel dims embedBytes now doc q else q)
    , next_id := st.next_id
    , vec_index := vecReplace st.vec_index r.id (embedBytes doc.page_content) }
  | none =>
    { embeddings := st.embeddings ++ [freshRow emodel dims embedBytes now st.next_id doc]
    , next_id := st.next_id + 1
    , vec_index := vecReplace st.vec_index st.next_id (embedBytes doc.page_content) }

/-- `_upsert_batch_async` over a batch. -/
def upsert_batch (emodel : String) (dims : ℕ) (embedBytes : String → List ℕ) (now : ℕ)
    (st : Store) (docs : List UpsertDoc) : Store :=
  docs.foldl (upsertRow emodel dims embedBytes now) st

/-- Store well-formedness maintained by SQLite: distinct rowids below the
autoincrement cursor, and distinct vector-index rowids below it too. -/
def WFStore (st : Store) : Prop :=
  (st.embeddings.map EmbRow.id).Nodup ∧
  (∀ r ∈ st.embeddings, r.id < st.next_id) ∧
  ((st.vec_index.map Prod.fst).Nodup) ∧
  (∀ e ∈ st.vec_index, e.1 < st.next_id)

/-- Erase the only column the second run may change. -/
def stripRow (r : EmbRow) : EmbRow := { r with updated_at := 0 }

/-- Erase `updated_at` across the store. -/
def stripUpdated (st : Store) : Store :=
  { embeddings := st.embeddings.map stripRow, next_id := st.next_id
  , vec_index := st.vec_index }

/-- A document whose row and vector-index entry already hold exactly the
values the upsert would write (timestamps aside). -/
def settled (emodel : String) (dims : ℕ) (embedBytes : String → List ℕ)
    (st : Store) (d : UpsertDoc) : Prop :=
  ∃ r ∈ st.embeddings, rowKey r = docKey d ∧
    r.entity_name = d.entity_name ∧ r.file_path = d.file_path ∧
    r.embedding_model = emodel ∧ r.embedding_dims = dims ∧
    r.embedding = embedBytes d.page_content ∧
    (r.id, embedBytes d.page_content) ∈ st.vec_index

/-- A deterministic embedder for the witness: the byte length of the text. -/
def demoEmbed (s : String) : List ℕ := [s.utf8ByteSize % 256]

/-- A one-document batch for the witness. -/
def demoDoc : UpsertDoc :=
  { entity_type := "file", entity_id := 3, entity_name := "a.ts"
  , file_path := "a.ts", page_content := "summary text" }

/-- The empty store. -/
def emptyStore : Store := { embeddings := [], next_id := 1, vec_index := [] }

end EmbeddingsUpsert

/-! ## Incremental parse control flow (src/ingestion/src/ast_parsing/parser.py)

`recursive_parse_directory` decides between a full parse, an incremental
parse and an early no-op return by comparing the repository's stored
commit hash with the new one.  The filesystem, package discovery and
per-file hash diffing are supplied as an environment; what matters for
the claims is which effects run and what delta is recorded. -/

namespace AstParsing

/-- `RenamedFile` from database/types.py. -/
structure RenamedFile where
  old : String
  new : String
deriving DecidableEq

/-- The `GitChanges` record produced by the clone utility. -/
structure GitChanges where
  added : List String
  modified : List String
  deleted : List String
  renamed : List RenamedFile
deriving DecidableEq

/-- Per-file definition delta (`FileDefinitionDelta`). -/
structure FileDefinitionDelta where
  added : List ℕ
  removed : List ℕ
  unchanged : List ℕ
deriving DecidableEq

/-- `ParseDelta` from database/types.py: file-level change lists, global
definition id sets and the per-file map. -/
structure ParseDelta where
  files_added : List String
  files_modified : List String
  files_deleted : List String
  files_renamed : List RenamedFile
  definitions_added : List ℕ
  definitions_removed : List ℕ
  definitions_unchanged : List ℕ
  files_to_definitions : List (String × FileDefinitionDelta)
deriving DecidableEq

/-- A freshly constructed `ParseDelta()`. -/
def emptyDelta : ParseDelta :=
  { files_added := [], files_modified := [], files_deleted := [], files_renamed := []
  , definitions_added := [], definitions_removed := [], definitions_unchanged := []
  , files_to_definitions := [] }

/-- `ParseDelta.add_file_definition_delta`. -/
def addFileDelta (delta : ParseDelta) (p : String) (fd : FileDefinitionDelta) : ParseDelta :=
  { delta with
    definitions_added := delta.definitions_added ++ fd.added
  , definitions_removed := delta.definitions_removed ++ fd.removed
  , definitions_unchanged := delta.definitions_unchanged ++ fd.unchanged
  , files_to_definitions := delta.files_to_definitions ++ [(p, fd)] }

/-- The repository row fields the function consults. -/
structure Repository where
  commit_hash : Option String
  remote_origin_url : String
deriving DecidableEq

/-- Python truthiness of a nullable string column. -/
def truthyStr : Option String → Bool
  | none => false
  | some s => s ≠ ""

/-- The observable work of a parse run, in program order. -/
inductive Effect where
  | persistPackages
  | handleDeletionsRenames
  | parseFile (path : String)
deriving DecidableEq

/-- The counters of the returned `ParsedASTResult`. -/
structure ParsedASTResult where
  total_files : ℕ
  parsed_files : ℕ
  unparsed_files : ℕ
deriving DecidableEq

/-- What one invocation produces: the result record, the effect trace and
the parser's `current_delta` attribute afterwards. -/
structure RunOutcome where
  result : ParsedASTResult
  effects : List Effect
  current_delta : Option ParseDelta
deriving DecidableEq

/-- The environment standing in for the working tree and the per-file
hash-diffing machinery. -/
structure ParseEnv where
  all_files_full : List String
  supported : String → Bool
  file_exists : String → Bool
  perFile : String → FileDefinitionDelta

/-- The full-parse branch: list every file, persist packages, parse the
supported ones; `current_delta` is never initialized on this path. -/
def fullRun (env : ParseEnv) : RunOutcome :=
  let files_to_parse := env.all_files_full.filter env.supported
  let remaining := env.all_files_full.filter (fun f => !env.supported f)
  { result := { total_files := files_to_parse.length + remaining.length
              , parsed_files := files_to_parse.length
              , unparsed_files := remaining.length }
  , effects := Effect.persistPackages :: files_to_parse.map Effect.parseFile
  , current_delta := none }

/-- The incremental branch: initialize the delta, take the changed files
from the git diff, record file-level changes, handle deletions and
renames, then parse each changed file, folding its per-file definition
delta into `current_delta`. -/
def incrementalRun (git : GitChanges) (env : ParseEnv) : RunOutcome :=
  let changed := (git.added ++ git.modified).filter env.file_exists
  let files_to_parse := changed.filter env.supported
  let remaining := changed.filter (fun f => !env.supported f)
  let delta0 : ParseDelta :=
    { emptyDelta with
      files_added := git.added, files_modified := git.modified
    , files_deleted := git.deleted, files_renamed := git.renamed }
  { result := { total_files := files_to_parse.length + remaining.length
              , parsed_files := files_to_parse.length
              , unparsed_files := remaining.length }
  , effects := Effect.persistPackages :: Effect.handleDeletionsRenames ::
      files_to_parse.map Effect.parseFile
  , current_delta := some (files_to_parse.foldl
      (fun d p => addFileDelta d p (env.perFile p)) delta0) }

/-- `recursive_parse_directory`: with a stored commit, a truthy new
commit and equal hashes the function returns an empty result before any
package discovery, persistence or per-file work; unequal hashes take the
incremental branch; otherwise a full parse runs. -/
def recursive_parse_directory (repository : Option Repository)
    (new_commit_hash : Option String) (git : GitChanges) (env : ParseEnv) : RunOutcome :=
  match repository with
  | some repo =>
    if truthyStr repo.commit_hash && truthyStr new_commit_hash then
      if new_commit_hash ≠ repo.commit_hash then
        incrementalRun git env
      else
        { result := { total_files := 0, parsed_files := 0, unparsed_files := 0 }
        , effects := [], current_delta := none }
    else fullRun env
  | none => fullRun env

/-- Read of the run's delta as change sets: a run that never initialized
`current_delta` recorded no changes. -/
def deltaView : Option ParseDelta → ParseDelta
  | none => emptyDelta
  | some d => d

end AstParsing

/-! ## Hybrid search merging (src/ingestion/src/embeddings/search.py)

`hybrid_search` concatenates the vector results (no entity-type filter)
with the definition-name and file-path FTS results, deduplicates by
`(entity_type, entity_id)` keeping the strictly lowest distance, sorts by
ascending distance and truncates to `top_k`. -/

namespace SemanticSearch

/-- A result row as the merger sees it: every backend sets `distance`
(vector distance or BM25 rank) before `hybrid_search` runs. -/
structure SRow where
  entity_type : String
  entity_id : Int
  entity_name : String
  distance : ℚ
  ai_summary : Option String
deriving DecidableEq

/-- The dedup key `(entity_type, entity_id)`. -/
def rkey (r : SRow) : String × Int := (r.entity_type, r.entity_id)

/-- One step of the dedup loop: python keeps a dict `best` keyed by
`rkey`, inserting an unseen key at the end (dict insertion order) and
replacing the stored row when the incoming row's distance is strictly
lower.  The dict is modelled as a list with pairwise-distinct keys. -/
def insertBest (acc : List SRow) (r : SRow) : List SRow :=
  if acc.any (fun v => decide (rkey v = rkey r)) then
    acc.map (fun v => if rkey v = rkey r ∧ r.distance < v.distance then r else v)
  else acc ++ [r]

/-- Ascending-distance order used by `merged.sort(key=...distance)`. -/
def sortLE (a b : SRow) : Prop := a.distance ≤ b.distance

instance : DecidableRel sortLE := fun a b => inferInstanceAs (Decidable (a.distance ≤ b.distance))

instance : IsTotal SRow sortLE := ⟨fun a b => le_total a.distance b.distance⟩

instance : IsTrans SRow sortLE := ⟨fun _ _ _ h h' => le_trans h h'⟩

/-- `hybrid_search`: concatenate, deduplicate keeping best, sort
ascending, truncate to `top_k`. -/
def hybrid_search (vec fts_defs fts_files : List SRow) (top_k : ℕ) : List SRow :=
  ((((vec ++ fts_defs) ++ fts_files).foldl insertBest []).insertionSort sortLE).take top_k

/-- A vector hit and an FTS hit for the same definition entity. -/
def vrow : SRow :=
  { entity_type := "definition", entity_id := 4, entity_name := "walk"
  , distance := 1, ai_summary := some "walks" }

/-- The FTS row for the same entity as `vrow`, at a larger distance. -/
def frow : SRow :=
  { entity_type := "definition", entity_id := 4, entity_name := "walk"
  , distance := 3, ai_summary := some "walks" }

end SemanticSearch

/-! ## Definition-group summarization
(src/ingestion/src/ai_analysis/parallel_summaries.py,
`generate_definition_summary_async`)

The task receives the set of definition ids of one SCC group.  For each
definition it skips cached or persisted summaries, verifies that every
resolved reference outside the group has a summary available, raises a
`Missing dependencies` error otherwise, and only then invokes the LLM. -/

namespace DefinitionSummaries

/-- A row of the `references` relationship of a definition. -/
structure Reference where
  target_definition_id : Option ℕ
  reference_name : String
deriving DecidableEq

/-- The columns of a `definitions` row that the task reads. -/
structure Definition where
  id : ℕ
  name : String
  definition_type : String
  ai_summary : Option String
  references : List Reference
deriving DecidableEq

/-- Python truthiness of a nullable text column (`None` and `""` are falsy). -/
def truthy : Option String → Bool
  | none => false
  | some s => s ≠ ""

/-- `session.query(DefinitionModel).filter(DefinitionModel.id == i).first()`. -/
def findDef (db : List Definition) (i : ℕ) : Option Definition :=
  db.find? (fun d => d.id == i)

/-- The membership test against `definition_summary_cache` (a dict keyed
by definition id). -/
def cachedIds (cache : List (ℕ × String)) : List ℕ := cache.map Prod.fst

/-- The per-reference test of parallel_summaries.py lines 123-134.  The
python expression is a conditional expression: the whole conjunction is
evaluated only when `ref.target_definition` (the ORM relationship, i.e.
the resolved row) exists, `else False`.  Inside: the raw foreign key must
be truthy (a positive id), differ from the definition's own id, lie
outside the group being processed jointly, be absent from the in-memory
cache, and the resolved row's persisted `ai_summary` must be falsy. -/
def refMissing (db : List Definition) (cache : List (ℕ × String))
    (group : List ℕ) (defn : Definition) (ref : Reference) : Bool :=
  match ref.target_definition_id with
  | none => false
  | some tid =>
    match findDef db tid with
    | none => false
    | some target =>
      (tid != 0) && (tid != defn.id) && !(group.contains tid)
        && !((cachedIds cache).contains tid) && !(truthy target.ai_summary)

/-- The `missing_deps` list accumulated before the raise, one
`"reference:{name}"` entry per offending reference. -/
def missing_deps (db : List Definition) (cache : List (ℕ × String))
    (group : List ℕ) (defn : Definition) : List String :=
  (defn.references.filter (refMissing db cache group defn)).map
    (fun ref => "reference:" ++ ref.reference_name)

/-- The two failure modes of the task. -/
inductive SummaryError where
  | defNotFound (i : ℕ)
  | missingDeps (msgs : List String)
deriving DecidableEq

/-- The body of the `for definition_id in definition_ids` loop for one id:
query the row (raise if absent), skip if cached, prime the cache and skip
if persisted, raise `missingDeps` if a non-group dependency lacks a
summary, otherwise call the LLM and record the result.  The boolean marks
whether the LLM was invoked for this id. -/
def process_definition (db : List Definition) (group : List ℕ)
    (llm : Definition → String) (cache : List (ℕ × String)) (i : ℕ) :
    Except SummaryError (List (ℕ × String) × Bool) :=
  match findDef db i with
  | none => .error (.defNotFound i)
  | some defn =>
    if (cachedIds cache).contains i then .ok (cache, false)
    else if truthy defn.ai_summary then .ok ((i, defn.ai_summary.getD "") :: cache, false)
    else
      match missing_deps db cache group defn with
      | [] => .ok ((i, llm defn) :: cache, true)
      | msg :: more => .error (.missingDeps (msg :: more))

/-- The loop over the group's ids.  `group` stays the full id set (the
python closure captures `definition_ids`); the first component collects
the ids for which the LLM was actually invoked. -/
def runGroup (db : List Definition) (llm : Definition → String) (group : List ℕ) :
    List (ℕ × String) → List ℕ → List ℕ × Except SummaryError (List (ℕ × String))
  | cache, [] => ([], .ok cache)
  | cache, i :: rest =>
    match process_definition db group llm cache i with
    | .error e => ([], .error e)
    | .ok (cache', called) =>
      ((if called then [i] else []) ++ (runGroup db llm group cache' rest).1,
        (runGroup db llm group cache' rest).2)

/-- `generate_definition_summary_async` on one SCC group, starting from
the current in-memory cache. -/
def generate_definition_summary_async (db : List Definition)
    (llm : Definition → String) (group : List ℕ) (cache : List (ℕ × String)) :
    List ℕ × Except SummaryError (List (ℕ × String)) :=
  runGroup db llm group cache group

/-- A dependency definition with no summary anywhere. -/
def depDef : Definition :=
  { id := 2, name := "dep", definition_type := "function"
  , ai_summary := none, references := [] }

/-- A definition whose only resolved reference is `depDef`. -/
def mainDef : Definition :=
  { id := 1, name := "main", definition_type := "function"
  , ai_summary := none
  , references := [{ target_definition_id := some 2, reference_name := "dep" }] }

end DefinitionSummaries

/-! ## Batched traversal order over the definition DAG
(src/ingestion/src/ai_analysis/parallel_summaries.py,
`compute_batched_traversal_order`, lines 49-82)

The NetworkX pipeline: reverse the graph, list its strongly connected
components, condense, take the transitive reduction, and peel
topological generations.  Component order follows first representatives
rather than the DFS order NetworkX uses; permuting component indices
relabels condensation nodes but leaves the sequence of levels of member
groups unchanged, which is all the claim speaks about. -/

namespace DagTraversal

/-- A directed graph of definition ids (`IdGraph = nx.DiGraph[int]`),
as its node list and edge list. -/
structure IdGraph where
  nodes : List ℕ
  edges : List (ℕ × ℕ)

/-- Edge endpoints are nodes. -/
def WF (g : IdGraph) : Prop :=
  ∀ e ∈ g.edges, e.1 ∈ g.nodes ∧ e.2 ∈ g.nodes

/-- `graph.reverse(copy=False)`: every edge flipped. -/
def reverse (g : IdGraph) : IdGraph :=
  { nodes := g.nodes, edges := g.edges.map (fun e => (e.2, e.1)) }

/-- Fuel-bounded existence of a directed path (the fuel bounds the
number of edges on the path). -/
def reachB (edges : List (ℕ × ℕ)) : ℕ → ℕ → ℕ → Bool
  | 0, u, v => u == v
  | fuel + 1, u, v =>
    u == v || edges.any (fun e => e.1 == u && reachB edges fuel e.2 v)

/-- Reachability: a simple path repeats no edge, so `edges.length` fuel
is exhaustive. -/
def reaches (edges : List (ℕ × ℕ)) (u v : ℕ) : Bool :=
  reachB edges edges.length u v

/-- Mutual reachability: `u` and `v` lie in the same strongly connected
component. -/
def eqv (edges : List (ℕ × ℕ)) (u v : ℕ) : Bool :=
  reaches edges u v && reaches edges v u

/-- The strongly connected component of `u`, as the sublist of nodes
mutually reachable with `u`. -/
def sccOf (g : IdGraph) (u : ℕ) : List ℕ :=
  g.nodes.filter (fun v => eqv g.edges u v)

/-- `list(nx.strongly_connected_components(graph))`: the distinct
components, one list per component (indexed in first-representative
order; nx uses DFS order, which permutes component indices but yields
the same levels of member groups). -/
def sccsList (g : IdGraph) : List (List ℕ) :=
  (g.nodes.map (sccOf g)).dedup

/-- Position of the first occurrence of `x` in `l`. -/
def idxIn (l : List (List ℕ)) (x : List ℕ) : ℕ :=
  match l with
  | [] => 0
  | y :: ys => if y = x then 0 else idxIn ys x + 1

/-- The condensation index of node `v`: the position of its component
in `sccsList`. -/
def sccIdx (g : IdGraph) (v : ℕ) : ℕ :=
  idxIn (sccsList g) (sccOf g v)

/-- `nx.condensation(graph, sccs)`: nodes are component indices, with
an edge between the components of every original edge that crosses
components (no self-loops, duplicates collapsed). -/
def condensation (g : IdGraph) : IdGraph :=
  { nodes := List.range (sccsList g).length
  , edges :=
      ((g.edges.map (fun e => (sccIdx g e.1, sccIdx g e.2))).filter
        (fun e => decide (e.1 ≠ e.2))).dedup }

/-- `nx.transitive_reduction`: an edge `(u, v)` survives iff `v` is not
a strict descendant of another successor of `u`. -/
def transitive_reduction (g : IdGraph) : IdGraph :=
  { nodes := g.nodes
  , edges := g.edges.filter (fun e =>
      !(g.edges.any (fun f =>
        f.1 == e.1 && reaches g.edges f.2 e.2 && f.2 != e.2))) }

/-- No edge from a remaining node enters `v`. -/
def noIncoming (edges : List (ℕ × ℕ)) (rem : List ℕ) (v : ℕ) : Bool :=
  !(edges.any (fun e => decide (e.1 ∈ rem) && e.2 == v))

/-- `nx.topological_generations`: repeatedly peel the nodes with no
incoming edge from the remaining nodes (the fuel is instantiated with
the node count; on a DAG each round peels at least one node). -/
def topoGens (edges : List (ℕ × ℕ)) : ℕ → List ℕ → List (List ℕ)
  | 0, _ => []
  | fuel + 1, rem =>
    if rem.isEmpty then []
    else
      let gen := rem.filter (noIncoming edges rem)
      if gen.isEmpty then []
      else gen :: topoGens edges fuel (rem.filter (fun v => !noIncoming edges rem v))

/-- `compute_batched_traversal_order`
(src/ingestion/src/ai_analysis/parallel_summaries.py, lines 49–82):
reverse the graph, condense its strongly connected components, take the
transitive reduction, and return the topological generations with each
condensation index mapped back to its member group through `node_map`. -/
def compute_batched_traversal_order (g : IdGraph) : List (List (List ℕ)) :=
  let rg := reverse g
  let sccs := sccsList rg
  let condensed := condensation rg
  let reduced := transitive_reduction condensed
  (topoGens reduced.edges reduced.nodes.length reduced.nodes).map
    (fun gen => gen.map (fun i => sccs.getD i []))

/-- The edge relation of an edge list. -/
def edgeRel (edges : List (ℕ × ℕ)) (a b : ℕ) : Prop := (a, b) ∈ edges

/-- Number of nodes reachable from `a` (the rank strictly decreases
along edges of a DAG). -/
def rank (h : IdGraph) (a : ℕ) : ℕ :=
  (h.nodes.filter (fun x => reaches h.edges a x)).length

end DagTraversal


/-! ### Theorems for claims C5, C8, C6, C10 -/

/-- The batch loop never emits a sleep when the alias binding is zero. -/
theorem runBatches_no_sleep (delay : ℚ) (bs : List (List ℕ)) :
    ∀ c : SummariesCounters.CounterState, c.parallel_alias = 0 →
      (((SummariesCounters.runBatches delay c bs).1.filter
        SummariesCounters.isSleep) = []) := by
  induction bs with
  | nil => intro c _; rfl
  | cons b rest ih =>
    intro c halias
    simp only [SummariesCounters.runBatches, List.filter_cons, List.filter_append]
    rw [if_neg (by simp [SummariesCounters.isSleep])]
    have hsleep : (if rest ≠ [] ∧ 0 < c.parallel_alias
        then [SummariesCounters.LevelEvent.sleep delay]
        else ([] : List SummariesCounters.LevelEvent)) = [] := by
      rw [if_neg]
      intro h
      rw [halias] at h
      exact absurd h.2 (by decide)
    rw [hsleep]
    simp only [List.filter_nil, List.nil_append]
    exact ih _ halias

/-- C5 counterexample: a full-text-search row whose `distance` is the
BM25 rank `-2` is shaped successfully, but its similarity score
`1 / (1 + (-2)) = -1` lies outside `[0, 1]`, so the claimed invariant
`0 ≤ similarity_score ≤ 1` fails on BM25 rows. -/
theorem c5_bm25_similarity_out_of_range :
    (ApiMain.shape_row ApiMain.bm25Row =
      .ok { entity_type := "definition", entity_id := 7
          , similarity_score := -1, summary_text := "Parses input." }) ∧
    ApiMain.to_similarity ApiMain.bm25Row.distance < 0 := by
  have hval : ApiMain.to_similarity ApiMain.bm25Row.distance = -1 := by
    show (1 : ℚ) / (1 + -2) = -1
    norm_num
  constructor
  · calc ApiMain.shape_row ApiMain.bm25Row
        = .ok { entity_type := "definition", entity_id := 7
              , similarity_score := ApiMain.to_similarity ApiMain.bm25Row.distance
              , summary_text := "Parses input." } := rfl
      _ = _ := by rw [hval]
  · rw [hval]
    norm_num

/-- C5 amended: every successfully shaped row has
`entity_type ∈ {file, definition}`, carries the input's entity id, and —
provided the row's distance is absent or nonnegative (true of vector
distances, not of BM25 ranks) — a similarity score in `[0, 1]`;
positivity of the id transfers from the store's rows. -/
theorem c5_shape_row_bounds (r : ApiMain.SearchRow) (s : ApiMain.ShapedResult)
    (hid : 0 < r.entity_id)
    (hd : ∀ d, r.distance = some d → 0 ≤ d)
    (hs : ApiMain.shape_row r = .ok s) :
    (s.entity_type = "file" ∨ s.entity_type = "definition") ∧
    0 < s.entity_id ∧ 0 ≤ s.similarity_score ∧ s.similarity_score ≤ 1 := by
  unfold ApiMain.shape_row at hs
  by_cases ht : r.entity_type = "file" ∨ r.entity_type = "definition"
  · rw [if_pos ht] at hs
    injection hs with hs
    subst hs
    refine ⟨ht, hid, ?_, ?_⟩
    · show (0 : ℚ) ≤ ApiMain.to_similarity r.distance
      cases hrd : r.distance with
      | none => simp [ApiMain.to_similarity]
      | some d =>
        have hd0 : 0 ≤ d := hd d hrd
        have hpos : (0 : ℚ) < 1 + d := by linarith
        simp only [ApiMain.to_similarity]
        positivity
    · show ApiMain.to_similarity r.distance ≤ 1
      cases hrd : r.distance with
      | none => simp [ApiMain.to_similarity]
      | some d =>
        have hd0 : 0 ≤ d := hd d hrd
        have hpos : (0 : ℚ) < 1 + d := by linarith
        simp only [ApiMain.to_similarity]
        rw [div_le_one hpos]
        linarith
  · rw [if_neg ht] at hs
    exact absurd hs (by simp)

/-- Witness for `c5_shape_row_bounds` at a vector row of distance `1`. -/
theorem c5_shape_row_bounds_witness :
    ("definition" = "file" ∨ "definition" = "definition") ∧
    (0 : Int) < 3 ∧
    (0 : ℚ) ≤ ApiMain.to_similarity (some 1) ∧
    ApiMain.to_similarity (some 1) ≤ 1 := by
  have h := c5_shape_row_bounds
    { entity_type := "definition", entity_id := 3, entity_name := "g"
    , distance := some 1, ai_summary := none }
    { entity_type := "definition", entity_id := 3
    , similarity_score := ApiMain.to_similarity (some 1), summary_text := "" }
    (by decide)
    (by intro d hd; injection hd with hd; rw [← hd]; norm_num)
    rfl
  exact ⟨h.1, h.2.1, h.2.2.1, h.2.2.2⟩

/-- C8 counterexample: for a definition with summary `"S"`, name `"f"` and
kind `"function"`, the incremental (per-definition-id) path sends the bare
summary `"S"` to the embeddings service, which differs from the
`summary + "\n\nName: ...\nType: ..."` content the claim asserts for both
paths. -/
theorem c8_incremental_page_content_unsuffixed :
    (EmbeddingsGenerator.defn_rows_for_ids [EmbeddingsGenerator.demoDef] [1]).map
        (fun doc => doc.page_content) = ["S"] ∧
    EmbeddingsGenerator.fullDefPage EmbeddingsGenerator.demoDef
      = "S\n\nName: f\nType: function" ∧
    (("S" : String) == "S\n\nName: f\nType: function") = false := by
  refine ⟨rfl, rfl, by decide⟩

/-- C8 amended: on the full path every emitted document's page content is
the stored summary followed by `"\n\nName: {name}\nType: {kind}"`, while on
the incremental per-definition-id path every emitted document's page
content is the stored summary alone (no suffix). -/
theorem c8_page_content_by_path (defs : List EmbeddingsGenerator.DefRecord)
    (ids : List ℕ) (doc : EmbeddingsGenerator.EmbedDoc) :
    (doc ∈ EmbeddingsGenerator.iter_definition_rows defs →
      ∃ d ∈ defs, EmbeddingsGenerator.hasSummary d.ai_summary = true ∧
        doc.page_content =
          (d.ai_summary.getD "") ++ "\n\nName: " ++ d.name ++ "\nType: " ++ d.definition_type) ∧
    (doc ∈ EmbeddingsGenerator.defn_rows_for_ids defs ids →
      ∃ d ∈ defs, EmbeddingsGenerator.hasSummary d.ai_summary = true ∧
        doc.page_content = d.ai_summary.getD "") := by
  constructor
  · intro hmem
    simp only [EmbeddingsGenerator.iter_definition_rows, List.mem_map,
      List.mem_filter] at hmem
    obtain ⟨d, ⟨hd, hsum⟩, hdoc⟩ := hmem
    exact ⟨d, hd, hsum, by rw [← hdoc]; rfl⟩
  · intro hmem
    simp only [EmbeddingsGenerator.defn_rows_for_ids, List.mem_map,
      List.mem_filter] at hmem
    obtain ⟨d, ⟨⟨hd, _⟩, hsum⟩, hdoc⟩ := hmem
    exact ⟨d, hd, hsum, by rw [← hdoc]⟩

/-- Witness for `c8_page_content_by_path` on a one-element store. -/
theorem c8_page_content_by_path_witness :
    ∃ d ∈ [EmbeddingsGenerator.demoDef],
      EmbeddingsGenerator.hasSummary d.ai_summary = true ∧
      ({ page_content := "S", entity_type := "definition", entity_id := 1
        : EmbeddingsGenerator.EmbedDoc }).page_content = d.ai_summary.getD "" :=
  (c8_page_content_by_path [EmbeddingsGenerator.demoDef] [1]
    { page_content := "S", entity_type := "definition", entity_id := 1 }).2
    (by decide)

/-- C6 (code bug) evaluation: a level of two singleton batches
(`min_batch_size = 1`, rate budget 15) whose first batch generates one
summary.  The claim requires a sleep of `batch_size / max_requests_per_second`
between the two batches; the code executes both batches with no sleep
event because `process_level` consults the never-rebound from-import
binding, even though the summaries module's counter is `1 > 0` after the
first batch. -/
theorem c6_no_sleep_despite_generated_summary :
    (SummariesCounters.process_level 1 15 [1, 0]
        SummariesCounters.importTimeBinding).1.filter SummariesCounters.isSleep = [] ∧
    (SummariesCounters.process_level 1 15 [1, 0]
        SummariesCounters.importTimeBinding).2.summaries_generated = 1 ∧
    (SummariesCounters.process_level 1 15 [1, 0]
        SummariesCounters.importTimeBinding).2.parallel_alias = 0 := by
  refine ⟨?_, ?_, ?_⟩ <;> rfl

/-- C6 general form: starting from any state whose `parallel_summaries`
alias binding is zero — which import time establishes and nothing ever
changes — `process_level` emits no sleep event whatever the level shape,
batch size or rate budget. -/
theorem c6_sleep_never_fires (min_batch_size mrps : ℕ) (gen_counts : List ℕ)
    (c : SummariesCounters.CounterState) (halias : c.parallel_alias = 0) :
    (SummariesCounters.process_level min_batch_size mrps gen_counts c).1.filter
      SummariesCounters.isSleep = [] := by
  unfold SummariesCounters.process_level
  by_cases hnil : gen_counts = []
  · rw [if_pos hnil]; rfl
  · rw [if_neg hnil]
    exact runBatches_no_sleep _ _ c halias

/-- Witness for `c6_sleep_never_fires` at the import-time state. -/
theorem c6_sleep_never_fires_witness :
    (SummariesCounters.process_level 2 15 [1, 1, 0]
        SummariesCounters.importTimeBinding).1.filter SummariesCounters.isSleep = [] :=
  c6_sleep_never_fires 2 15 [1, 1, 0] SummariesCounters.importTimeBinding rfl

namespace SemanticSearch

/-- Invariants of the dedup fold of `hybrid_search`: after consuming any
prefix `base` of the concatenated results, the accumulator has pairwise
distinct keys, holds only rows drawn from `base`, each stored row's
distance is minimal among the `base` rows of its key, and every key seen
in `base` is represented. -/
theorem insertBest_foldl_spec :
    ∀ (todo acc base : List SRow),
      ((acc.map rkey).Nodup) →
      (∀ r ∈ acc, r ∈ base) →
      (∀ r ∈ acc, ∀ s ∈ base, rkey s = rkey r → r.distance ≤ s.distance) →
      (∀ s ∈ base, ∃ r ∈ acc, rkey r = rkey s) →
      (((todo.foldl insertBest acc).map rkey).Nodup) ∧
      (∀ r ∈ todo.foldl insertBest acc, r ∈ base ++ todo) ∧
      (∀ r ∈ todo.foldl insertBest acc, ∀ s ∈ base ++ todo,
        rkey s = rkey r → r.distance ≤ s.distance) := by
  intro todo
  induction todo with
  | nil =>
    intro acc base h1 h2 h3 _
    refine ⟨h1, ?_, ?_⟩
    · intro r hr; rw [List.append_nil]; exact h2 r hr
    · intro r hr s hs hk
      rw [List.append_nil] at hs
      exact h3 r hr s hs hk
  | cons x ts ih =>
    intro acc base h1 h2 h3 h4
    have hfold : (x :: ts).foldl insertBest acc = ts.foldl insertBest (insertBest acc x) := rfl
    have happ : base ++ x :: ts = (base ++ [x]) ++ ts := by
      rw [List.append_assoc]; rfl
    rw [hfold, happ]
    by_cases h : acc.any (fun v => decide (rkey v = rkey x)) = true
    · -- key already present: python updates the dict entry in place
      have hins : insertBest acc x =
          acc.map (fun v => if rkey v = rkey x ∧ x.distance < v.distance then x else v) := by
        unfold insertBest; rw [if_pos h]
      obtain ⟨w, hw, hwk⟩ := List.any_eq_true.1 h
      have hwk' : rkey w = rkey x := of_decide_eq_true hwk
      have keyf : ∀ v : SRow,
          rkey (if rkey v = rkey x ∧ x.distance < v.distance then x else v) = rkey v := by
        intro v
        by_cases hc : rkey v = rkey x ∧ x.distance < v.distance
        · rw [if_pos hc, hc.1]
        · rw [if_neg hc]
      apply ih
      · -- keys unchanged
        rw [hins, List.map_map]
        have hmm : (acc.map (rkey ∘ fun v =>
            if rkey v = rkey x ∧ x.distance < v.distance then x else v)) = acc.map rkey :=
          List.map_congr_left (fun v _ => keyf v)
        rw [hmm]; exact h1
      · intro r hr
        rw [hins] at hr
        obtain ⟨v, hv, hfv⟩ := List.mem_map.1 hr
        by_cases hc : rkey v = rkey x ∧ x.distance < v.distance
        · rw [if_pos hc] at hfv
          rw [← hfv]
          exact List.mem_append.2 (Or.inr (List.mem_singleton.2 rfl))
        · rw [if_neg hc] at hfv
          rw [← hfv]
          exact List.mem_append.2 (Or.inl (h2 v hv))
      · intro r hr s hs hk
        rw [hins] at hr
        obtain ⟨v, hv, hfv⟩ := List.mem_map.1 hr
        have hkr : rkey r = rkey v := by rw [← hfv]; exact keyf v
        rcases List.mem_append.1 hs with hsb | hsx
        · -- s was processed before x
          by_cases hc : rkey v = rkey x ∧ x.distance < v.distance
          · rw [if_pos hc] at hfv
            have hvs : v.distance ≤ s.distance := h3 v hv s hsb (by rw [hk, hkr])
            rw [← hfv]
            exact le_of_lt (lt_of_lt_of_le hc.2 hvs)
          · rw [if_neg hc] at hfv
            rw [← hfv]
            exact h3 v hv s hsb (by rw [hk, hkr, hfv])
        · -- s is x itself
          have hsx' : s = x := List.mem_singleton.1 hsx
          rw [hsx'] at hk ⊢
          by_cases hc : rkey v = rkey x ∧ x.distance < v.distance
          · rw [if_pos hc] at hfv; rw [← hfv]
          · rw [if_neg hc] at hfv
            rw [← hfv]
            by_contra hlt
            push_neg at hlt
            exact hc ⟨hkr.symm.trans hk.symm, hlt⟩
      · intro s hs
        rcases List.mem_append.1 hs with hsb | hsx
        · obtain ⟨v, hv, hvk⟩ := h4 s hsb
          refine ⟨(if rkey v = rkey x ∧ x.distance < v.distance then x else v), ?_, ?_⟩
          · rw [hins]; exact List.mem_map.2 ⟨v, hv, rfl⟩
          · rw [keyf v]; exact hvk
        · have hsx' : s = x := List.mem_singleton.1 hsx
          rw [hsx']
          refine ⟨(if rkey w = rkey x ∧ x.distance < w.distance then x else w), ?_, ?_⟩
          · rw [hins]; exact List.mem_map.2 ⟨w, hw, rfl⟩
          · rw [keyf w]; exact hwk'
    · -- unseen key: python appends a fresh dict entry
      have hins : insertBest acc x = acc ++ [x] := by
        unfold insertBest; rw [if_neg h]
      have hnone : ∀ v ∈ acc, ¬ (rkey v = rkey x) := by
        intro v hv hvk
        exact h (List.any_eq_true.2 ⟨v, hv, decide_eq_true hvk⟩)
      apply ih
      · rw [hins, List.map_append]
        rw [List.nodup_append]
        refine ⟨h1, List.nodup_singleton _, ?_⟩
        intro k hk hk'
        obtain ⟨v, hv, hvk⟩ := List.mem_map.1 hk
        have hkx : k = rkey x := List.mem_singleton.1 hk'
        exact hnone v hv (by rw [hvk, hkx])
      · intro r hr
        rw [hins] at hr
        rcases List.mem_append.1 hr with hra | hrx
        · exact List.mem_append.2 (Or.inl (h2 r hra))
        · exact List.mem_append.2 (Or.inr hrx)
      · intro r hr s hs hk
        rw [hins] at hr
        rcases List.mem_append.1 hr with hra | hrx
        · rcases List.mem_append.1 hs with hsb | hsx
          · exact h3 r hra s hsb hk
          · have hsx' : s = x := List.mem_singleton.1 hsx
            rw [hsx'] at hk
            exact absurd hk.symm (hnone r hra)
        · have hrx' : r = x := List.mem_singleton.1 hrx
          rcases List.mem_append.1 hs with hsb | hsx
          · obtain ⟨v, hv, hvk⟩ := h4 s hsb
            rw [hrx'] at hk
            exact absurd (by rw [hvk, hk]) (hnone v hv)
          · have hsx' : s = x := List.mem_singleton.1 hsx
            rw [hrx', hsx']
      · intro s hs
        rcases List.mem_append.1 hs with hsb | hsx
        · obtain ⟨v, hv, hvk⟩ := h4 s hsb
          exact ⟨v, by rw [hins]; exact List.mem_append.2 (Or.inl hv), hvk⟩
        · have hsx' : s = x := List.mem_singleton.1 hsx
          rw [hsx']
          exact ⟨x, by rw [hins]; exact List.mem_append.2 (Or.inr (List.mem_singleton.2 rfl)), rfl⟩

end SemanticSearch

/-- C4: `hybrid_search` returns at most `top_k` rows with pairwise
distinct `(entity_type, entity_id)` keys; every returned row is one of
the input rows and its distance is the minimum distance of its key over
all vector and FTS input rows; and the output is sorted by ascending
distance.  In particular an entity found by both vector search and FTS
appears exactly once. -/
theorem c4_hybrid_search_dedup_spec (vec fts_defs fts_files : List SemanticSearch.SRow)
    (top_k : ℕ) :
    (SemanticSearch.hybrid_search vec fts_defs fts_files top_k).length ≤ top_k ∧
    ((SemanticSearch.hybrid_search vec fts_defs fts_files top_k).map
      SemanticSearch.rkey).Nodup ∧
    (∀ r ∈ SemanticSearch.hybrid_search vec fts_defs fts_files top_k,
      r ∈ (vec ++ fts_defs) ++ fts_files ∧
      ∀ s ∈ (vec ++ fts_defs) ++ fts_files,
        SemanticSearch.rkey s = SemanticSearch.rkey r → r.distance ≤ s.distance) ∧
    (SemanticSearch.hybrid_search vec fts_defs fts_files top_k).Sorted
      SemanticSearch.sortLE := by
  obtain ⟨h1, h2, h3⟩ := SemanticSearch.insertBest_foldl_spec
    ((vec ++ fts_defs) ++ fts_files) [] []
    (by simp) (by intro r hr; exact absurd hr (List.not_mem_nil r))
    (by intro r hr; exact absurd hr (List.not_mem_nil r))
    (by intro s hs; exact absurd hs (List.not_mem_nil s))
  rw [List.nil_append] at h2 h3
  have hperm : List.Perm
      ((((vec ++ fts_defs) ++ fts_files).foldl
        SemanticSearch.insertBest []).insertionSort SemanticSearch.sortLE)
      (((vec ++ fts_defs) ++ fts_files).foldl SemanticSearch.insertBest []) :=
    List.perm_insertionSort _ _
  refine ⟨List.length_take_le _ _, ?_, ?_, ?_⟩
  · have hnd : (((((vec ++ fts_defs) ++ fts_files).foldl
        SemanticSearch.insertBest []).insertionSort SemanticSearch.sortLE).map
        SemanticSearch.rkey).Nodup :=
      ((hperm.map SemanticSearch.rkey).nodup_iff).2 h1
    exact hnd.sublist ((List.take_sublist _ _).map SemanticSearch.rkey)
  · intro r hr
    have hr' : r ∈ ((vec ++ fts_defs) ++ fts_files).foldl SemanticSearch.insertBest [] :=
      hperm.mem_iff.1 (List.take_subset _ _ hr)
    exact ⟨h2 r hr', h3 r hr'⟩
  · exact (List.sorted_insertionSort SemanticSearch.sortLE _).sublist
      (List.take_sublist _ _)

/-- Witness for `c4_hybrid_search_dedup_spec`: the same definition entity
found by vector search (distance 1) and FTS (distance 3). -/
theorem c4_hybrid_search_dedup_spec_witness :
    (SemanticSearch.hybrid_search [SemanticSearch.vrow] [SemanticSearch.frow] [] 10).length ≤ 10 ∧
    SemanticSearch.vrow.distance ≤ SemanticSearch.frow.distance := by
  have h := c4_hybrid_search_dedup_spec [SemanticSearch.vrow] [SemanticSearch.frow] [] 10
  refine ⟨h.1, ?_⟩
  have hmem := h.2.2.1 SemanticSearch.vrow (by decide)
  exact hmem.2 SemanticSearch.frow (by decide) (by decide)

namespace DefinitionSummaries

/-- A found row carries the id it was searched by. -/
theorem findDef_id {db : List Definition} {i : ℕ} {d : Definition}
    (h : findDef db i = some d) : d.id = i := by
  have hb := List.find?_some h
  simpa using hb

/-- A found row belongs to the table. -/
theorem findDef_mem {db : List Definition} {i : ℕ} {d : Definition}
    (h : findDef db i = some d) : d ∈ db :=
  List.mem_of_find?_eq_some h

/-- Growing the cache by group members only does not change the
per-reference missing test: targets inside the group are excluded anyway. -/
theorem refMissing_congr (db : List Definition) (group : List ℕ) (defn : Definition)
    (cache cache' : List (ℕ × String)) (ref : Reference)
    (hsub : ∀ j, j ∈ cachedIds cache → j ∈ cachedIds cache')
    (hadd : ∀ j, j ∈ cachedIds cache' → j ∈ cachedIds cache ∨ j ∈ group) :
    refMissing db cache' group defn ref = refMissing db cache group defn ref := by
  cases htid : ref.target_definition_id with
  | none => simp [refMissing, htid]
  | some tid =>
    cases hfd : findDef db tid with
    | none => simp [refMissing, htid, hfd]
    | some target =>
      simp only [refMissing, htid, hfd]
      by_cases hg : tid ∈ group
      · have hgc : group.contains tid = true := by
          simpa [List.contains, List.elem_iff] using hg
        rw [hgc]
        simp
      · have hgc : group.contains tid = false := by
          simp [List.contains, List.elem_iff]
          exact hg
        rw [hgc]
        have hmem : (cachedIds cache').contains tid = (cachedIds cache).contains tid := by
          by_cases hc : tid ∈ cachedIds cache
          · have h1 : (cachedIds cache).contains tid = true := by
              simpa [List.contains, List.elem_iff] using hc
            have h2 : (cachedIds cache').contains tid = true := by
              simpa [List.contains, List.elem_iff] using hsub tid hc
            rw [h1, h2]
          · have h1 : (cachedIds cache).contains tid = false := by
              simp [List.contains, List.elem_iff]; exact hc
            have h2 : (cachedIds cache').contains tid = false := by
              simp [List.contains, List.elem_iff]
              intro hc'
              rcases hadd tid hc' with hx | hx
              · exact absurd hx hc
              · exact absurd hx hg
            rw [h1, h2]
        rw [hmem]

/-- The whole missing list is likewise stable under group-internal cache
growth. -/
theorem missing_deps_congr (db : List Definition) (group : List ℕ) (defn : Definition)
    (cache cache' : List (ℕ × String))
    (hsub : ∀ j, j ∈ cachedIds cache → j ∈ cachedIds cache')
    (hadd : ∀ j, j ∈ cachedIds cache' → j ∈ cachedIds cache ∨ j ∈ group) :
    missing_deps db cache' group defn = missing_deps db cache group defn := by
  unfold missing_deps
  have hf : defn.references.filter (refMissing db cache' group defn) =
      defn.references.filter (refMissing db cache group defn) :=
    List.filter_congr (fun ref _ => refMissing_congr db group defn cache cache' ref hsub hadd)
  rw [hf]

/-- The missing list is non-empty exactly when some reference resolves to
a row outside the group (and other than the definition itself) that has
neither a cached nor a persisted summary.  Positivity of table ids
discharges the raw-id truthiness conjunct. -/
theorem missing_deps_ne_nil_iff (db : List Definition) (cache : List (ℕ × String))
    (group : List ℕ) (defn : Definition) (hpos : ∀ d ∈ db, 0 < d.id) :
    missing_deps db cache group defn ≠ [] ↔
      ∃ ref ∈ defn.references, ∃ tid target,
        ref.target_definition_id = some tid ∧ findDef db tid = some target ∧
        tid ≠ defn.id ∧ tid ∉ group ∧ tid ∉ cachedIds cache ∧
        truthy target.ai_summary = false := by
  constructor
  · intro hne
    have hfil : defn.references.filter (refMissing db cache group defn) ≠ [] := by
      intro hquad
      exact hne (by unfold missing_deps; rw [hquad]; rfl)
    obtain ⟨ref, href, hrm⟩ : ∃ ref ∈ defn.references,
        refMissing db cache group defn ref = true := by
      by_contra hnone
      push_neg at hnone
      exact hfil (List.filter_eq_nil_iff.2 hnone)
    refine ⟨ref, href, ?_⟩
    cases htid : ref.target_definition_id with
    | none => simp [refMissing, htid] at hrm
    | some tid =>
      cases hfd : findDef db tid with
      | none => simp [refMissing, htid, hfd] at hrm
      | some target =>
        simp only [refMissing, htid, hfd, Bool.and_eq_true, bne_iff_ne,
          Bool.not_eq_true'] at hrm
        obtain ⟨⟨⟨⟨_, hself⟩, hgrp⟩, hcache⟩, hsum⟩ := hrm
        refine ⟨tid, target, rfl, hfd, hself, ?_, ?_, hsum⟩
        · intro hmem
          rw [(by simpa [List.contains, List.elem_iff] using hmem :
            group.contains tid = true)] at hgrp
          exact absurd hgrp (by decide)
        · intro hmem
          rw [(by simpa [List.contains, List.elem_iff] using hmem :
            (cachedIds cache).contains tid = true)] at hcache
          exact absurd hcache (by decide)
  · rintro ⟨ref, href, tid, target, htid, hfd, hself, hgrp, hcache, hsum⟩
    have htid0 : tid ≠ 0 := by
      have hle := hpos target (findDef_mem hfd)
      rw [findDef_id hfd] at hle
      omega
    have hrm : refMissing db cache group defn ref = true := by
      simp only [refMissing, htid, hfd, Bool.and_eq_true, bne_iff_ne, Bool.not_eq_true']
      refine ⟨⟨⟨⟨htid0, hself⟩, ?_⟩, ?_⟩, hsum⟩
      · cases hb : group.contains tid
        · rfl
        · exact absurd (by simpa [List.contains, List.elem_iff] using hb) hgrp
      · cases hb : (cachedIds cache).contains tid
        · rfl
        · exact absurd (by simpa [List.contains, List.elem_iff] using hb) hcache
    intro hnil
    unfold missing_deps at hnil
    rw [List.map_eq_nil_iff] at hnil
    have : ref ∈ defn.references.filter (refMissing db cache group defn) :=
      List.mem_filter.2 ⟨href, hrm⟩
    rw [hnil] at this
    exact absurd this (List.not_mem_nil ref)

/-- Behaviour of the group loop from an evolved cache `cache'` whose
additions over the baseline `cache` are group members already processed
(hence outside the remaining list `l`): the loop fails with a
`missingDeps` error exactly when some remaining definition is neither
cached nor persisted and has a non-group dependency without a summary —
all judged against the baseline cache — and on failure the error carries
that definition's missing list and its id is absent from the LLM-call
list. -/
theorem runGroup_spec (db : List Definition) (llm : Definition → String) (group : List ℕ)
    (cache : List (ℕ × String)) :
    ∀ (l : List ℕ) (cache' : List (ℕ × String)),
      l.Nodup →
      (∀ i ∈ l, i ∈ group) →
      (∀ i ∈ l, (findDef db i).isSome = true) →
      (∀ j, j ∈ cachedIds cache → j ∈ cachedIds cache') →
      (∀ j, j ∈ cachedIds cache' → j ∈ cachedIds cache ∨ (j ∈ group ∧ j ∉ l)) →
      (((∃ msgs, (runGroup db llm group cache' l).2 = .error (.missingDeps msgs)) ↔
        (∃ i ∈ l, ∃ d, findDef db i = some d ∧
          i ∉ cachedIds cache ∧ truthy d.ai_summary = false ∧
          missing_deps db cache group d ≠ [])) ∧
       (∀ msgs, (runGroup db llm group cache' l).2 = .error (.missingDeps msgs) →
        ∃ i ∈ l, ∃ d, findDef db i = some d ∧ msgs = missing_deps db cache group d ∧
          msgs ≠ [] ∧ i ∉ (runGroup db llm group cache' l).1)) := by
  intro l
  induction l with
  | nil =>
    intro cache' _ _ _ _ _
    constructor
    · constructor
      · rintro ⟨msgs, hmsgs⟩
        exact absurd hmsgs (by simp [runGroup])
      · rintro ⟨i, hi, _⟩
        exact absurd hi (List.not_mem_nil i)
    · intro msgs hmsgs
      exact absurd hmsgs (by simp [runGroup])
  | cons i rest ih =>
    intro cache' hnodup hgrp hfind hsub hadd
    obtain ⟨d, hd⟩ := Option.isSome_iff_exists.1 (hfind i (List.mem_cons_self i rest))
    have hinotrest : i ∉ rest := (List.nodup_cons.1 hnodup).1
    have hresttail := (List.nodup_cons.1 hnodup).2
    have hgrp' : ∀ j ∈ rest, j ∈ group := fun j hj => hgrp j (List.mem_cons_of_mem i hj)
    have hfind' : ∀ j ∈ rest, (findDef db j).isSome = true :=
      fun j hj => hfind j (List.mem_cons_of_mem i hj)
    have haddweak : ∀ j, j ∈ cachedIds cache' → j ∈ cachedIds cache ∨ j ∈ group :=
      fun j hj => (hadd j hj).imp id And.left
    by_cases hc : (cachedIds cache').contains i = true
    · -- already cached: skipped, cache untouched
      have hci : i ∈ cachedIds cache := by
        have hmem : i ∈ cachedIds cache' := by simpa [List.contains, List.elem_iff] using hc
        rcases hadd i hmem with hx | hx
        · exact hx
        · exact absurd (List.mem_cons_self i rest) hx.2
      have hpd : process_definition db group llm cache' i = .ok (cache', false) := by
        simp only [process_definition, hd]
        rw [if_pos hc]
      have hrun : runGroup db llm group cache' (i :: rest) =
          ((runGroup db llm group cache' rest).1, (runGroup db llm group cache' rest).2) := by
        simp [runGroup, hpd]
      obtain ⟨ihiff, ihpay⟩ := ih cache' hresttail hgrp' hfind' hsub
        (fun j hj => (hadd j hj).imp id (fun hx => ⟨hx.1, fun hr => hx.2 (List.mem_cons_of_mem i hr)⟩))
      rw [hrun]
      constructor
      · rw [ihiff]
        constructor
        · rintro ⟨j, hj, rest'⟩
          exact ⟨j, List.mem_cons_of_mem i hj, rest'⟩
        · rintro ⟨j, hj, dd, hdd, hjci, hjsf, hjne⟩
          rcases List.mem_cons.1 hj with hji | hjr
          · rw [hji] at hjci
            exact absurd hci hjci
          · exact ⟨j, hjr, dd, hdd, hjci, hjsf, hjne⟩
      · intro msgs hmsgs
        obtain ⟨j, hj, dd, hdd, hmm, hmne, hjcalls⟩ := ihpay msgs hmsgs
        exact ⟨j, List.mem_cons_of_mem i hj, dd, hdd, hmm, hmne, hjcalls⟩
    · have hcf : (cachedIds cache').contains i = false := by
        cases hb : (cachedIds cache').contains i
        · rfl
        · exact absurd hb hc
      have hcinot' : i ∉ cachedIds cache' := by
        intro hmem
        exact hc (by simpa [List.contains, List.elem_iff] using hmem)
      have hcinot : i ∉ cachedIds cache := fun hmem => hcinot' (hsub i hmem)
      by_cases hsumm : truthy d.ai_summary = true
      · -- persisted summary: cache primed, no LLM call
        have hpd : process_definition db group llm cache' i =
            .ok ((i, d.ai_summary.getD "") :: cache', false) := by
          simp only [process_definition, hd]
          rw [if_neg (by rw [hcf]; exact Bool.false_ne_true), if_pos hsumm]
        have hrun : runGroup db llm group cache' (i :: rest) =
            ((runGroup db llm group ((i, d.ai_summary.getD "") :: cache') rest).1,
             (runGroup db llm group ((i, d.ai_summary.getD "") :: cache') rest).2) := by
          simp [runGroup, hpd]
        have hsub2 : ∀ j, j ∈ cachedIds cache →
            j ∈ cachedIds ((i, d.ai_summary.getD "") :: cache') :=
          fun j hj => List.mem_cons_of_mem _ (hsub j hj)
        have hadd2 : ∀ j, j ∈ cachedIds ((i, d.ai_summary.getD "") :: cache') →
            j ∈ cachedIds cache ∨ (j ∈ group ∧ j ∉ rest) := by
          intro j hj
          rcases List.mem_cons.1 hj with hji | hjc
          · exact Or.inr ⟨by rw [hji]; exact hgrp i (List.mem_cons_self i rest),
              by rw [hji]; exact hinotrest⟩
          · exact (hadd j hjc).imp id
              (fun hx => ⟨hx.1, fun hr => hx.2 (List.mem_cons_of_mem i hr)⟩)
        obtain ⟨ihiff, ihpay⟩ := ih _ hresttail hgrp' hfind' hsub2 hadd2
        rw [hrun]
        constructor
        · rw [ihiff]
          constructor
          · rintro ⟨j, hj, rest'⟩
            exact ⟨j, List.mem_cons_of_mem i hj, rest'⟩
          · rintro ⟨j, hj, dd, hdd, hjci, hjsf, hjne⟩
            rcases List.mem_cons.1 hj with hji | hjr
            · rw [hji] at hdd
              rw [hdd] at hd
              injection hd with hd'
              rw [← hd'] at hsumm
              rw [hsumm] at hjsf
              exact absurd hjsf (by decide)
            · exact ⟨j, hjr, dd, hdd, hjci, hjsf, hjne⟩
        · intro msgs hmsgs
          obtain ⟨j, hj, dd, hdd, hmm, hmne, hjcalls⟩ := ihpay msgs hmsgs
          exact ⟨j, List.mem_cons_of_mem i hj, dd, hdd, hmm, hmne, hjcalls⟩
      · have hsf : truthy d.ai_summary = false := by
          cases hb : truthy d.ai_summary
          · rfl
          · exact absurd hb hsumm
        have hcongr : missing_deps db cache' group d = missing_deps db cache group d :=
          missing_deps_congr db group d cache cache' hsub haddweak
        cases hmd : missing_deps db cache' group d with
        | nil =>
          -- all dependencies available: LLM invoked, result cached
          have hpd : process_definition db group llm cache' i =
              .ok ((i, llm d) :: cache', true) := by
            simp only [process_definition, hd]
            rw [if_neg (by rw [hcf]; exact Bool.false_ne_true),
              if_neg (by rw [hsf]; exact Bool.false_ne_true), hmd]
          have hrun : runGroup db llm group cache' (i :: rest) =
              (i :: (runGroup db llm group ((i, llm d) :: cache') rest).1,
               (runGroup db llm group ((i, llm d) :: cache') rest).2) := by
            simp [runGroup, hpd]
          have hsub2 : ∀ j, j ∈ cachedIds cache → j ∈ cachedIds ((i, llm d) :: cache') :=
            fun j hj => List.mem_cons_of_mem _ (hsub j hj)
          have hadd2 : ∀ j, j ∈ cachedIds ((i, llm d) :: cache') →
              j ∈ cachedIds cache ∨ (j ∈ group ∧ j ∉ rest) := by
            intro j hj
            rcases List.mem_cons.1 hj with hji | hjc
            · exact Or.inr ⟨by rw [hji]; exact hgrp i (List.mem_cons_self i rest),
                by rw [hji]; exact hinotrest⟩
            · exact (hadd j hjc).imp id
                (fun hx => ⟨hx.1, fun hr => hx.2 (List.mem_cons_of_mem i hr)⟩)
          obtain ⟨ihiff, ihpay⟩ := ih _ hresttail hgrp' hfind' hsub2 hadd2
          rw [hrun]
          constructor
          · rw [ihiff]
            constructor
            · rintro ⟨j, hj, rest'⟩
              exact ⟨j, List.mem_cons_of_mem i hj, rest'⟩
            · rintro ⟨j, hj, dd, hdd, hjci, hjsf, hjne⟩
              rcases List.mem_cons.1 hj with hji | hjr
              · rw [hji] at hdd
                rw [hdd] at hd
                injection hd with hd'
                rw [← hd'] at hmd
                rw [missing_deps_congr db group dd cache cache' hsub haddweak] at hmd
                exact absurd hmd hjne
              · exact ⟨j, hjr, dd, hdd, hjci, hjsf, hjne⟩
          · intro msgs hmsgs
            obtain ⟨j, hj, dd, hdd, hmm, hmne, hjcalls⟩ := ihpay msgs hmsgs
            have hji : j ≠ i := by
              intro hji
              rw [hji] at hj
              exact hinotrest hj
            exact ⟨j, List.mem_cons_of_mem i hj, dd, hdd, hmm, hmne, by
              intro hmem
              rcases List.mem_cons.1 hmem with hx | hx
              · exact hji hx
              · exact hjcalls hx⟩
        | cons m more =>
          -- a non-group dependency lacks a summary: raise before the LLM call
          have hpd : process_definition db group llm cache' i =
              .error (.missingDeps (m :: more)) := by
            simp only [process_definition, hd]
            rw [if_neg (by rw [hcf]; exact Bool.false_ne_true),
              if_neg (by rw [hsf]; exact Bool.false_ne_true), hmd]
          have hrun : runGroup db llm group cache' (i :: rest) =
              ([], .error (.missingDeps (m :: more))) := by
            simp [runGroup, hpd]
          rw [hrun]
          constructor
          · constructor
            · intro _
              refine ⟨i, List.mem_cons_self i rest, d, hd, hcinot, hsf, ?_⟩
              rw [← hcongr, hmd]
              exact List.cons_ne_nil m more
            · intro _
              exact ⟨m :: more, rfl⟩
          · intro msgs hmsgs
            injection hmsgs with hmsgs'
            have hmsgs2 : msgs = m :: more := by
              cases hmsgs'
              rfl
            refine ⟨i, List.mem_cons_self i rest, d, hd, ?_, ?_, ?_⟩
            · rw [hmsgs2, ← hcongr, hmd]
            · rw [hmsgs2]
              exact List.cons_ne_nil m more
            · exact List.not_mem_nil i

end DefinitionSummaries

/-- C7: running `generate_definition_summary_async` on a group raises a
`missing dependencies` error exactly when some definition of the group —
one that is neither in the in-memory cache nor already persisted — has a
resolved reference whose target is neither the definition itself nor a
group member and has neither a cached nor a persisted summary.  On
failure the error payload names the offending references
(`"reference:{name}"`) of such a definition, and the LLM is never invoked
for that definition. -/
theorem c7_missing_dependencies_iff (db : List DefinitionSummaries.Definition)
    (llm : DefinitionSummaries.Definition → String) (group : List ℕ)
    (cache : List (ℕ × String))
    (hfound : ∀ i ∈ group, (DefinitionSummaries.findDef db i).isSome = true)
    (hnodup : group.Nodup)
    (hpos : ∀ d ∈ db, 0 < d.id) :
    ((∃ msgs, (DefinitionSummaries.generate_definition_summary_async db llm group cache).2 =
        .error (.missingDeps msgs)) ↔
      (∃ i ∈ group, ∃ d, DefinitionSummaries.findDef db i = some d ∧
        i ∉ DefinitionSummaries.cachedIds cache ∧
        DefinitionSummaries.truthy d.ai_summary = false ∧
        ∃ ref ∈ d.references, ∃ tid target,
          ref.target_definition_id = some tid ∧
          DefinitionSummaries.findDef db tid = some target ∧
          tid ≠ d.id ∧ tid ∉ group ∧ tid ∉ DefinitionSummaries.cachedIds cache ∧
          DefinitionSummaries.truthy target.ai_summary = false)) ∧
    (∀ msgs, (DefinitionSummaries.generate_definition_summary_async db llm group cache).2 =
        .error (.missingDeps msgs) →
      ∃ i ∈ group, ∃ d, DefinitionSummaries.findDef db i = some d ∧
        msgs = DefinitionSummaries.missing_deps db cache group d ∧ msgs ≠ [] ∧
        i ∉ (DefinitionSummaries.generate_definition_summary_async db llm group cache).1) := by
  obtain ⟨hiff, hpay⟩ := DefinitionSummaries.runGroup_spec db llm group cache group cache
    hnodup (fun _ hi => hi) hfound (fun _ hj => hj) (fun _ hj => Or.inl hj)
  constructor
  · rw [DefinitionSummaries.generate_definition_summary_async, hiff]
    constructor
    · rintro ⟨i, hi, d, hd, hci, hsf, hne⟩
      exact ⟨i, hi, d, hd, hci, hsf,
        (DefinitionSummaries.missing_deps_ne_nil_iff db cache group d hpos).1 hne⟩
    · rintro ⟨i, hi, d, hd, hci, hsf, hex⟩
      exact ⟨i, hi, d, hd, hci, hsf,
        (DefinitionSummaries.missing_deps_ne_nil_iff db cache group d hpos).2 hex⟩
  · exact hpay

/-- Witness for `c7_missing_dependencies_iff`: a group `{1}` whose single
definition references definition `2`, which has no summary anywhere, so
the task must raise. -/
theorem c7_missing_dependencies_iff_witness :
    ∃ msgs, (DefinitionSummaries.generate_definition_summary_async
      [DefinitionSummaries.mainDef, DefinitionSummaries.depDef]
      (fun _ => "text") [1] []).2 =
        .error (.missingDeps msgs) := by
  have h := c7_missing_dependencies_iff
    [DefinitionSummaries.mainDef, DefinitionSummaries.depDef]
    (fun _ => "text") [1] [] (by decide) (by decide) (by decide)
  refine h.1.2 ?_
  exact ⟨1, by decide, DefinitionSummaries.mainDef, by decide, by decide, by decide,
    ⟨{ target_definition_id := some 2, reference_name := "dep" }, by decide, 2,
      DefinitionSummaries.depDef, rfl, by decide, by decide, by decide, by decide,
      by decide⟩⟩

namespace EmbeddingsUpsert

/-- Keys determine rows in a key-deduplicated table. -/
theorem row_eq_of_key_eq {l : List EmbRow} (hnd : (l.map rowKey).Nodup)
    {r1 r2 : EmbRow} (h1 : r1 ∈ l) (h2 : r2 ∈ l) (hk : rowKey r1 = rowKey r2) :
    r1 = r2 :=
  List.inj_on_of_nodup_map hnd h1 h2 hk

/-- Ids determine rows when rowids are unique. -/
theorem row_eq_of_id_eq {l : List EmbRow} (hnd : (l.map EmbRow.id).Nodup)
    {r1 r2 : EmbRow} (h1 : r1 ∈ l) (h2 : r2 ∈ l) (hk : r1.id = r2.id) :
    r1 = r2 :=
  List.inj_on_of_nodup_map hnd h1 h2 hk

/-- The replaced entry is present afterwards. -/
theorem vecReplace_mem_self (idx : List (ℕ × List ℕ)) (rid : ℕ) (payload : List ℕ) :
    (rid, payload) ∈ vecReplace idx rid payload := by
  unfold vecReplace
  by_cases h : idx.any (fun e => decide (e.1 = rid)) = true
  · rw [if_pos h]
    obtain ⟨e, he, hek⟩ := List.any_eq_true.1 h
    have hek' : e.1 = rid := of_decide_eq_true hek
    refine List.mem_map.2 ⟨e, he, ?_⟩
    rw [if_pos hek']
  · rw [if_neg h]
    exact List.mem_append.2 (Or.inr (List.mem_singleton.2 rfl))

/-- Entries under other rowids survive the replace. -/
theorem vecReplace_mem_other {idx : List (ℕ × List ℕ)} {rid : ℕ} {payload : List ℕ}
    {e : ℕ × List ℕ} (he : e ∈ idx) (hne : e.1 ≠ rid) :
    e ∈ vecReplace idx rid payload := by
  unfold vecReplace
  by_cases h : idx.any (fun x => decide (x.1 = rid)) = true
  · rw [if_pos h]
    refine List.mem_map.2 ⟨e, he, ?_⟩
    rw [if_neg hne]
  · rw [if_neg h]
    exact List.mem_append.2 (Or.inl he)

/-- Every entry after the replace is the new one or an old one. -/
theorem vecReplace_mem_elim {idx : List (ℕ × List ℕ)} {rid : ℕ} {payload : List ℕ}
    {e : ℕ × List ℕ} (he : e ∈ vecReplace idx rid payload) :
    e = (rid, payload) ∨ e ∈ idx := by
  unfold vecReplace at he
  by_cases h : idx.any (fun x => decide (x.1 = rid)) = true
  · rw [if_pos h] at he
    obtain ⟨x, hx, hxe⟩ := List.mem_map.1 he
    by_cases hc : x.1 = rid
    · rw [if_pos hc] at hxe
      exact Or.inl hxe.symm
    · rw [if_neg hc] at hxe
      exact Or.inr (hxe ▸ hx)
  · rw [if_neg h] at he
    rcases List.mem_append.1 he with hx | hx
    · exact Or.inr hx
    · exact Or.inl (List.mem_singleton.1 hx)

/-- The replace keeps rowid keys pairwise distinct. -/
theorem vecReplace_keys_nodup {idx : List (ℕ × List ℕ)} (rid : ℕ) (payload : List ℕ)
    (hnd : (idx.map Prod.fst).Nodup) :
    ((vecReplace idx rid payload).map Prod.fst).Nodup := by
  unfold vecReplace
  by_cases h : idx.any (fun x => decide (x.1 = rid)) = true
  · rw [if_pos h]
    have hkeys : (idx.map (fun e => if e.1 = rid then (rid, payload) else e)).map Prod.fst
        = idx.map Prod.fst := by
      rw [List.map_map]
      refine List.map_congr_left ?_
      intro e _
      by_cases hc : e.1 = rid
      · simp [hc]
      · simp [hc]
    rw [hkeys]
    exact hnd
  · rw [if_neg h]
    rw [List.map_append, List.nodup_append]
    refine ⟨hnd, List.nodup_singleton _, ?_⟩
    intro k hk hk'
    obtain ⟨e, he, hek⟩ := List.mem_map.1 hk
    have hkr : k = rid := List.mem_singleton.1 hk'
    have : idx.any (fun x => decide (x.1 = rid)) = true :=
      List.any_eq_true.2 ⟨e, he, decide_eq_true (by rw [hek, hkr])⟩
    exact h this

/-- Replacing the unique existing entry with its current payload is the
identity. -/
theorem vecReplace_self_eq {idx : List (ℕ × List ℕ)} {rid : ℕ} {payload : List ℕ}
    (hnd : (idx.map Prod.fst).Nodup) (hmem : (rid, payload) ∈ idx) :
    vecReplace idx rid payload = idx := by
  unfold vecReplace
  rw [if_pos (List.any_eq_true.2 ⟨(rid, payload), hmem, by simp⟩)]
  have hpt : ∀ e ∈ idx, (if e.1 = rid then (rid, payload) else e) = e := by
    intro e he
    by_cases hc : e.1 = rid
    · rw [if_pos hc]
      have hee : e = (rid, payload) :=
        List.inj_on_of_nodup_map hnd he hmem (by rw [hc])
      rw [hee]
    · rw [if_neg hc]
  rw [List.map_congr_left hpt]
  exact List.map_id idx

/-- The strip map touches neither the key nor the id nor the payload. -/
theorem stripRow_fields (r : EmbRow) :
    rowKey (stripRow r) = rowKey r ∧ (stripRow r).id = r.id ∧
    (stripRow r).entity_name = r.entity_name ∧ (stripRow r).file_path = r.file_path ∧
    (stripRow r).embedding_model = r.embedding_model ∧
    (stripRow r).embedding_dims = r.embedding_dims ∧
    (stripRow r).embedding = r.embedding :=
  ⟨rfl, rfl, rfl, rfl, rfl, rfl, rfl⟩

/-- The update clause keeps the key and the id. -/
theorem updateRow_key (emodel : String) (dims : ℕ) (embedBytes : String → List ℕ)
    (now : ℕ) (d : UpsertDoc) (q : EmbRow) :
    rowKey (updateRow emodel dims embedBytes now d q) = rowKey q ∧
    (updateRow emodel dims embedBytes now d q).id = q.id :=
  ⟨rfl, rfl⟩

/-- The two branch equations of `upsertRow`. -/
theorem upsertRow_eq_update (emodel : String) (dims : ℕ) (embedBytes : String → List ℕ)
    (now : ℕ) (st : Store) (d : UpsertDoc) (r : EmbRow)
    (hf : st.embeddings.find? (fun q => decide (rowKey q = docKey d)) = some r) :
    upsertRow emodel dims embedBytes now st d =
      { embeddings := st.embeddings.map (fun q =>
          if rowKey q = docKey d then updateRow emodel dims embedBytes now d q else q)
      , next_id := st.next_id
      , vec_index := vecReplace st.vec_index r.id (embedBytes d.page_content) } := by
  unfold upsertRow
  rw [hf]

/-- The insert branch of `upsertRow`. -/
theorem upsertRow_eq_insert (emodel : String) (dims : ℕ) (embedBytes : String → List ℕ)
    (now : ℕ) (st : Store) (d : UpsertDoc)
    (hf : st.embeddings.find? (fun q => decide (rowKey q = docKey d)) = none) :
    upsertRow emodel dims embedBytes now st d =
      { embeddings := st.embeddings ++ [freshRow emodel dims embedBytes now st.next_id d]
      , next_id := st.next_id + 1
      , vec_index := vecReplace st.vec_index st.next_id (embedBytes d.page_content) } := by
  unfold upsertRow
  rw [hf]

/-- One upsert keeps the store well-formed and its keys distinct. -/
theorem upsertRow_wf (emodel : String) (dims : ℕ) (embedBytes : String → List ℕ)
    (now : ℕ) (st : Store) (d : UpsertDoc) (hwf : WFStore st)
    (hkeys : (st.embeddings.map rowKey).Nodup) :
    WFStore (upsertRow emodel dims embedBytes now st d) ∧
    ((upsertRow emodel dims embedBytes now st d).embeddings.map rowKey).Nodup := by
  obtain ⟨hids, hbound, hvnd, hvbound⟩ := hwf
  cases hf : st.embeddings.find? (fun q => decide (rowKey q = docKey d)) with
  | some r =>
    rw [upsertRow_eq_update emodel dims embedBytes now st d r hf]
    have hrmem : r ∈ st.embeddings := List.mem_of_find?_eq_some hf
    have hrbound : r.id < st.next_id := hbound r hrmem
    have hkeep : ∀ q ∈ st.embeddings,
        rowKey (if rowKey q = docKey d then updateRow emodel dims embedBytes now d q else q)
          = rowKey q ∧
        EmbRow.id (if rowKey q = docKey d then updateRow emodel dims embedBytes now d q else q)
          = q.id := by
      intro q _
      by_cases hc : rowKey q = docKey d
      · rw [if_pos hc]
        exact updateRow_key emodel dims embedBytes now d q
      · rw [if_neg hc]
        exact ⟨rfl, rfl⟩
    have hidseq : (st.embeddings.map (fun q =>
        if rowKey q = docKey d then updateRow emodel dims embedBytes now d q else q)).map
          EmbRow.id = st.embeddings.map EmbRow.id := by
      rw [List.map_map]
      exact List.map_congr_left (fun q hq => (hkeep q hq).2)
    have hkeyseq : (st.embeddings.map (fun q =>
        if rowKey q = docKey d then updateRow emodel dims embedBytes now d q else q)).map
          rowKey = st.embeddings.map rowKey := by
      rw [List.map_map]
      exact List.map_congr_left (fun q hq => (hkeep q hq).1)
    refine ⟨⟨?_, ?_, ?_, ?_⟩, ?_⟩
    · rw [hidseq]
      exact hids
    · intro q hq
      obtain ⟨q0, hq0, hq0e⟩ := List.mem_map.1 hq
      show q.id < st.next_id
      rw [← hq0e, (hkeep q0 hq0).2]
      exact hbound q0 hq0
    · exact vecReplace_keys_nodup _ _ hvnd
    · intro e he
      rcases vecReplace_mem_elim he with hx | hx
      · rw [hx]
        exact hrbound
      · exact hvbound e hx
    · rw [hkeyseq]
      exact hkeys
  | none =>
    rw [upsertRow_eq_insert emodel dims embedBytes now st d hf]
    have hnew : ∀ q ∈ st.embeddings, ¬ (rowKey q = docKey d) := by
      intro q hq hc
      exact (List.find?_eq_none.1 hf q hq) (decide_eq_true hc)
    refine ⟨⟨?_, ?_, ?_, ?_⟩, ?_⟩
    · rw [List.map_append, List.nodup_append]
      refine ⟨hids, List.nodup_singleton _, ?_⟩
      intro k hk hk'
      obtain ⟨q, hq, hqe⟩ := List.mem_map.1 hk
      have hkr : k = st.next_id := by
        have hx := List.mem_singleton.1 hk'
        rw [hx]
        rfl
      have hb := hbound q hq
      rw [hqe, hkr] at hb
      omega
    · intro q hq
      rcases List.mem_append.1 hq with hx | hx
      · have := hbound q hx
        show q.id < st.next_id + 1
        omega
      · have hqe : q = freshRow emodel dims embedBytes now st.next_id d :=
          List.mem_singleton.1 hx
        rw [hqe]
        show st.next_id < st.next_id + 1
        omega
    · exact vecReplace_keys_nodup _ _ hvnd
    · intro e he
      rcases vecReplace_mem_elim he with hx | hx
      · rw [hx]
        show st.next_id < st.next_id + 1
        omega
      · have := hvbound e hx
        show e.1 < st.next_id + 1
        omega
    · rw [List.map_append, List.nodup_append]
      refine ⟨hkeys, List.nodup_singleton _, ?_⟩
      intro k hk hk'
      obtain ⟨q, hq, hqe⟩ := List.mem_map.1 hk
      have hkr : k = docKey d := by
        have hx := List.mem_singleton.1 hk'
        rw [hx]
        rfl
      exact hnew q hq (by rw [hqe, hkr])

/-- One upsert settles its document and keeps other keys settled. -/
theorem upsertRow_settles (emodel : String) (dims : ℕ) (embedBytes : String → List ℕ)
    (now : ℕ) (st : Store) (d : UpsertDoc) (hwf : WFStore st)
    (hkeys : (st.embeddings.map rowKey).Nodup) :
    settled emodel dims embedBytes (upsertRow emodel dims embedBytes now st d) d ∧
    (∀ e : UpsertDoc, docKey e ≠ docKey d →
      settled emodel dims embedBytes st e →
      settled emodel dims embedBytes (upsertRow emodel dims embedBytes now st d) e) := by
  obtain ⟨hids, hbound, hvnd, hvbound⟩ := hwf
  cases hf : st.embeddings.find? (fun q => decide (rowKey q = docKey d)) with
  | some r =>
    rw [upsertRow_eq_update emodel dims embedBytes now st d r hf]
    have hrmem : r ∈ st.embeddings := List.mem_of_find?_eq_some hf
    have hrkey : rowKey r = docKey d := by
      have hb := List.find?_some hf
      exact of_decide_eq_true hb
    constructor
    · refine ⟨updateRow emodel dims embedBytes now d r, ?_, ?_, rfl, rfl, rfl, rfl, rfl, ?_⟩
      · refine List.mem_map.2 ⟨r, hrmem, ?_⟩
        rw [if_pos hrkey]
      · show rowKey r = docKey d
        exact hrkey
      · show ((r : EmbRow).id, embedBytes d.page_content)
          ∈ vecReplace st.vec_index r.id (embedBytes d.page_content)
        exact vecReplace_mem_self _ _ _
    · rintro e hne ⟨q, hq, hqkey, hqn, hqf, hqm, hqd, hqe, hqv⟩
      have hqnotd : ¬ (rowKey q = docKey d) := by
        rw [hqkey]
        exact hne
      refine ⟨q, ?_, hqkey, hqn, hqf, hqm, hqd, hqe, ?_⟩
      · refine List.mem_map.2 ⟨q, hq, ?_⟩
        rw [if_neg hqnotd]
      · have hqr : q ≠ r := by
          intro hqr
          rw [hqr] at hqkey
          exact hne (hqkey ▸ hrkey ▸ rfl)
        have hidne : q.id ≠ r.id := by
          intro hid
          exact hqr (row_eq_of_id_eq hids hq hrmem hid)
        exact vecReplace_mem_other hqv hidne
  | none =>
    rw [upsertRow_eq_insert emodel dims embedBytes now st d hf]
    constructor
    · refine ⟨freshRow emodel dims embedBytes now st.next_id d, ?_, rfl, rfl, rfl, rfl,
        rfl, rfl, ?_⟩
      · exact List.mem_append.2 (Or.inr (List.mem_singleton.2 rfl))
      · exact vecReplace_mem_self _ _ _
    · rintro e hne ⟨q, hq, hqkey, hqn, hqf, hqm, hqd, hqe, hqv⟩
      refine ⟨q, List.mem_append.2 (Or.inl hq), hqkey, hqn, hqf, hqm, hqd, hqe, ?_⟩
      have hidne : q.id ≠ st.next_id := by
        have := hbound q hq
        omega
      exact vecReplace_mem_other hqv hidne

/-- Re-upserting a settled document only touches `updated_at`. -/
theorem upsertRow_settled_identity (emodel : String) (dims : ℕ)
    (embedBytes : String → List ℕ) (now : ℕ) (st : Store) (d : UpsertDoc)
    (hwf : WFStore st) (hkeys : (st.embeddings.map rowKey).Nodup)
    (hs : settled emodel dims embedBytes st d) :
    stripUpdated (upsertRow emodel dims embedBytes now st d) = stripUpdated st := by
  obtain ⟨hids, hbound, hvnd, hvbound⟩ := hwf
  obtain ⟨r, hr, hrkey, hrn, hrf, hrm, hrd, hre, hrv⟩ := hs
  have hfind : st.embeddings.find? (fun q => decide (rowKey q = docKey d)) = some r := by
    cases hf : st.embeddings.find? (fun q => decide (rowKey q = docKey d)) with
    | some q =>
      have hqmem : q ∈ st.embeddings := List.mem_of_find?_eq_some hf
      have hqkey : rowKey q = docKey d := by
        have hb := List.find?_some hf
        exact of_decide_eq_true hb
      rw [row_eq_of_key_eq hkeys hqmem hr (hqkey.trans hrkey.symm)]
    | none =>
      have := List.find?_eq_none.1 hf r hr
      exact absurd (decide_eq_true hrkey) this
  rw [upsertRow_eq_update emodel dims embedBytes now st d r hfind]
  unfold stripUpdated
  have hvec : vecReplace st.vec_index r.id (embedBytes d.page_content) = st.vec_index :=
    vecReplace_self_eq hvnd hrv
  rw [hvec]
  have hemb : (st.embeddings.map (fun q =>
      if rowKey q = docKey d then updateRow emodel dims embedBytes now d q else q)).map
        stripRow = st.embeddings.map stripRow := by
    rw [List.map_map]
    refine List.map_congr_left ?_
    intro q hq
    by_cases hc : rowKey q = docKey d
    · have hqr : q = r := row_eq_of_key_eq hkeys hq hr (hc.trans hrkey.symm)
      show stripRow (if rowKey q = docKey d then updateRow emodel dims embedBytes now d q
        else q) = stripRow q
      rw [if_pos hc, hqr]
      show stripRow (updateRow emodel dims embedBytes now d r) = stripRow r
      unfold stripRow updateRow
      rw [← hrn, ← hrf, ← hrm, ← hrd, ← hre]
    · show stripRow (if rowKey q = docKey d then updateRow emodel dims embedBytes now d q
        else q) = stripRow q
      rw [if_neg hc]
  show Store.mk _ _ _ = Store.mk _ _ _
  rw [hemb]

/-- The batch keeps the store well-formed and keys distinct. -/
theorem upsert_batch_wf (emodel : String) (dims : ℕ) (embedBytes : String → List ℕ)
    (now : ℕ) : ∀ (docs : List UpsertDoc) (st : Store), WFStore st →
    (st.embeddings.map rowKey).Nodup →
    WFStore (upsert_batch emodel dims embedBytes now st docs) ∧
    ((upsert_batch emodel dims embedBytes now st docs).embeddings.map rowKey).Nodup := by
  intro docs
  induction docs with
  | nil => intro st hwf hkeys; exact ⟨hwf, hkeys⟩
  | cons d ds ih =>
    intro st hwf hkeys
    obtain ⟨hwf', hkeys'⟩ := upsertRow_wf emodel dims embedBytes now st d hwf hkeys
    exact ih (upsertRow emodel dims embedBytes now st d) hwf' hkeys'

/-- A settled document with a key disjoint from the batch stays settled. -/
theorem upsert_batch_preserves_settled (emodel : String) (dims : ℕ)
    (embedBytes : String → List ℕ) (now : ℕ) :
    ∀ (docs : List UpsertDoc) (st : Store) (e : UpsertDoc), WFStore st →
    (st.embeddings.map rowKey).Nodup →
    settled emodel dims embedBytes st e →
    (∀ d ∈ docs, docKey d ≠ docKey e) →
    settled emodel dims embedBytes (upsert_batch emodel dims embedBytes now st docs) e := by
  intro docs
  induction docs with
  | nil => intro st e _ _ hs _; exact hs
  | cons d ds ih =>
    intro st e hwf hkeys hs hne
    obtain ⟨hwf', hkeys'⟩ := upsertRow_wf emodel dims embedBytes now st d hwf hkeys
    refine ih (upsertRow emodel dims embedBytes now st d) e hwf' hkeys' ?_
      (fun d' hd' => hne d' (List.mem_cons_of_mem d hd'))
    exact (upsertRow_settles emodel dims embedBytes now st d hwf hkeys).2 e
      (fun hk => hne d (List.mem_cons_self d ds) hk.symm) hs

/-- After the first batch every document is settled. -/
theorem upsert_batch_settles (emodel : String) (dims : ℕ)
    (embedBytes : String → List ℕ) (now : ℕ) :
    ∀ (docs : List UpsertDoc) (st : Store), WFStore st →
    (st.embeddings.map rowKey).Nodup →
    (docs.map docKey).Nodup →
    ∀ d ∈ docs, settled emodel dims embedBytes
      (upsert_batch emodel dims embedBytes now st docs) d := by
  intro docs
  induction docs with
  | nil => intro st _ _ _ d hd; exact absurd hd (List.not_mem_nil d)
  | cons d0 ds ih =>
    intro st hwf hkeys hdocs d hd
    obtain ⟨hwf', hkeys'⟩ := upsertRow_wf emodel dims embedBytes now st d0 hwf hkeys
    have hdnodup := (List.nodup_cons.1 hdocs).2
    rcases List.mem_cons.1 hd with hd0 | hds
    · rw [hd0]
      refine upsert_batch_preserves_settled emodel dims embedBytes now ds
        (upsertRow emodel dims embedBytes now st d0) d0 hwf' hkeys'
        ((upsertRow_settles emodel dims embedBytes now st d0 hwf hkeys).1) ?_
      intro d' hd' hk
      exact (List.nodup_cons.1 hdocs).1 (List.mem_map.2 ⟨d', hd', hk⟩)
    · exact ih (upsertRow emodel dims embedBytes now st d0) hwf' hkeys' hdnodup d hds

/-- Strip-equal stores agree on keys, ids, rowids and the cursor. -/
theorem strip_eq_transfer {st st' : Store}
    (h : stripUpdated st = stripUpdated st') :
    st.embeddings.map rowKey = st'.embeddings.map rowKey ∧
    st.embeddings.map EmbRow.id = st'.embeddings.map EmbRow.id ∧
    st.next_id = st'.next_id ∧ st.vec_index = st'.vec_index := by
  have hemb : st.embeddings.map stripRow = st'.embeddings.map stripRow :=
    congrArg Store.embeddings h
  have hnext : (stripUpdated st).next_id = (stripUpdated st').next_id :=
    congrArg Store.next_id h
  have hvec : (stripUpdated st).vec_index = (stripUpdated st').vec_index :=
    congrArg Store.vec_index h
  refine ⟨?_, ?_, hnext, hvec⟩
  · have h1 : (st.embeddings.map stripRow).map rowKey
        = (st'.embeddings.map stripRow).map rowKey := by rw [hemb]
    rw [List.map_map, List.map_map] at h1
    exact h1
  · have h1 : (st.embeddings.map stripRow).map EmbRow.id
        = (st'.embeddings.map stripRow).map EmbRow.id := by rw [hemb]
    rw [List.map_map, List.map_map] at h1
    exact h1

/-- Well-formedness transfers across strip-equality. -/
theorem strip_eq_wf {st st' : Store} (h : stripUpdated st = stripUpdated st')
    (hwf : WFStore st) : WFStore st' := by
  obtain ⟨hk, hi, hn, hv⟩ := strip_eq_transfer h
  obtain ⟨hids, hbound, hvnd, hvbound⟩ := hwf
  refine ⟨by rw [← hi]; exact hids, ?_, by rw [← hv]; exact hvnd, ?_⟩
  · intro r hr
    have : r.id ∈ st'.embeddings.map EmbRow.id := List.mem_map.2 ⟨r, hr, rfl⟩
    rw [← hi] at this
    obtain ⟨q, hq, hqe⟩ := List.mem_map.1 this
    rw [← hn, ← hqe]
    exact hbound q hq
  · intro e he
    rw [← hv] at he
    rw [← hn]
    exact hvbound e he

/-- Key distinctness transfers across strip-equality. -/
theorem strip_eq_keys_nodup {st st' : Store} (h : stripUpdated st = stripUpdated st')
    (hkeys : (st.embeddings.map rowKey).Nodup) :
    (st'.embeddings.map rowKey).Nodup := by
  obtain ⟨hk, _, _, _⟩ := strip_eq_transfer h
  rw [← hk]
  exact hkeys

/-- Settledness transfers across strip-equality. -/
theorem strip_eq_settled (emodel : String) (dims : ℕ) (embedBytes : String → List ℕ)
    {st st' : Store} (h : stripUpdated st = stripUpdated st') {d : UpsertDoc}
    (hs : settled emodel dims embedBytes st d) :
    settled emodel dims embedBytes st' d := by
  obtain ⟨r, hr, hrkey, hrn, hrf, hrm, hrd, hre, hrv⟩ := hs
  have hemb : st.embeddings.map stripRow = st'.embeddings.map stripRow :=
    congrArg Store.embeddings h
  have : stripRow r ∈ st'.embeddings.map stripRow := by
    rw [← hemb]
    exact List.mem_map.2 ⟨r, hr, rfl⟩
  obtain ⟨q, hq, hqe⟩ := List.mem_map.1 this
  have hvec : (stripUpdated st).vec_index = (stripUpdated st').vec_index :=
    congrArg Store.vec_index h
  refine ⟨q, hq, ?_, ?_, ?_, ?_, ?_, ?_, ?_⟩
  · show rowKey q = docKey d
    have : rowKey (stripRow q) = rowKey (stripRow r) := by rw [hqe]
    exact this.trans hrkey
  · have : (stripRow q).entity_name = (stripRow r).entity_name := by rw [hqe]
    exact this.trans hrn
  · have : (stripRow q).file_path = (stripRow r).file_path := by rw [hqe]
    exact this.trans hrf
  · have : (stripRow q).embedding_model = (stripRow r).embedding_model := by rw [hqe]
    exact this.trans hrm
  · have : (stripRow q).embedding_dims = (stripRow r).embedding_dims := by rw [hqe]
    exact this.trans hrd
  · have : (stripRow q).embedding = (stripRow r).embedding := by rw [hqe]
    exact this.trans hre
  · have hid : q.id = r.id := by
      have : (stripRow q).id = (stripRow r).id := by rw [hqe]
      exact this
    have hvec' : st.vec_index = st'.vec_index := hvec
    rw [hid, ← hvec']
    exact hrv

/-- Replaying a batch of settled documents changes nothing but
`updated_at`. -/
theorem upsert_batch_settled_identity (emodel : String) (dims : ℕ)
    (embedBytes : String → List ℕ) (now : ℕ) :
    ∀ (docs : List UpsertDoc) (st st1 : Store), WFStore st →
    (st.embeddings.map rowKey).Nodup →
    stripUpdated st = stripUpdated st1 →
    (∀ d ∈ docs, settled emodel dims embedBytes st1 d) →
    stripUpdated (upsert_batch emodel dims embedBytes now st docs) = stripUpdated st1 := by
  intro docs
  induction docs with
  | nil => intro st st1 _ _ hstrip _; exact hstrip
  | cons d ds ih =>
    intro st st1 hwf hkeys hstrip hset
    have hsd : settled emodel dims embedBytes st d :=
      strip_eq_settled emodel dims embedBytes hstrip.symm
        (hset d (List.mem_cons_self d ds))
    have hid : stripUpdated (upsertRow emodel dims embedBytes now st d) = stripUpdated st :=
      upsertRow_settled_identity emodel dims embedBytes now st d hwf hkeys hsd
    obtain ⟨hwf', hkeys'⟩ := upsertRow_wf emodel dims embedBytes now st d hwf hkeys
    exact ih (upsertRow emodel dims embedBytes now st d) st1 hwf' hkeys'
      (hid.trans hstrip) (fun e he => hset e (List.mem_cons_of_mem d he))

/-- C9: running `_upsert_batch_async` a second time with the same batch
(unchanged summaries and a deterministic embedder, so the same packed
bytes) leaves at most one embeddings-table row per
`(entity_type, entity_id)` and leaves every row's metadata, packed
float32 payload and companion vector-index row byte-for-byte unchanged —
only `updated_at` may differ. -/
theorem c9_upsert_idempotent (emodel : String) (dims : ℕ)
    (embedBytes : String → List ℕ) (now1 now2 : ℕ) (st : Store)
    (docs : List UpsertDoc) (hwf : WFStore st)
    (hkeys : (st.embeddings.map rowKey).Nodup)
    (hdocs : (docs.map docKey).Nodup) :
    (((upsert_batch emodel dims embedBytes now2
        (upsert_batch emodel dims embedBytes now1 st docs) docs).embeddings.map
          rowKey).Nodup) ∧
    stripUpdated (upsert_batch emodel dims embedBytes now2
        (upsert_batch emodel dims embedBytes now1 st docs) docs)
      = stripUpdated (upsert_batch emodel dims embedBytes now1 st docs) := by
  obtain ⟨hwf1, hkeys1⟩ := upsert_batch_wf emodel dims embedBytes now1 docs st hwf hkeys
  have hset := upsert_batch_settles emodel dims embedBytes now1 docs st hwf hkeys hdocs
  obtain ⟨_, hkeys2⟩ := upsert_batch_wf emodel dims embedBytes now2 docs
    (upsert_batch emodel dims embedBytes now1 st docs) hwf1 hkeys1
  exact ⟨hkeys2, upsert_batch_settled_identity emodel dims embedBytes now2 docs
    (upsert_batch emodel dims embedBytes now1 st docs)
    (upsert_batch emodel dims embedBytes now1 st docs) hwf1 hkeys1 rfl hset⟩

/-- Witness for `c9_upsert_idempotent`: one document upserted twice into
an empty store. -/
theorem c9_upsert_idempotent_witness :
    (((upsert_batch "m" 1 demoEmbed 7
        (upsert_batch "m" 1 demoEmbed 5 emptyStore [demoDoc]) [demoDoc]).embeddings.map
          rowKey).Nodup) ∧
    stripUpdated (upsert_batch "m" 1 demoEmbed 7
        (upsert_batch "m" 1 demoEmbed 5 emptyStore [demoDoc]) [demoDoc])
      = stripUpdated (upsert_batch "m" 1 demoEmbed 5 emptyStore [demoDoc]) :=
  c9_upsert_idempotent "m" 1 demoEmbed 5 7 emptyStore [demoDoc]
    (by refine ⟨by decide, ?_, by decide, ?_⟩ <;> intro x hx <;>
      exact absurd hx (List.not_mem_nil x))
    (by decide) (by decide)

end EmbeddingsUpsert

/-- C3: when the repository's stored commit hash equals the (non-empty)
new commit hash, `recursive_parse_directory` performs no package
persistence, no deletion/rename handling and no per-file parsing, and the
run's delta records no file changes and no per-file definition id
changes: `current_delta` is never initialized, which downstream reads as
an absence of changes. -/
theorem c3_equal_commit_noop (repo : AstParsing.Repository) (h : String)
    (git : AstParsing.GitChanges) (env : AstParsing.ParseEnv)
    (hstored : repo.commit_hash = some h) (hne : h ≠ "") :
    (AstParsing.recursive_parse_directory (some repo) (some h) git env).effects = [] ∧
    (AstParsing.recursive_parse_directory (some repo) (some h) git env).current_delta
      = none ∧
    AstParsing.deltaView
      ((AstParsing.recursive_parse_directory (some repo) (some h) git env).current_delta)
      = AstParsing.emptyDelta ∧
    (AstParsing.recursive_parse_directory (some repo) (some h) git env).result
      = { total_files := 0, parsed_files := 0, unparsed_files := 0 } := by
  have hrun : AstParsing.recursive_parse_directory (some repo) (some h) git env =
      { result := { total_files := 0, parsed_files := 0, unparsed_files := 0 }
      , effects := [], current_delta := none } := by
    have htruthy : AstParsing.truthyStr (some h) = true := by
      simp [AstParsing.truthyStr]
      exact hne
    simp only [AstParsing.recursive_parse_directory, hstored, htruthy, Bool.and_self,
      ne_eq, not_true_eq_false, if_true, if_false]
  rw [hrun]
  exact ⟨rfl, rfl, rfl, rfl⟩

/-- Witness for `c3_equal_commit_noop` at a concrete repository state. -/
theorem c3_equal_commit_noop_witness :
    (AstParsing.recursive_parse_directory
      (some { commit_hash := some "abc123", remote_origin_url := "https://example/r" })
      (some "abc123")
      { added := ["x.ts"], modified := [], deleted := [], renamed := [] }
      { all_files_full := ["x.ts"], supported := fun _ => true
      , file_exists := fun _ => true
      , perFile := fun _ => { added := [1], removed := [], unchanged := [] } }).effects
      = [] :=
  (c3_equal_commit_noop
    { commit_hash := some "abc123", remote_origin_url := "https://example/r" }
    "abc123"
    { added := ["x.ts"], modified := [], deleted := [], renamed := [] }
    { all_files_full := ["x.ts"], supported := fun _ => true
    , file_exists := fun _ => true
    , perFile := fun _ => { added := [1], removed := [], unchanged := [] } }
    rfl (by decide)).1

/-- C10: the `entity_type` predicate of `query_nearest_neighbors` runs
after the vec0 `k`-nearest selection.  In `c10Store` there is one `file`
embedding (enough for `top_k = 1`) and a nearer `definition` embedding;
the filtered query returns no rows at all — strictly fewer than `top_k`. -/
theorem c10_filter_after_knn :
    (DatabaseManager.c10Store.filter
        (fun r => r.1.entity_type = "file")).length = 1 ∧
    DatabaseManager.query_nearest_neighbors DatabaseManager.c10Store 1 (some "file") = [] ∧
    (DatabaseManager.query_nearest_neighbors DatabaseManager.c10Store 1 (some "file")).length < 1 := by
  refine ⟨by decide, by decide, by decide⟩


/-! ### Theorems for claim C2: word-boundary scanner lemmas and the
rename-stability of `hash_source_code` -/

namespace DbUtils


theorem getLastD_indep (n : List Char) (hn : n ≠ []) (a b : Char) :
    n.getLastD a = n.getLastD b := by
  cases n with
  | nil => exact absurd rfl hn
  | cons x xs => rw [List.getLastD_cons, List.getLastD_cons]

theorem getLastD_mem (n : List Char) (hn : n ≠ []) (a : Char) :
    n.getLastD a ∈ n := by
  induction n generalizing a with
  | nil => exact absurd rfl hn
  | cons x xs ih =>
    cases hxs : xs with
    | nil => simp [List.getLastD_cons]
    | cons y ys =>
      rw [List.getLastD_cons]
      exact List.mem_cons_of_mem x (hxs ▸ ih (by simp [hxs]) x)

theorem subWordAux_fuel (n repl : List Char) (hn : n ≠ []) :
    ∀ f₁ f₂ s prevW, s.length ≤ f₁ → s.length ≤ f₂ →
      subWordAux n repl f₁ prevW s = subWordAux n repl f₂ prevW s := by
  intro f₁
  induction f₁ with
  | zero =>
    intro f₂ s prevW h₁ _
    have hs : s = [] := List.eq_nil_of_length_eq_zero (Nat.le_zero.1 h₁)
    subst hs
    cases f₂ <;> rfl
  | succ f ih =>
    intro f₂ s prevW h₁ h₂
    cases s with
    | nil => cases f₂ <;> rfl
    | cons c rest =>
      cases f₂ with
      | zero => exact absurd h₂ (by simp)
      | succ g =>
        show (if matchAt n prevW (c :: rest) then _ else _) =
          (if matchAt n prevW (c :: rest) then _ else _)
        by_cases hm : matchAt n prevW (c :: rest) = true
        · rw [if_pos hm, if_pos hm]
          have hlen : ((c :: rest).drop n.length).length ≤ f ∧
              ((c :: rest).drop n.length).length ≤ g := by
            have h1 : 1 ≤ n.length := List.length_pos.2 hn
            constructor <;>
            · rw [List.length_drop]
              omega
          rw [ih g _ _ hlen.1 hlen.2]
        · rw [if_neg hm, if_neg hm]
          have hlen₁ : rest.length ≤ f := by simp at h₁; omega
          have hlen₂ : rest.length ≤ g := by simp at h₂; omega
          rw [ih g _ _ hlen₁ hlen₂]

theorem subw_nil (n repl : List Char) (prevW : Bool) : subw n repl prevW [] = [] := rfl

theorem subw_cons_match (n repl : List Char) (hn : n ≠ []) (prevW : Bool)
    (c : Char) (rest : List Char) (hm : matchAt n prevW (c :: rest) = true) :
    subw n repl prevW (c :: rest) =
      repl ++ subw n repl (wordChar (n.getLastD c)) ((c :: rest).drop n.length) := by
  show subWordAux n repl (rest.length + 1) prevW (c :: rest) = _
  show (if matchAt n prevW (c :: rest) then _ else _) = _
  rw [if_pos hm]
  congr 1
  exact subWordAux_fuel n repl hn _ _ _ _
    (by rw [List.length_drop]; have := List.length_pos.2 hn; simp; omega)
    (le_refl _)

theorem subw_cons_nomatch (n repl : List Char) (prevW : Bool)
    (c : Char) (rest : List Char) (hm : matchAt n prevW (c :: rest) = false) :
    subw n repl prevW (c :: rest) = c :: subw n repl (wordChar c) rest := by
  show subWordAux n repl (rest.length + 1) prevW (c :: rest) = _
  show (if matchAt n prevW (c :: rest) then _ else _) = _
  rw [if_neg (by simp [hm])]
  rfl


/-- For an all-word-character pattern the boundary tests simplify. -/
theorem matchAt_word (n : List Char) (hn : n ≠ [])
    (hw : ∀ c ∈ n, wordChar c = true) (prevW : Bool) (s : List Char) :
    matchAt n prevW s =
      (n.isPrefixOf s && !prevW && !(wordCharOpt (s.drop n.length).head?)) := by
  cases n with
  | nil => exact absurd rfl hn
  | cons a m =>
    show (List.isPrefixOf (a :: m) s && (prevW != wordChar a) &&
        (wordCharOpt (s.drop (a :: m).length).head? != wordChar ((a :: m).getLastD a))) = _
    have ha : wordChar a = true := hw a (List.mem_cons_self a m)
    have hl : wordChar ((a :: m).getLastD a) = true :=
      hw _ (getLastD_mem (a :: m) (by simp) a)
    rw [ha, hl]
    cases prevW <;> cases wordCharOpt ((s.drop (a :: m).length).head?) <;>
      cases List.isPrefixOf (a :: m) s <;> rfl

/-- A pattern starting with a word character cannot match at a
non-word character. -/
theorem matchAt_nonword_head (n : List Char) (hn : n ≠ [])
    (hw : ∀ c ∈ n, wordChar c = true) (prevW : Bool) (c : Char)
    (hc : wordChar c = false) (t : List Char) :
    matchAt n prevW (c :: t) = false := by
  cases n with
  | nil => exact absurd rfl hn
  | cons a m =>
    have ha : wordChar a = true := hw a (List.mem_cons_self a m)
    have hac : (a == c) = false := by
      cases hac : (a == c) with
      | false => rfl
      | true => rw [eq_of_beq hac, hc] at ha; exact absurd ha (by simp)
    rw [matchAt_word (a :: m) hn hw]
    have hpre : List.isPrefixOf (a :: m) (c :: t) = false := by
      show (a == c && List.isPrefixOf m t) = false
      rw [hac]
      rfl
    rw [hpre]
    rfl

/-- With a word character on the left, an all-word pattern cannot match. -/
theorem matchAt_prevW (n : List Char) (hn : n ≠ [])
    (hw : ∀ c ∈ n, wordChar c = true) (s : List Char) :
    matchAt n true s = false := by
  rw [matchAt_word n hn hw]
  simp

/-- Unfolding of the occurrence scan at a cons cell. -/
theorem noOcc_step (p : List Char) (prevW : Bool) (c : Char) (rest : List Char)
    (h : hasWordOcc p prevW (c :: rest) = false) :
    matchAt p prevW (c :: rest) = false ∧ hasWordOcc p (wordChar c) rest = false := by
  have h' : (matchAt p prevW (c :: rest) || hasWordOcc p (wordChar c) rest) = false := h
  exact ⟨by cases hm : matchAt p prevW (c :: rest) <;> simp_all,
    by cases ho : hasWordOcc p (wordChar c) rest <;> simp_all⟩

/-- No occurrence of `p` in `s` propagates past a literal prefix `n` of
`s`: afterwards the left context is the last character of `n`. -/
theorem noOcc_drop (p : List Char) :
    ∀ (n : List Char), n ≠ [] → ∀ (s : List Char) (prevW : Bool) (a : Char),
      n.isPrefixOf s → hasWordOcc p prevW s = false →
      hasWordOcc p (wordChar (n.getLastD a)) (s.drop n.length) = false := by
  intro n
  induction n with
  | nil => intro h; exact absurd rfl h
  | cons x xs ih =>
    intro _ s prevW a hpre hocc
    cases s with
    | nil => simp [List.isPrefixOf] at hpre
    | cons c rest =>
      have hx : x = c ∧ List.isPrefixOf xs rest := by
        have : (x == c && List.isPrefixOf xs rest) = true := hpre
        constructor
        · exact eq_of_beq (by cases hxc : (x == c) <;> simp_all)
        · cases hp : List.isPrefixOf xs rest
          · rw [hp] at this; simp at this
          · rfl
      have hrest : hasWordOcc p (wordChar c) rest = false := (noOcc_step p prevW c rest hocc).2
      cases hxs : xs with
      | nil =>
        subst hxs
        rw [List.getLastD_cons]
        show hasWordOcc p (wordChar ([].getLastD x)) ((c :: rest).drop 1) = false
        rw [hx.1]
        exact hrest
      | cons y ys =>
        rw [List.getLastD_cons]
        have := ih (by simp [hxs]) rest (wordChar c) x (hxs ▸ hx.2) hrest
        rw [hxs] at this
        simpa using this


/-- The head of a nonempty `dropWhile` fails the predicate. -/
theorem dropWhile_head_false {p : Char → Bool} :
    ∀ {l : List Char} {d : Char} {t : List Char},
      l.dropWhile p = d :: t → p d = false := by
  intro l
  induction l with
  | nil => intro d t h; simp at h
  | cons e l₂ ih =>
    intro d t h
    by_cases hp : p e = true
    · rw [List.dropWhile_cons_of_pos hp] at h
      exact ih h
    · rw [List.dropWhile_cons_of_neg hp] at h
      cases h
      exact Bool.eq_false_iff.2 hp

/-- With a word character on the left, the scanner copies the maximal
word-character run verbatim and switches to non-word left context at the
first non-word character. -/
theorem subw_true_decomp (n n' : List Char) (hn : n ≠ [])
    (hw : ∀ c ∈ n, wordChar c = true) :
    ∀ t : List Char,
      subw n n' true t =
        t.takeWhile wordChar ++
          (match t.dropWhile wordChar with
           | [] => []
           | d :: t₃ => d :: subw n n' false t₃) := by
  intro t
  induction t with
  | nil => simp [subw_nil]
  | cons e t₂ ih =>
    have hm : matchAt n true (e :: t₂) = false := matchAt_prevW n hn hw (e :: t₂)
    rw [subw_cons_nomatch n n' true e t₂ hm]
    by_cases he : wordChar e = true
    · rw [he, List.takeWhile_cons_of_pos he, List.dropWhile_cons_of_pos he, ih]
      rfl
    · have he' : wordChar e = false := Bool.eq_false_iff.2 he
      rw [he', List.takeWhile_cons_of_neg (by simp [he']),
        List.dropWhile_cons_of_neg (by simp [he'])]
      rfl


/-- Components of a true conjunction of booleans. -/
theorem band_true {x y : Bool} (h : (x && y) = true) : x = true ∧ y = true := by
  cases x <;> cases y <;> simp_all

/-- The substitution never creates a fresh whole-word occurrence of the
replacement at a position the scanner copies: if `n'` (all word
characters) does not match at `c :: rest`, it does not match at `c`
followed by the substituted tail either. -/
theorem matchAt_subw_sticky (n n' : List Char) (hn : n ≠ [])
    (hw : ∀ c ∈ n, wordChar c = true) (hn' : n' ≠ [])
    (hw' : ∀ c ∈ n', wordChar c = true) (prevW : Bool) (c : Char)
    (rest : List Char)
    (hm : matchAt n' prevW (c :: rest) = false) :
    matchAt n' prevW (c :: subw n n' true rest) = false := by
  cases hout : matchAt n' prevW (c :: subw n n' true rest) with
  | false => rfl
  | true =>
    exfalso
    rw [matchAt_word n' hn' hw'] at hout
    have h1 := band_true hout
    have hpre : n'.isPrefixOf (c :: subw n n' true rest) = true :=
      (band_true h1.1).1
    have hprev : prevW = false := by
      have := (band_true h1.1).2
      cases prevW
      · rfl
      · simp at this
    have hbound :
        wordCharOpt (((c :: subw n n' true rest).drop n'.length).head?) = false := by
      have := h1.2
      cases hb : wordCharOpt (((c :: subw n n' true rest).drop n'.length).head?)
      · rfl
      · rw [hb] at this; simp at this
    obtain ⟨a, m, hn'e⟩ : ∃ a m, n' = a :: m := by
      cases n' with
      | nil => exact absurd rfl hn'
      | cons a m => exact ⟨a, m, rfl⟩
    subst hn'e
    have hac : a = c := by
      have h' : (a == c && m.isPrefixOf (subw n (a :: m) true rest)) = true := hpre
      exact eq_of_beq (band_true h').1
    have hmpre : m.isPrefixOf (subw n (a :: m) true rest) = true := by
      have h' : (a == c && m.isPrefixOf (subw n (a :: m) true rest)) = true := hpre
      exact (band_true h').2
    have hwm : ∀ x ∈ m, wordChar x = true := fun x hx => hw' x (List.mem_cons_of_mem a hx)
    cases hdrop : rest.dropWhile wordChar with
    | nil =>
      have hfull : rest.takeWhile wordChar = rest := by
        have h' := List.takeWhile_append_dropWhile (p := wordChar) (l := rest)
        rw [hdrop, List.append_nil] at h'
        exact h'
      have hout' : subw n (a :: m) true rest = rest := by
        rw [subw_true_decomp n (a :: m) hn hw rest, hdrop, hfull, List.append_nil]
      rw [matchAt_word (a :: m) hn' hw'] at hm
      rw [hout'] at hpre hbound
      rw [hpre, hprev, hbound] at hm
      simp at hm
    | cons d t₃ =>
      have hd : wordChar d = false := dropWhile_head_false hdrop
      have hrest : rest = rest.takeWhile wordChar ++ d :: t₃ := by
        have h' := List.takeWhile_append_dropWhile (p := wordChar) (l := rest)
        rw [hdrop] at h'
        exact h'.symm
      have hWmem : ∀ x ∈ rest.takeWhile wordChar, wordChar x = true :=
        fun x hx => List.mem_takeWhile_imp hx
      have hout' : subw n (a :: m) true rest =
          rest.takeWhile wordChar ++ d :: subw n (a :: m) false t₃ := by
        rw [subw_true_decomp n (a :: m) hn hw rest, hdrop]
      set W := rest.takeWhile wordChar with hW
      set Z := subw n (a :: m) false t₃ with hZ
      rw [hout'] at hmpre
      have hmtake : m = (W ++ d :: Z).take m.length :=
        List.prefix_iff_eq_take.1 ( List.isPrefixOf_iff_prefix.1 hmpre)
      rcases Nat.lt_trichotomy m.length W.length with hlt | heq | hgt
      · -- boundary lands inside the word run W
        rw [hout'] at hbound
        have hdropped :
            ((c :: (W ++ d :: Z)).drop (a :: m).length).head? = (W ++ d :: Z)[m.length]? := by
          show ((W ++ d :: Z).drop m.length).head? = _
          exact List.head?_drop _ _
        rw [hdropped] at hbound
        have hidx : (W ++ d :: Z)[m.length]? = W[m.length]? :=
          List.getElem?_append_left hlt
        rw [hidx, List.getElem?_eq_getElem hlt] at hbound
        have hwordW : wordChar (W[m.length]) = true :=
          hWmem _ (List.getElem_mem hlt)
        rw [show wordCharOpt (some (W[m.length])) = wordChar (W[m.length]) from rfl,
          hwordW] at hbound
        simp at hbound
      · -- the match is exactly c :: W, so it was present in the original
        have hmW : m = W := by
          rw [hmtake, heq, List.take_left]
        rw [matchAt_word (a :: m) hn' hw'] at hm
        have hpre₀ : (a :: m).isPrefixOf (c :: rest) = true := by
          show (a == c && m.isPrefixOf rest) = true
          rw [hrest, hmW]
          have hWpre : W.isPrefixOf (W ++ d :: t₃) = true :=
            List.isPrefixOf_iff_prefix.2 ⟨d :: t₃, rfl⟩
          rw [hWpre]
          simp [hac]
        have hb₀ : wordCharOpt (((c :: rest).drop (a :: m).length).head?) = false := by
          show wordCharOpt ((rest.drop m.length).head?) = false
          rw [hrest, hmW, List.head?_drop]
          have hgd : (W ++ d :: t₃)[W.length]? = some d := by
            rw [List.getElem?_append_right (Nat.le_refl _)]
            simp
          rw [hgd]
          show wordChar d = false
          exact hd
        rw [hpre₀, hprev, hb₀] at hm
        simp at hm
      · -- m would have to contain the non-word character d
        have hdm : d ∈ m := by
          have hx : (W ++ d :: Z)[W.length]? = some d := by
            rw [List.getElem?_append_right (Nat.le_refl _)]
            simp
          have hm' : m[W.length]? = some d := by
            rw [hmtake, List.getElem?_take_of_lt hgt, hx]
          exact List.getElem?_mem hm'
        rw [hw' d (List.mem_cons_of_mem a hdm)] at hd
        simp at hd


/-- `subw_cons_match` with the default argument of `getLastD` fixed. -/
theorem subw_match_head (n repl : List Char) (hn : n ≠ []) (prevW : Bool)
    (c : Char) (rest : List Char) (hm : matchAt n prevW (c :: rest) = true) :
    subw n repl prevW (c :: rest) =
      repl ++ subw n repl (wordChar (n.getLastD 'a')) ((c :: rest).drop n.length) := by
  rw [subw_cons_match n repl hn prevW c rest hm, getLastD_indep n hn c 'a']

/-- Removing the new name after substituting it for the old one yields
the removal of the old name, provided the new name has no whole-word
occurrence in the string (length-bounded version for the induction). -/
theorem sub_remove_comm_aux (n n' : List Char) (hn : n ≠ [])
    (hw : ∀ c ∈ n, wordChar c = true) (hn' : n' ≠ [])
    (hw' : ∀ c ∈ n', wordChar c = true) :
    ∀ (L : ℕ) (s : List Char) (prevW : Bool), s.length ≤ L →
      hasWordOcc n' prevW s = false →
      subw n' [] prevW (subw n n' prevW s) = subw n [] prevW s := by
  intro L
  induction L with
  | zero =>
    intro s prevW hlen _
    have hs : s = [] := List.eq_nil_of_length_eq_zero (Nat.le_zero.1 hlen)
    subst hs
    rw [subw_nil, subw_nil, subw_nil]
  | succ L ih =>
    intro s prevW hlen hocc
    cases s with
    | nil => rw [subw_nil, subw_nil, subw_nil]
    | cons c rest =>
      cases hm : matchAt n prevW (c :: rest) with
      | true =>
        -- the old name matches here: it is replaced by n', which the
        -- outer pass removes again
        have hm' := hm
        rw [matchAt_word n hn hw] at hm'
        have h1 := band_true hm'
        have hprefix : n.isPrefixOf (c :: rest) = true := (band_true h1.1).1
        have hprev : prevW = false := by
          have := (band_true h1.1).2
          cases prevW
          · rfl
          · simp at this
        have hbound : wordCharOpt (((c :: rest).drop n.length).head?) = false := by
          have := h1.2
          cases hb : wordCharOpt (((c :: rest).drop n.length).head?)
          · rfl
          · rw [hb] at this; simp at this
        have hctx : wordChar (n.getLastD 'a') = true :=
          hw _ (getLastD_mem n hn 'a')
        have hinner : subw n n' prevW (c :: rest) =
            n' ++ subw n n' true ((c :: rest).drop n.length) := by
          rw [subw_match_head n n' hn prevW c rest hm, hctx]
        have hrhs : subw n [] prevW (c :: rest) =
            subw n [] true ((c :: rest).drop n.length) := by
          rw [subw_match_head n [] hn prevW c rest hm, hctx, List.nil_append]
        set rest' := (c :: rest).drop n.length with hrest'
        set X := subw n n' true rest' with hX
        -- the head of X is a non-word character or absent
        have hXhead : wordCharOpt X.head? = false := by
          cases hr : rest' with
          | nil => rw [hX, hr, subw_nil]; rfl
          | cons d rest'' =>
            have hd : wordChar d = false := by
              rw [hr] at hbound
              exact hbound
            have : X = d :: subw n n' false rest'' := by
              rw [hX, hr, subw_cons_nomatch n n' true d rest''
                (matchAt_prevW n hn hw (d :: rest'')), hd]
            rw [this]
            show wordChar d = false
            exact hd
        -- the outer pass matches n' at the head of n' ++ X
        have houter : matchAt n' prevW (n' ++ X) = true := by
          rw [matchAt_word n' hn' hw', hprev]
          have hp : n'.isPrefixOf (n' ++ X) = true :=
            List.isPrefixOf_iff_prefix.2 ⟨X, rfl⟩
          rw [hp, List.drop_left, hXhead]
          rfl
        have hctx' : wordChar (n'.getLastD 'a') = true :=
          hw' _ (getLastD_mem n' hn' 'a')
        have houtstep : subw n' [] prevW (n' ++ X) = subw n' [] true X := by
          obtain ⟨a, m, he⟩ : ∃ a m, n' = a :: m := by
            cases n' with
            | nil => exact absurd rfl hn'
            | cons a m => exact ⟨a, m, rfl⟩
          have hshape : n' ++ X = a :: (m ++ X) := by rw [he]; rfl
          rw [hshape, subw_match_head n' [] hn' prevW a (m ++ X)
            (by rw [← hshape]; exact houter), hctx', List.nil_append]
          congr 1
          rw [← hshape, List.drop_left]
        have hlen' : rest'.length ≤ L := by
          rw [hrest', List.length_drop]
          have h1 : 1 ≤ n.length := List.length_pos.2 hn
          have : (c :: rest).length ≤ L + 1 := hlen
          simp at this ⊢
          omega
        have hocc' : hasWordOcc n' true rest' = false := by
          have := noOcc_drop n' n hn (c :: rest) prevW 'a' hprefix hocc
          rw [hctx] at this
          exact this
        rw [hinner, houtstep, hrhs]
        exact ih rest' true hlen' hocc'
      | false =>
        have hstep := noOcc_step n' prevW c rest hocc
        have hinner : subw n n' prevW (c :: rest) =
            c :: subw n n' (wordChar c) rest :=
          subw_cons_nomatch n n' prevW c rest hm
        have houtmatch : matchAt n' prevW (c :: subw n n' (wordChar c) rest) = false := by
          cases hcw : wordChar c with
          | false =>
            exact matchAt_nonword_head n' hn' hw' prevW c hcw _
          | true =>
            exact matchAt_subw_sticky n n' hn hw hn' hw' prevW c rest hstep.1
        have hlen' : rest.length ≤ L := by
          have : (c :: rest).length ≤ L + 1 := hlen
          simp at this
          omega
        rw [hinner, subw_cons_nomatch n' [] prevW c _ houtmatch,
          subw_cons_nomatch n [] prevW c rest hm]
        exact congrArg (c :: ·) (ih rest (wordChar c) hlen' hstep.2)

/-- Removing the new name from the renamed body equals removing the old
name from the original body. -/
theorem sub_remove_comm (n n' : List Char) (hn : n ≠ [])
    (hw : ∀ c ∈ n, wordChar c = true) (hn' : n' ≠ [])
    (hw' : ∀ c ∈ n', wordChar c = true) (s : List Char)
    (hocc : hasWordOcc n' false s = false) :
    subw n' [] false (subw n n' false s) = subw n [] false s :=
  sub_remove_comm_aux n n' hn hw hn' hw' s.length s false (le_refl _) hocc

/-- C2 (counterexample to the original claim): renaming `foo` to `bar`
in the body `"foo bar"` changes the digest.  Removing the old name from
the original leaves `"bar"`, while removing the new name from the
renamed body `"bar bar"` leaves the empty string, because the new name
already occurred as a whole word in the body and its occurrences are
removed together with the renamed ones. -/
theorem c2_rename_hash_counterexample :
    hash_source_code "foo" "foo bar" ≠
      hash_source_code "bar" (renameWord "foo" "bar" "foo bar") := by
  decide

/-- C2 (amended): for identifier-shaped names (nonempty, all word
characters, not `"anonymous"`), renaming a definition's identifier in
its body leaves `hash_source_code` unchanged provided the new name does
not already occur as a whole word in the body. -/
theorem c2_rename_hash_stable (n n' B : String)
    (hn : n.data ≠ []) (hw : ∀ c ∈ n.data, wordChar c = true)
    (hna : n ≠ "anonymous")
    (hn' : n'.data ≠ []) (hw' : ∀ c ∈ n'.data, wordChar c = true)
    (hna' : n' ≠ "anonymous")
    (hocc : hasWordOcc n'.data false B.data = false) :
    hash_source_code n B = hash_source_code n' (renameWord n n' B) := by
  have hne : n ≠ "" := by
    intro h
    rw [h] at hn
    exact hn rfl
  have hne' : n' ≠ "" := by
    intro h
    rw [h] at hn'
    exact hn' rfl
  unfold hash_source_code
  rw [if_neg (by push_neg; exact ⟨hne, hna⟩), if_neg (by push_neg; exact ⟨hne', hna'⟩)]
  have hdata : (renameWord n n' B).data = subw n.data n'.data false B.data := rfl
  rw [hdata, sub_remove_comm n.data n'.data hn hw hn' hw' B.data hocc]

/-- Witness for the amended C2 theorem on a concrete body. -/
theorem c2_rename_hash_stable_witness :
    hash_source_code "foo" "const foo = 1\nfoo()" =
      hash_source_code "qux" (renameWord "foo" "qux" "const foo = 1\nfoo()") :=
  c2_rename_hash_stable "foo" "qux" "const foo = 1\nfoo()" (by decide) (by decide)
    (by decide) (by decide) (by decide) (by decide) (by decide)

end DbUtils


/-! ### Theorems for claim C1: the traversal order schedules
dependencies before dependents -/

namespace DagTraversal


theorem reachB_mono (edges : List (ℕ × ℕ)) :
    ∀ {f₁ f₂ : ℕ} {u v : ℕ}, f₁ ≤ f₂ → reachB edges f₁ u v = true →
      reachB edges f₂ u v = true := by
  intro f₁
  induction f₁ with
  | zero =>
    intro f₂ u v _ h
    have huv : u = v := by
      have : (u == v) = true := h
      exact eq_of_beq this
    subst huv
    cases f₂ with
    | zero => exact h
    | succ g => show (u == u || _) = true; simp
  | succ f ih =>
    intro f₂ u v hle h
    cases f₂ with
    | zero => omega
    | succ g =>
      have h' : (u == v || edges.any (fun e => e.1 == u && reachB edges f e.2 v)) = true := h
      rcases Bool.or_eq_true_iff.1 h' with huv | hany
      · show (u == v || _) = true
        rw [huv]
        rfl
      · obtain ⟨e, he, hcond⟩ := List.any_eq_true.1 hany
        have h1 := Bool.and_eq_true_iff.1 hcond
        show (u == v || _) = true
        have : edges.any (fun e => e.1 == u && reachB edges g e.2 v) = true :=
          List.any_eq_true.2 ⟨e, he, Bool.and_eq_true_iff.2
            ⟨h1.1, ih (Nat.le_of_succ_le_succ hle) h1.2⟩⟩
        rw [this]
        simp

theorem reachB_sound (edges : List (ℕ × ℕ)) :
    ∀ {fuel u v : ℕ}, reachB edges fuel u v = true →
      Relation.ReflTransGen (edgeRel edges) u v := by
  intro fuel
  induction fuel with
  | zero =>
    intro u v h
    have : u = v := eq_of_beq h
    exact this ▸ Relation.ReflTransGen.refl
  | succ f ih =>
    intro u v h
    have h' : (u == v || edges.any (fun e => e.1 == u && reachB edges f e.2 v)) = true := h
    rcases Bool.or_eq_true_iff.1 h' with huv | hany
    · exact (eq_of_beq huv) ▸ Relation.ReflTransGen.refl
    · obtain ⟨e, he, hcond⟩ := List.any_eq_true.1 hany
      have h1 := Bool.and_eq_true_iff.1 hcond
      have hu : e.1 = u := eq_of_beq h1.1
      exact Relation.ReflTransGen.head (by rw [← hu]; exact he) (ih h1.2)

theorem reachB_of_chain (edges : List (ℕ × ℕ)) :
    ∀ (l : List ℕ) (u v : ℕ), List.Chain (edgeRel edges) u l →
      (u :: l).getLast (by simp) = v → reachB edges l.length u v = true := by
  intro l
  induction l with
  | nil =>
    intro u v _ hlast
    have : u = v := hlast
    subst this
    show (u == u) = true
    simp
  | cons x xs ih =>
    intro u v hchain hlast
    cases hchain with
    | cons hedge htail =>
      show (u == v || edges.any (fun e => e.1 == u && reachB edges xs.length e.2 v)) = true
      have hx : reachB edges xs.length x v = true :=
        ih x v htail (by simpa using hlast)
      have : edges.any (fun e => e.1 == u && reachB edges xs.length e.2 v) = true :=
        List.any_eq_true.2 ⟨(u, x), hedge, Bool.and_eq_true_iff.2 ⟨by simp, hx⟩⟩
      rw [this]
      simp


/-- A list with a duplicated element splits around the two copies. -/
theorem two_occ_split {x : ℕ} {c : List ℕ} (h : [x, x].Sublist c) :
    ∃ p m s, c = p ++ (x :: (m ++ x :: s)) := by
  induction c with
  | nil => exact absurd h (by simp)
  | cons y c' ih =>
    cases h with
    | cons =>
      rename_i h'
      obtain ⟨p, m, s, hd⟩ := ih h'
      exact ⟨y :: p, m, s, by rw [hd]; rfl⟩
    | cons₂ =>
      rename_i h'
      have hx : x ∈ c' := by
        have := h'.subset
        simp at this
        exact this
      obtain ⟨m, s, hd⟩ := List.mem_iff_append.mp hx
      exact ⟨[], m, s, by rw [hd]; rfl⟩

/-- A chain from `u` to `v` shrinks to a duplicate-free chain. -/
theorem exists_nodup_chain (r : ℕ → ℕ → Prop) :
    ∀ (L : ℕ) (l : List ℕ) (u v : ℕ), l.length ≤ L → List.Chain r u l →
      (u :: l).getLast (by simp) = v →
      ∃ l', List.Chain r u l' ∧ (u :: l').getLast (by simp) = v ∧
        (u :: l').Nodup ∧ l'.length ≤ l.length := by
  intro L
  induction L with
  | zero =>
    intro l u v hlen hchain hlast
    have hl : l = [] := List.eq_nil_of_length_eq_zero (Nat.le_zero.1 hlen)
    subst hl
    exact ⟨[], hchain, hlast, by simp, le_refl _⟩
  | succ L ih =>
    intro l u v hlen hchain hlast
    by_cases hnd : (u :: l).Nodup
    · exact ⟨l, hchain, hlast, hnd, le_refl _⟩
    · obtain ⟨x, hdup⟩ := List.exists_duplicate_iff_not_nodup.mpr hnd
      obtain ⟨p, m, s, hsplit⟩ := two_occ_split (List.duplicate_iff_sublist.mp hdup)
      cases p with
      | nil =>
        -- u itself repeats: u = x, drop everything through the second copy
        have hux : u = x := by
          have : u :: l = x :: (m ++ x :: s) := hsplit
          exact (List.cons.injEq _ _ _ _ ▸ this).1
        have hl : l = m ++ x :: s := by
          have : u :: l = x :: (m ++ x :: s) := hsplit
          exact (List.cons.injEq _ _ _ _ ▸ this).2
        have hchain' : List.Chain r x s := by
          rw [hl] at hchain
          exact (List.chain_split.1 hchain).2
        have hlast' : (x :: s).getLast (by simp) = v := by
          rw [← hlast]
          cases s with
          | nil =>
            rw [hl]
            have : (u :: (m ++ x :: [])).getLast (by simp) =
                ((u :: m) ++ [x]).getLast (by simp) := rfl
            rw [this, List.getLast_append_of_ne_nil (by simp)]
          | cons s₀ s' =>
            rw [hl]
            have h₁ : (u :: (m ++ x :: s₀ :: s')).getLast (by simp) =
                ((u :: m ++ [x]) ++ s₀ :: s').getLast (by simp) := by
              congr 1
              simp
            have h₂ : (x :: s₀ :: s').getLast (by simp) =
                ([x] ++ s₀ :: s').getLast (by simp) := rfl
            rw [h₁, h₂, List.getLast_append_of_ne_nil (by simp),
              List.getLast_append_of_ne_nil (by simp)]
        have hlen' : s.length ≤ L := by
          rw [hl] at hlen
          simp only [List.length_append, List.length_cons] at hlen
          omega
        obtain ⟨l', hc, hla, hnd', hle⟩ :=
          ih s x v hlen' hchain' hlast'
        refine ⟨l', hux ▸ hc, by rw [hux]; exact hla, by rw [hux]; exact hnd', ?_⟩
        rw [hl]
        simp only [List.length_append, List.length_cons]
        omega
      | cons p₀ p' =>
        -- the duplicate sits inside l: splice out the loop between the copies
        have hup : u = p₀ ∧ l = p' ++ (x :: (m ++ x :: s)) := by
          have : u :: l = p₀ :: (p' ++ (x :: (m ++ x :: s))) := hsplit
          exact ⟨(List.cons.injEq _ _ _ _ ▸ this).1, (List.cons.injEq _ _ _ _ ▸ this).2⟩
        have hl := hup.2
        have hchain₁ : List.Chain r u (p' ++ [x]) := by
          rw [hl] at hchain
          exact ((@List.chain_split ℕ r u x p' (m ++ x :: s)).1 hchain).1
        have hchain₂ : List.Chain r x (m ++ x :: s) := by
          rw [hl] at hchain
          exact ((@List.chain_split ℕ r u x p' (m ++ x :: s)).1 hchain).2
        have hchain₃ : List.Chain r x s := (List.chain_split.1 hchain₂).2
        have hchain' : List.Chain r u (p' ++ x :: s) :=
          List.chain_split.2 ⟨hchain₁, hchain₃⟩
        have hlast' : (u :: (p' ++ x :: s)).getLast (by simp) = v := by
          rw [← hlast, hl]
          have h₁ : (u :: (p' ++ x :: s)).getLast (by simp) =
              ((u :: p') ++ x :: s).getLast (by simp) := rfl
          have h₂ : (u :: (p' ++ (x :: (m ++ x :: s)))).getLast (by simp) =
              (((u :: p') ++ (x :: m)) ++ x :: s).getLast (by simp) := by
            congr 1
            simp
          rw [h₁, h₂, List.getLast_append_of_ne_nil (by simp),
            List.getLast_append_of_ne_nil (by simp)]
        have hlen' : (p' ++ x :: s).length ≤ L := by
          rw [hl] at hlen
          simp at hlen ⊢
          omega
        obtain ⟨l', hc, hla, hnd', hle⟩ :=
          ih (p' ++ x :: s) u v hlen' hchain' hlast'
        refine ⟨l', hc, hla, hnd', ?_⟩
        rw [hl]
        simp only [List.length_append, List.length_cons] at hle ⊢
        omega

/-- Every element of a chain is the target of an edge of the relation's
edge list. -/
theorem chain_mem_targets (edges : List (ℕ × ℕ)) :
    ∀ (l : List ℕ) (u : ℕ), List.Chain (edgeRel edges) u l →
      ∀ x ∈ l, x ∈ edges.map Prod.snd := by
  intro l
  induction l with
  | nil => intro u _ x hx; simp at hx
  | cons y l' ih =>
    intro u hchain x hx
    cases hchain with
    | cons hedge htail =>
      rcases List.mem_cons.1 hx with hxy | hxl
      · subst hxy
        exact List.mem_map.2 ⟨(u, x), hedge, rfl⟩
      · exact ih y htail x hxl

/-- Saturation: the fuel-bounded search with `edges.length` fuel decides
reflexive-transitive reachability. -/
theorem reaches_iff (edges : List (ℕ × ℕ)) (u v : ℕ) :
    reaches edges u v = true ↔ Relation.ReflTransGen (edgeRel edges) u v := by
  constructor
  · exact reachB_sound edges
  · intro h
    obtain ⟨l, hchain, hlast⟩ := List.exists_chain_of_relationReflTransGen h
    obtain ⟨l', hc, hla, hnd, _⟩ :=
      exists_nodup_chain (edgeRel edges) l.length l u v (le_refl _) hchain hlast
    have hsub : l' ⊆ edges.map Prod.snd := fun x hx =>
      chain_mem_targets edges l' u hc x hx
    have hlen : l'.length ≤ edges.length := by
      have h1 : l'.length ≤ (edges.map Prod.snd).length :=
        ((hnd.of_cons).subperm hsub).length_le
      simpa using h1
    exact reachB_mono edges hlen (reachB_of_chain edges l' u v hc hla)

/-- Reflexivity of the executable reachability. -/
theorem reaches_refl (edges : List (ℕ × ℕ)) (u : ℕ) : reaches edges u u = true :=
  (reaches_iff edges u u).2 Relation.ReflTransGen.refl

/-- Transitivity of the executable reachability. -/
theorem reaches_trans {edges : List (ℕ × ℕ)} {a b c : ℕ}
    (h₁ : reaches edges a b = true) (h₂ : reaches edges b c = true) :
    reaches edges a c = true :=
  (reaches_iff edges a c).2
    (Relation.ReflTransGen.trans ((reaches_iff edges a b).1 h₁)
      ((reaches_iff edges b c).1 h₂))

/-- An edge is a reachability step. -/
theorem reaches_of_edge {edges : List (ℕ × ℕ)} {a b : ℕ} (h : (a, b) ∈ edges) :
    reaches edges a b = true :=
  (reaches_iff edges a b).2 (Relation.ReflTransGen.single h)


/-- Filtering with a pointwise weaker predicate keeps fewer elements. -/
theorem filter_length_mono {l : List ℕ} {p q : ℕ → Bool}
    (h : ∀ a ∈ l, p a = true → q a = true) :
    (l.filter p).length ≤ (l.filter q).length := by
  induction l with
  | nil => simp
  | cons x xs ih =>
    have hx := h x (List.mem_cons_self x xs)
    have htail : ∀ a ∈ xs, p a = true → q a = true :=
      fun a ha => h a (List.mem_cons_of_mem x ha)
    cases hp : p x <;> cases hq : q x <;>
      simp [List.filter_cons, hp, hq] <;>
      first
      | exact ih htail
      | exact Nat.le_succ_of_le (ih htail)
      | exact absurd (hx hp) (by rw [hq]; simp)

/-- Strict version: a witness satisfying only the weaker predicate makes
the inequality strict. -/
theorem filter_length_strict {l : List ℕ} {p q : ℕ → Bool}
    (h : ∀ a ∈ l, p a = true → q a = true) (a : ℕ) (ha : a ∈ l)
    (hqa : q a = true) (hpa : p a = false) :
    (l.filter p).length < (l.filter q).length := by
  induction l with
  | nil => simp at ha
  | cons x xs ih =>
    have htail : ∀ b ∈ xs, p b = true → q b = true :=
      fun b hb => h b (List.mem_cons_of_mem x hb)
    rcases List.mem_cons.1 ha with hax | hax
    · subst hax
      rw [List.filter_cons, List.filter_cons, hpa, hqa]
      simp only [if_pos rfl]
      show (xs.filter p).length < (xs.filter q).length + 1
      exact Nat.lt_succ_of_le (filter_length_mono htail)
    · have hstep := ih htail hax
      have hx := h x (List.mem_cons_self x xs)
      cases hp : p x <;> cases hq : q x <;>
        simp [List.filter_cons, hp, hq] <;>
        first
        | exact hstep
        | exact Nat.lt_succ_of_lt hstep
        | omega
        | exact absurd (hx hp) (by rw [hq]; simp)

/-! ### Strongly connected components -/

theorem eqv_refl (edges : List (ℕ × ℕ)) (u : ℕ) : eqv edges u u = true := by
  show (reaches edges u u && reaches edges u u) = true
  rw [reaches_refl]
  rfl

theorem eqv_symm {edges : List (ℕ × ℕ)} {u v : ℕ} (h : eqv edges u v = true) :
    eqv edges v u = true := by
  have h' := Bool.and_eq_true_iff.1 h
  exact Bool.and_eq_true_iff.2 ⟨h'.2, h'.1⟩

theorem eqv_trans {edges : List (ℕ × ℕ)} {u v w : ℕ} (h₁ : eqv edges u v = true)
    (h₂ : eqv edges v w = true) : eqv edges u w = true := by
  have h₁' := Bool.and_eq_true_iff.1 h₁
  have h₂' := Bool.and_eq_true_iff.1 h₂
  exact Bool.and_eq_true_iff.2
    ⟨reaches_trans h₁'.1 h₂'.1, reaches_trans h₂'.2 h₁'.2⟩

theorem mem_sccOf_iff {g : IdGraph} {u v : ℕ} :
    v ∈ sccOf g u ↔ v ∈ g.nodes ∧ eqv g.edges u v = true := by
  constructor
  · intro h
    have h' := List.mem_filter.1 h
    exact ⟨h'.1, h'.2⟩
  · intro h
    exact List.mem_filter.2 ⟨h.1, h.2⟩

theorem self_mem_sccOf {g : IdGraph} {u : ℕ} (hu : u ∈ g.nodes) :
    u ∈ sccOf g u :=
  mem_sccOf_iff.2 ⟨hu, eqv_refl g.edges u⟩

theorem sccOf_congr {g : IdGraph} {u v : ℕ} (h : eqv g.edges u v = true) :
    sccOf g u = sccOf g v := by
  unfold sccOf
  apply List.filter_congr
  intro x _
  cases hx : eqv g.edges v x with
  | true => exact eqv_trans h hx
  | false =>
    cases hx' : eqv g.edges u x with
    | true => exact absurd (eqv_trans (eqv_symm h) hx') (by rw [hx]; simp)
    | false => rfl

theorem sccOf_mem_sccsList {g : IdGraph} {u : ℕ} (hu : u ∈ g.nodes) :
    sccOf g u ∈ sccsList g :=
  List.mem_dedup.2 (List.mem_map.2 ⟨u, hu, rfl⟩)

theorem sccsList_nodup (g : IdGraph) : (sccsList g).Nodup :=
  List.nodup_dedup _

theorem idxIn_lt {l : List (List ℕ)} {x : List ℕ} (h : x ∈ l) :
    idxIn l x < l.length := by
  induction l with
  | nil => simp at h
  | cons y ys ih =>
    show (if y = x then 0 else idxIn ys x + 1) < ys.length + 1
    by_cases hyx : y = x
    · rw [if_pos hyx]; omega
    · rw [if_neg hyx]
      have : x ∈ ys := by
        rcases List.mem_cons.1 h with h' | h'
        · exact absurd h'.symm hyx
        · exact h'
      have := ih this
      omega

theorem getD_idxIn {l : List (List ℕ)} {x : List ℕ} (h : x ∈ l) :
    l.getD (idxIn l x) [] = x := by
  induction l with
  | nil => simp at h
  | cons y ys ih =>
    by_cases hyx : y = x
    · have h0 : idxIn (y :: ys) x = 0 := by
        show (if y = x then 0 else idxIn ys x + 1) = 0
        rw [if_pos hyx]
      rw [h0]
      exact hyx
    · have hmem : x ∈ ys := by
        rcases List.mem_cons.1 h with h' | h'
        · exact absurd h'.symm hyx
        · exact h'
      have h1 : idxIn (y :: ys) x = idxIn ys x + 1 := by
        show (if y = x then 0 else idxIn ys x + 1) = _
        rw [if_neg hyx]
      rw [h1]
      show ys.getD (idxIn ys x) [] = x
      exact ih hmem

theorem idxIn_getD {l : List (List ℕ)} (hnd : l.Nodup) :
    ∀ {i : ℕ}, i < l.length → idxIn l (l.getD i []) = i := by
  induction l with
  | nil => intro i hi; simp at hi
  | cons y ys ih =>
    intro i hi
    cases i with
    | zero =>
      show (if y = y then 0 else _) = 0
      rw [if_pos rfl]
    | succ j =>
      have hj : j < ys.length := by simpa using hi
      have hmem : ys.getD j [] ∈ ys := by
        rw [List.getD_eq_getElem _ _ hj]
        exact List.getElem_mem hj
      have hne : y ≠ ys.getD j [] := fun he => (List.nodup_cons.1 hnd).1 (he ▸ hmem)
      have hstep : (y :: ys).getD (j + 1) [] = ys.getD j [] := rfl
      show (if y = (y :: ys).getD (j + 1) [] then 0
        else idxIn ys ((y :: ys).getD (j + 1) []) + 1) = j + 1
      rw [hstep, if_neg hne, ih (List.nodup_cons.1 hnd).2 hj]

theorem sccIdx_lt {g : IdGraph} {u : ℕ} (hu : u ∈ g.nodes) :
    sccIdx g u < (sccsList g).length :=
  idxIn_lt (sccOf_mem_sccsList hu)

theorem sccsList_getD_sccIdx {g : IdGraph} {u : ℕ} (hu : u ∈ g.nodes) :
    (sccsList g).getD (sccIdx g u) [] = sccOf g u :=
  getD_idxIn (sccOf_mem_sccsList hu)

/-- Representative of a condensation node. -/
theorem exists_rep {g : IdGraph} {i : ℕ} (hi : i < (sccsList g).length) :
    ∃ w ∈ g.nodes, sccIdx g w = i ∧ (sccsList g).getD i [] = sccOf g w := by
  have hmem : (sccsList g).getD i [] ∈ sccsList g := by
    rw [List.getD_eq_getElem _ _ hi]
    exact List.getElem_mem hi
  obtain ⟨w, hw, hwe⟩ := List.mem_map.1 (List.mem_dedup.1 hmem)
  refine ⟨w, hw, ?_, hwe.symm⟩
  have h' : sccIdx g w = idxIn (sccsList g) ((sccsList g).getD i []) := by
    unfold sccIdx
    rw [hwe]
  rw [h']
  exact idxIn_getD (sccsList_nodup g) hi

/-- Equal condensation indices of two nodes mean mutual reachability. -/
theorem eqv_of_sccIdx_eq {g : IdGraph} {u v : ℕ} (hu : u ∈ g.nodes)
    (hv : v ∈ g.nodes) (h : sccIdx g u = sccIdx g v) :
    eqv g.edges u v = true := by
  have h1 : sccOf g u = sccOf g v := by
    rw [← sccsList_getD_sccIdx hu, ← sccsList_getD_sccIdx hv, h]
  have : v ∈ sccOf g u := h1 ▸ self_mem_sccOf hv
  exact (mem_sccOf_iff.1 this).2

theorem sccIdx_eq_of_eqv {g : IdGraph} {u v : ℕ} (h : eqv g.edges u v = true) :
    sccIdx g u = sccIdx g v := by
  unfold sccIdx
  rw [sccOf_congr h]


/-- Membership in the condensation's edge list. -/
theorem cond_edge_iff {g : IdGraph} {i j : ℕ} :
    (i, j) ∈ (condensation g).edges ↔
      (∃ e ∈ g.edges, sccIdx g e.1 = i ∧ sccIdx g e.2 = j) ∧ i ≠ j := by
  show (i, j) ∈
    ((g.edges.map (fun e => (sccIdx g e.1, sccIdx g e.2))).filter
      (fun e => decide (e.1 ≠ e.2))).dedup ↔ _
  rw [List.mem_dedup, List.mem_filter]
  constructor
  · intro h
    obtain ⟨e, he, hee⟩ := List.mem_map.1 h.1
    have hne : i ≠ j := of_decide_eq_true h.2
    exact ⟨⟨e, he, (Prod.mk.injEq _ _ _ _ ▸ hee).1, (Prod.mk.injEq _ _ _ _ ▸ hee).2⟩, hne⟩
  · intro h
    obtain ⟨⟨e, he, h1, h2⟩, hne⟩ := h
    exact ⟨List.mem_map.2 ⟨e, he, by rw [h1, h2]⟩, decide_eq_true hne⟩

/-- The condensation's nodes are the component indices. -/
theorem cond_wf {g : IdGraph} (hwf : WF g) : WF (condensation g) := by
  intro e he
  have he' : (e.1, e.2) ∈ (condensation g).edges := he
  obtain ⟨⟨f, hf, h1, h2⟩, _⟩ := cond_edge_iff.1 he'
  have hf1 := (hwf f hf).1
  have hf2 := (hwf f hf).2
  constructor
  · show e.1 ∈ List.range (sccsList g).length
    rw [List.mem_range, ← h1]
    exact sccIdx_lt hf1
  · show e.2 ∈ List.range (sccsList g).length
    rw [List.mem_range, ← h2]
    exact sccIdx_lt hf2

/-- Condensation edges connect distinct components. -/
theorem cond_no_self {g : IdGraph} {e : ℕ × ℕ} (he : e ∈ (condensation g).edges) :
    e.1 ≠ e.2 := by
  have he' : (e.1, e.2) ∈ (condensation g).edges := he
  exact (cond_edge_iff.1 he').2

/-- A condensation path between component indices lifts to reachability
between arbitrary members of the two components. -/
theorem cond_rtg_members {g : IdGraph} (hwf : WF g) {i j : ℕ} {b : ℕ}
    (hb : b ∈ g.nodes) (hjb : sccIdx g b = j)
    (h : Relation.ReflTransGen (edgeRel (condensation g).edges) i j) :
    ∀ a, a ∈ g.nodes → sccIdx g a = i → reaches g.edges a b = true := by
  induction h using Relation.ReflTransGen.head_induction_on with
  | refl =>
    intro a ha hia
    have : eqv g.edges a b = true := eqv_of_sccIdx_eq ha hb (by rw [hia, hjb])
    exact (Bool.and_eq_true_iff.1 this).1
  | head hedge _ ih =>
    rename_i i' k' _
    intro a ha hia
    obtain ⟨⟨f, hf, h1, h2⟩, _⟩ := cond_edge_iff.1 hedge
    have hx1 := (hwf f hf).1
    have hx2 := (hwf f hf).2
    have hax : reaches g.edges a f.1 = true :=
      (Bool.and_eq_true_iff.1 (eqv_of_sccIdx_eq ha hx1 (by rw [hia, h1]))).1
    have hxy : reaches g.edges f.1 f.2 = true := reaches_of_edge hf
    have hyb : reaches g.edges f.2 b = true := ih f.2 hx2 h2
    exact reaches_trans (reaches_trans hax hxy) hyb

/-- The condensation is acyclic. -/
theorem cond_acyclic {g : IdGraph} (hwf : WF g) {i j : ℕ}
    (hij : Relation.ReflTransGen (edgeRel (condensation g).edges) i j)
    (hji : Relation.ReflTransGen (edgeRel (condensation g).edges) j i) :
    i = j := by
  rcases Relation.ReflTransGen.cases_head hij with heq | ⟨x, hix, _⟩
  · exact heq
  rcases Relation.ReflTransGen.cases_head hji with heq | ⟨y, hjy, _⟩
  · exact heq.symm
  have hi : i < (sccsList g).length := by
    have := (cond_wf hwf (i, x) hix).1
    simpa [condensation] using this
  have hj : j < (sccsList g).length := by
    have := (cond_wf hwf (j, y) hjy).1
    simpa [condensation] using this
  obtain ⟨a, ha, hai, _⟩ := exists_rep hi
  obtain ⟨b, hb, hbj, _⟩ := exists_rep hj
  have hab : reaches g.edges a b = true := cond_rtg_members hwf hb hbj hij a ha hai
  have hba : reaches g.edges b a = true := cond_rtg_members hwf ha hai hji b hb hbj
  rw [← hai, ← hbj]
  exact sccIdx_eq_of_eqv (Bool.and_eq_true_iff.2 ⟨hab, hba⟩)


theorem rank_le {h : IdGraph} {a b : ℕ} (hab : reaches h.edges a b = true) :
    rank h b ≤ rank h a :=
  filter_length_mono (fun x _ hx => reaches_trans hab hx)

theorem rank_lt {h : IdGraph}
    (hacyc : ∀ x y, reaches h.edges x y = true → reaches h.edges y x = true → x = y)
    {a b : ℕ} (ha : a ∈ h.nodes) (hab : reaches h.edges a b = true)
    (hne : a ≠ b) : rank h b < rank h a := by
  have hba : reaches h.edges b a = false := by
    cases hr : reaches h.edges b a with
    | false => rfl
    | true => exact absurd (hacyc a b hab hr) hne
  exact filter_length_strict (fun x _ hx => reaches_trans hab hx) a ha
    (reaches_refl h.edges a) hba

/-- Characterization of the surviving edges. -/
theorem red_edge_iff {h : IdGraph} {e : ℕ × ℕ} :
    e ∈ (transitive_reduction h).edges ↔
      e ∈ h.edges ∧
        ¬∃ f ∈ h.edges, f.1 = e.1 ∧ reaches h.edges f.2 e.2 = true ∧ f.2 ≠ e.2 := by
  show e ∈ h.edges.filter _ ↔ _
  rw [List.mem_filter]
  constructor
  · intro ⟨h1, h2⟩
    refine ⟨h1, ?_⟩
    rintro ⟨f, hf, hf1, hf2, hf3⟩
    have : h.edges.any (fun f =>
        f.1 == e.1 && reaches h.edges f.2 e.2 && f.2 != e.2) = true :=
      List.any_eq_true.2 ⟨f, hf, by
        rw [hf2]
        have hb1 : (f.1 == e.1) = true := beq_iff_eq.2 hf1
        have hb2 : (f.2 != e.2) = true := bne_iff_ne.2 hf3
        rw [hb1, hb2]
        rfl⟩
    rw [this] at h2
    exact absurd h2 (by simp)
  · intro ⟨h1, h2⟩
    refine ⟨h1, ?_⟩
    cases hany : h.edges.any (fun f =>
        f.1 == e.1 && reaches h.edges f.2 e.2 && f.2 != e.2) with
    | false => rfl
    | true =>
      obtain ⟨f, hf, hcond⟩ := List.any_eq_true.1 hany
      have hc1 := Bool.and_eq_true_iff.1 hcond
      have hc2 := Bool.and_eq_true_iff.1 hc1.1
      exact absurd ⟨f, hf, beq_iff_eq.1 hc2.1, hc2.2, bne_iff_ne.1 hc1.2⟩ h2

theorem red_edges_subset {h : IdGraph} : (transitive_reduction h).edges ⊆ h.edges :=
  fun e he => (red_edge_iff.1 he).1

/-- Every edge of a DAG is realized by a path of the transitive
reduction (by strong induction on the rank gap). -/
theorem red_rtg_of_edge_aux {h : IdGraph} (hwf : WF h)
    (hacyc : ∀ x y, reaches h.edges x y = true → reaches h.edges y x = true → x = y)
    (hnoself : ∀ e ∈ h.edges, e.1 ≠ e.2) :
    ∀ (k : ℕ) (a b : ℕ), (a, b) ∈ h.edges → rank h a - rank h b ≤ k →
      Relation.ReflTransGen (edgeRel (transitive_reduction h).edges) a b := by
  intro k
  induction k with
  | zero =>
    intro a b hab hk
    have h1 : rank h b < rank h a :=
      rank_lt hacyc (hwf (a, b) hab).1 (reaches_of_edge hab) (hnoself (a, b) hab)
    omega
  | succ k ih =>
    intro a b hab hk
    by_cases hkeep : (a, b) ∈ (transitive_reduction h).edges
    · exact Relation.ReflTransGen.single hkeep
    · have hnokeep := hkeep
      rw [red_edge_iff] at hnokeep
      push_neg at hnokeep
      obtain ⟨f, hf, hf1, hf2, hf3⟩ := hnokeep hab
      set w := f.2 with hwdef
      have haw : (a, w) ∈ h.edges := by
        have : f = (a, w) := Prod.ext hf1 rfl
        rw [← this]
        exact hf
      have hwnode : w ∈ h.nodes := (hwf (a, w) haw).2
      have hanode : a ∈ h.nodes := (hwf (a, w) haw).1
      have hrw : rank h w < rank h a :=
        rank_lt hacyc hanode (reaches_of_edge haw) (hnoself (a, w) haw)
      have hrb : rank h b < rank h w := rank_lt hacyc hwnode hf2 hf3
      have hstep : Relation.ReflTransGen (edgeRel (transitive_reduction h).edges) a w :=
        ih a w haw (by omega)
      -- walk from w down to b, converting every edge through the outer IH
      have hwalk : ∀ x, Relation.ReflTransGen (edgeRel h.edges) x b →
          rank h x ≤ rank h w →
          Relation.ReflTransGen (edgeRel (transitive_reduction h).edges) x b := by
        intro x hx
        induction hx using Relation.ReflTransGen.head_induction_on with
        | refl => intro _; exact Relation.ReflTransGen.refl
        | head hedge htail ih2 =>
          rename_i x' y' 
          intro hxw
          have hy'b : reaches h.edges y' b = true := (reaches_iff _ _ _).2 htail
          have hrkb : rank h b ≤ rank h y' := rank_le hy'b
          have hx'node : x' ∈ h.nodes := (hwf (x', y') hedge).1
          have hrky : rank h y' < rank h x' :=
            rank_lt hacyc hx'node (reaches_of_edge hedge) (hnoself (x', y') hedge)
          have hxy : Relation.ReflTransGen (edgeRel (transitive_reduction h).edges) x' y' :=
            ih x' y' hedge (by omega)
          exact Relation.ReflTransGen.trans hxy (ih2 (by omega))
      exact Relation.ReflTransGen.trans hstep
        (hwalk w ((reaches_iff _ _ _).1 hf2) (le_refl _))

/-- Reachability is preserved by the transitive reduction. -/
theorem red_rtg_of_rtg {h : IdGraph} (hwf : WF h)
    (hacyc : ∀ x y, reaches h.edges x y = true → reaches h.edges y x = true → x = y)
    (hnoself : ∀ e ∈ h.edges, e.1 ≠ e.2) {a b : ℕ}
    (hab : Relation.ReflTransGen (edgeRel h.edges) a b) :
    Relation.ReflTransGen (edgeRel (transitive_reduction h).edges) a b := by
  induction hab with
  | refl => exact Relation.ReflTransGen.refl
  | tail hstep hedge ih =>
    rename_i b' c' 
    exact Relation.ReflTransGen.trans ih
      (red_rtg_of_edge_aux hwf hacyc hnoself (rank h b' - rank h c') b' c' hedge (le_refl _))


theorem filter_length_lt {l : List ℕ} {p : ℕ → Bool} (a : ℕ) (ha : a ∈ l)
    (hpa : p a = false) : (l.filter p).length < l.length := by
  have h := filter_length_strict (p := p) (q := fun _ => true)
    (fun b _ _ => rfl) a ha rfl hpa
  simpa using h

/-- A nonempty list has an element maximizing any measure. -/
theorem exists_max (f : ℕ → ℕ) {l : List ℕ} (hl : l ≠ []) :
    ∃ m ∈ l, ∀ x ∈ l, f x ≤ f m := by
  induction l with
  | nil => exact absurd rfl hl
  | cons y ys ih =>
    by_cases hys : ys = []
    · subst hys
      refine ⟨y, List.mem_cons_self y [], ?_⟩
      intro x hx
      simp at hx
      rw [hx]
    · obtain ⟨m, hm, hmax⟩ := ih hys
      by_cases hc : f y ≤ f m
      · refine ⟨m, List.mem_cons_of_mem y hm, ?_⟩
        intro x hx
        rcases List.mem_cons.1 hx with hxy | hxy
        · rw [hxy]; exact hc
        · exact hmax x hxy
      · refine ⟨y, List.mem_cons_self y ys, ?_⟩
        intro x hx
        rcases List.mem_cons.1 hx with hxy | hxy
        · rw [hxy]
        · exact le_trans (hmax x hxy) (by omega)

theorem topoGens_nil_of_empty (E : List (ℕ × ℕ)) (fuel : ℕ) {rem : List ℕ}
    (h : rem.isEmpty = true) : topoGens E (fuel + 1) rem = [] := by
  simp only [topoGens]
  rw [if_pos h]

theorem topoGens_nil_of_gen_empty (E : List (ℕ × ℕ)) (fuel : ℕ) {rem : List ℕ}
    (h1 : rem.isEmpty = false)
    (h2 : (rem.filter (noIncoming E rem)).isEmpty = true) :
    topoGens E (fuel + 1) rem = [] := by
  simp only [topoGens]
  rw [if_neg (by rw [h1]; simp)]
  show (if (rem.filter (noIncoming E rem)).isEmpty = true then _ else _) = _
  rw [if_pos h2]

theorem topoGens_cons (E : List (ℕ × ℕ)) (fuel : ℕ) {rem : List ℕ}
    (h1 : rem.isEmpty = false)
    (h2 : (rem.filter (noIncoming E rem)).isEmpty = false) :
    topoGens E (fuel + 1) rem =
      rem.filter (noIncoming E rem) ::
        topoGens E fuel (rem.filter (fun v => !noIncoming E rem v)) := by
  simp only [topoGens]
  rw [if_neg (by rw [h1]; simp)]
  show (if (rem.filter (noIncoming E rem)).isEmpty = true then _ else _) = _
  rw [if_neg (by rw [h2]; simp)]

/-- Members of any generation come from the remaining node set. -/
theorem topoGens_mem_sub (E : List (ℕ × ℕ)) :
    ∀ (fuel : ℕ) (rem : List ℕ) (i : ℕ) (x : ℕ),
      x ∈ (topoGens E fuel rem).getD i [] → x ∈ rem := by
  intro fuel
  induction fuel with
  | zero => intro rem i x hx; simp [topoGens] at hx
  | succ fuel ih =>
    intro rem i x hx
    cases hrem : rem.isEmpty with
    | true => rw [topoGens_nil_of_empty E fuel hrem] at hx; simp at hx
    | false =>
      cases hgen : (rem.filter (noIncoming E rem)).isEmpty with
      | true => rw [topoGens_nil_of_gen_empty E fuel hrem hgen] at hx; simp at hx
      | false =>
        rw [topoGens_cons E fuel hrem hgen] at hx
        cases i with
        | zero =>
          have hx' : x ∈ rem.filter (noIncoming E rem) := hx
          exact (List.mem_filter.1 hx').1
        | succ i' =>
          have hx' : x ∈ rem.filter (fun v => !noIncoming E rem v) := ih _ i' x hx
          exact (List.mem_filter.1 hx').1

/-- A node sits in at most one generation. -/
theorem topoGens_unique (E : List (ℕ × ℕ)) :
    ∀ (fuel : ℕ) (rem : List ℕ) (i j : ℕ) (x : ℕ),
      x ∈ (topoGens E fuel rem).getD i [] →
      x ∈ (topoGens E fuel rem).getD j [] → i = j := by
  intro fuel
  induction fuel with
  | zero => intro rem i j x hx _; simp [topoGens] at hx
  | succ fuel ih =>
    intro rem i j x hxi hxj
    cases hrem : rem.isEmpty with
    | true => rw [topoGens_nil_of_empty E fuel hrem] at hxi; simp at hxi
    | false =>
      cases hgen : (rem.filter (noIncoming E rem)).isEmpty with
      | true => rw [topoGens_nil_of_gen_empty E fuel hrem hgen] at hxi; simp at hxi
      | false =>
        rw [topoGens_cons E fuel hrem hgen] at hxi hxj
        cases i with
        | zero =>
          cases j with
          | zero => rfl
          | succ j' =>
            exfalso
            have h1 : x ∈ rem.filter (noIncoming E rem) := hxi
            have h2 : x ∈ rem.filter (fun v => !noIncoming E rem v) :=
              topoGens_mem_sub E fuel _ j' x hxj
            have hb1 := (List.mem_filter.1 h1).2
            have hb2 := (List.mem_filter.1 h2).2
            rw [hb1] at hb2
            simp at hb2
        | succ i' =>
          cases j with
          | zero =>
            exfalso
            have h1 : x ∈ rem.filter (noIncoming E rem) := hxj
            have h2 : x ∈ rem.filter (fun v => !noIncoming E rem v) :=
              topoGens_mem_sub E fuel _ i' x hxi
            have hb1 := (List.mem_filter.1 h1).2
            have hb2 := (List.mem_filter.1 h2).2
            rw [hb1] at hb2
            simp at hb2
          | succ j' =>
            have := ih _ i' j' x hxi hxj
            omega

/-- The target of an edge whose source remains is peeled strictly later
than the source. -/
theorem topoGens_edge_lt (E : List (ℕ × ℕ)) {a b : ℕ} (hab : (a, b) ∈ E) :
    ∀ (fuel : ℕ) (rem : List ℕ) (i j : ℕ), a ∈ rem → b ∈ rem →
      a ∈ (topoGens E fuel rem).getD i [] →
      b ∈ (topoGens E fuel rem).getD j [] → i < j := by
  intro fuel
  induction fuel with
  | zero => intro rem i j _ _ hx _; simp [topoGens] at hx
  | succ fuel ih =>
    intro rem i j ha hb hai hbj
    cases hrem : rem.isEmpty with
    | true => rw [topoGens_nil_of_empty E fuel hrem] at hai; simp at hai
    | false =>
      cases hgen : (rem.filter (noIncoming E rem)).isEmpty with
      | true => rw [topoGens_nil_of_gen_empty E fuel hrem hgen] at hai; simp at hai
      | false =>
        rw [topoGens_cons E fuel hrem hgen] at hai hbj
        -- b has the incoming edge from a, so b is not in the first generation
        have hbinc : noIncoming E rem b = false := by
          have hany : E.any (fun e => decide (e.1 ∈ rem) && e.2 == b) = true :=
            List.any_eq_true.2 ⟨(a, b), hab,
              Bool.and_eq_true_iff.2 ⟨decide_eq_true ha, beq_iff_eq.2 rfl⟩⟩
          show (!_) = false
          rw [hany]
          rfl
        cases j with
        | zero =>
          exfalso
          have h1 : b ∈ rem.filter (noIncoming E rem) := hbj
          have hmf := (List.mem_filter.1 h1).2
          rw [hbinc] at hmf
          exact absurd hmf (by simp)
        | succ j' =>
          cases i with
          | zero => omega
          | succ i' =>
            have ha' : a ∈ rem.filter (fun v => !noIncoming E rem v) :=
              topoGens_mem_sub E fuel _ i' a hai
            have hb' : b ∈ rem.filter (fun v => !noIncoming E rem v) :=
              List.mem_filter.2 ⟨hb, by rw [hbinc]; rfl⟩
            have := ih _ i' j' ha' hb' hai hbj
            omega


/-- Every remaining node of a DAG lands in some generation when the fuel
covers the node count. -/
theorem topoGens_covers (E : List (ℕ × ℕ))
    (hacyc : ∀ x y, reaches E x y = true → reaches E y x = true → x = y)
    (hnoself : ∀ e ∈ E, e.1 ≠ e.2) :
    ∀ (fuel : ℕ) (rem : List ℕ), rem.length ≤ fuel →
      ∀ v ∈ rem, ∃ i, v ∈ (topoGens E fuel rem).getD i [] := by
  intro fuel
  induction fuel with
  | zero =>
    intro rem hlen v hv
    have : rem = [] := List.eq_nil_of_length_eq_zero (Nat.le_zero.1 hlen)
    rw [this] at hv
    simp at hv
  | succ fuel ih =>
    intro rem hlen v hv
    have hrem : rem.isEmpty = false :=
      List.isEmpty_eq_false.mpr (List.ne_nil_of_mem hv)
    -- a node of maximal rank within `rem` has no incoming edge from `rem`
    obtain ⟨m, hm, hmax⟩ :=
      exists_max (fun a => (rem.filter (fun x => reaches E a x)).length)
        (List.ne_nil_of_mem hv)
    have hmno : noIncoming E rem m = true := by
      cases hany : E.any (fun e => decide (e.1 ∈ rem) && e.2 == m) with
      | false => show (!_) = true; rw [hany]; rfl
      | true =>
        exfalso
        obtain ⟨e, he, hcond⟩ := List.any_eq_true.1 hany
        have hc := Bool.and_eq_true_iff.1 hcond
        have he1 : e.1 ∈ rem := of_decide_eq_true hc.1
        have he2 : e.2 = m := beq_iff_eq.1 hc.2
        have hedge : (e.1, m) ∈ E := by rw [← he2]; exact he
        have hne : e.1 ≠ m := by
          have := hnoself e he
          rw [← he2]
          exact this
        have hreach : reaches E e.1 m = true := reaches_of_edge hedge
        have hmback : reaches E m e.1 = false := by
          cases hr : reaches E m e.1 with
          | false => rfl
          | true => exact absurd (hacyc e.1 m hreach hr) hne
        have hstrict :
            (rem.filter (fun x => reaches E m x)).length <
              (rem.filter (fun x => reaches E e.1 x)).length :=
          filter_length_strict (fun x _ hx => reaches_trans hreach hx) e.1 he1
            (reaches_refl E e.1) hmback
        have := hmax e.1 he1
        omega
    have hgen : (rem.filter (noIncoming E rem)).isEmpty = false :=
      List.isEmpty_eq_false.mpr
        (List.ne_nil_of_mem (List.mem_filter.2 ⟨hm, hmno⟩))
    rw [topoGens_cons E fuel hrem hgen]
    by_cases hvg : v ∈ rem.filter (noIncoming E rem)
    · exact ⟨0, hvg⟩
    · have hvni : noIncoming E rem v = false := by
        cases hni : noIncoming E rem v with
        | false => rfl
        | true => exact absurd (List.mem_filter.2 ⟨hv, hni⟩) hvg
      have hv' : v ∈ rem.filter (fun x => !noIncoming E rem x) :=
        List.mem_filter.2 ⟨hv, by rw [hvni]; rfl⟩
      have hlen' : (rem.filter (fun x => !noIncoming E rem x)).length ≤ fuel := by
        have hstrict : (rem.filter (fun x => !noIncoming E rem x)).length < rem.length :=
          filter_length_lt m hm (by rw [hmno]; rfl)
        omega
      obtain ⟨i, hi⟩ := ih _ hlen' v hv'
      exact ⟨i + 1, hi⟩

/-- Monotonicity of path existence under edge-list inclusion. -/
theorem rtg_sub {E' E : List (ℕ × ℕ)} (hsub : E' ⊆ E) {a b : ℕ}
    (h : Relation.ReflTransGen (edgeRel E') a b) :
    Relation.ReflTransGen (edgeRel E) a b := by
  induction h with
  | refl => exact Relation.ReflTransGen.refl
  | tail _ hedge ih => exact Relation.ReflTransGen.tail ih (hsub hedge)

/-- Along any path of the peeled graph the generation index never
decreases. -/
theorem topoGens_path_le (E : List (ℕ × ℕ))
    (hacyc : ∀ x y, reaches E x y = true → reaches E y x = true → x = y)
    (hnoself : ∀ e ∈ E, e.1 ≠ e.2) (rem₀ : List ℕ)
    (hE : ∀ e ∈ E, e.1 ∈ rem₀ ∧ e.2 ∈ rem₀) (fuel : ℕ)
    (hfuel : rem₀.length ≤ fuel) {a b : ℕ}
    (hab : Relation.ReflTransGen (edgeRel E) a b) :
    ∀ i j, a ∈ (topoGens E fuel rem₀).getD i [] →
      b ∈ (topoGens E fuel rem₀).getD j [] → i ≤ j := by
  induction hab using Relation.ReflTransGen.head_induction_on with
  | refl =>
    intro i j hi hj
    exact le_of_eq (topoGens_unique E fuel rem₀ i j b hi hj)
  | head hedge htail ih =>
    rename_i x y
    intro i j hi hj
    have hy : y ∈ rem₀ := (hE (x, y) hedge).2
    obtain ⟨k, hk⟩ := topoGens_covers E hacyc hnoself fuel rem₀ hfuel y hy
    have h1 : i < k :=
      topoGens_edge_lt E hedge fuel rem₀ i k (hE (x, y) hedge).1 hy hi hk
    have h2 : k ≤ j := ih k j hk hj
    omega

/-- Reversal swaps the edge relation. -/
theorem edge_reverse_iff {g : IdGraph} {a b : ℕ} :
    edgeRel (reverse g).edges a b ↔ edgeRel g.edges b a := by
  show (a, b) ∈ g.edges.map (fun e => (e.2, e.1)) ↔ (b, a) ∈ g.edges
  constructor
  · intro h
    obtain ⟨e, he, hee⟩ := List.mem_map.1 h
    have h1 : e.2 = a := (Prod.mk.injEq _ _ _ _ ▸ hee).1
    have h2 : e.1 = b := (Prod.mk.injEq _ _ _ _ ▸ hee).2
    rw [← h1, ← h2]
    exact he
  · intro h
    exact List.mem_map.2 ⟨(b, a), h, rfl⟩

theorem rtg_flip {r r' : ℕ → ℕ → Prop} (hrr : ∀ x y, r x y ↔ r' y x) {a b : ℕ}
    (h : Relation.ReflTransGen r a b) : Relation.ReflTransGen r' b a := by
  induction h with
  | refl => exact Relation.ReflTransGen.refl
  | tail _ hedge ih =>
    exact Relation.ReflTransGen.head ((hrr _ _).1 hedge) ih

/-- Reachability in the reversed graph is reversed reachability. -/
theorem reaches_reverse (g : IdGraph) (a b : ℕ) :
    reaches (reverse g).edges a b = reaches g.edges b a := by
  cases hr : reaches g.edges b a with
  | true =>
    exact (reaches_iff _ _ _).2
      (rtg_flip (fun x y => (edge_reverse_iff (g := g) (a := y) (b := x)).symm)
        ((reaches_iff _ _ _).1 hr))
  | false =>
    cases hl : reaches (reverse g).edges a b with
    | false => rfl
    | true =>
      have := rtg_flip (fun x y => edge_reverse_iff (g := g) (a := x) (b := y))
        ((reaches_iff _ _ _).1 hl)
      rw [(reaches_iff _ _ _).2 this] at hr
      exact hr

theorem eqv_reverse (g : IdGraph) (a b : ℕ) :
    eqv (reverse g).edges a b = eqv g.edges a b := by
  show (reaches (reverse g).edges a b && reaches (reverse g).edges b a) = _
  rw [reaches_reverse, reaches_reverse]
  exact Bool.and_comm _ _

theorem reverse_wf {g : IdGraph} (hwf : WF g) : WF (reverse g) := by
  intro e he
  obtain ⟨e1, e2⟩ := e
  obtain ⟨f, hf, hee⟩ := List.mem_map.1 he
  have h1 : f.2 = e1 := (Prod.mk.injEq _ _ _ _ ▸ hee).1
  have h2 : f.1 = e2 := (Prod.mk.injEq _ _ _ _ ▸ hee).2
  refine ⟨?_, ?_⟩
  · show e1 ∈ g.nodes
    rw [← h1]
    exact (hwf f hf).2
  · show e2 ∈ g.nodes
    rw [← h2]
    exact (hwf f hf).1

/-- `getD` commutes with `map` when the function fixes the default. -/
theorem getD_map_nil (F : List ℕ → List (List ℕ)) (hF : F [] = []) :
    ∀ (l : List (List ℕ)) (i : ℕ), (l.map F).getD i [] = F (l.getD i []) := by
  intro l
  induction l with
  | nil => intro i; simp [hF]
  | cons x xs ih =>
    intro i
    cases i with
    | zero => rfl
    | succ i' => exact ih i'


/-- Membership of a node in a group of a level pins down the group as
the node's own component and the generation entry as its index. -/
theorem group_mem_idx {g : IdGraph} {x idx : ℕ}
    (hidx : idx < (sccsList g).length)
    (hx : x ∈ (sccsList g).getD idx []) :
    x ∈ g.nodes ∧ sccIdx g x = idx := by
  obtain ⟨w, hw, hwi, hwe⟩ := exists_rep hidx
  rw [hwe] at hx
  have hx' := mem_sccOf_iff.1 hx
  refine ⟨hx'.1, ?_⟩
  rw [← hwi]
  exact (sccIdx_eq_of_eqv (eqv_symm hx'.2)).symm ▸ rfl

/-- C1: for every edge `u → v` of a graph whose endpoints lie in
different strongly connected components, `compute_batched_traversal_order`
schedules the level containing `v` strictly before the level containing
`u`: both nodes appear in some level, and every level containing `v`
precedes every level containing `u`. -/
theorem c1_dependencies_before_dependents (g : IdGraph) (hwf : WF g)
    (u v : ℕ) (huv : (u, v) ∈ g.edges) (hscc : eqv g.edges u v = false) :
    (∃ i grp, grp ∈ (compute_batched_traversal_order g).getD i [] ∧ v ∈ grp) ∧
    (∃ j grp, grp ∈ (compute_batched_traversal_order g).getD j [] ∧ u ∈ grp) ∧
    (∀ i j grpv grpu,
      grpv ∈ (compute_batched_traversal_order g).getD i [] → v ∈ grpv →
      grpu ∈ (compute_batched_traversal_order g).getD j [] → u ∈ grpu → i < j) := by
  have hwf' : WF (reverse g) := reverse_wf hwf
  have hu : u ∈ (reverse g).nodes := (hwf (u, v) huv).1
  have hv : v ∈ (reverse g).nodes := (hwf (u, v) huv).2
  have hscc' : eqv (reverse g).edges u v = false := by
    rw [eqv_reverse]
    exact hscc
  have hne : sccIdx (reverse g) v ≠ sccIdx (reverse g) u := by
    intro heq
    have := eqv_of_sccIdx_eq hu hv heq.symm
    rw [this] at hscc'
    exact absurd hscc' (by simp)
  have hedge_rg : (v, u) ∈ (reverse g).edges :=
    List.mem_map.2 ⟨(u, v), huv, rfl⟩
  have hcond_edge :
      (sccIdx (reverse g) v, sccIdx (reverse g) u) ∈ (condensation (reverse g)).edges :=
    cond_edge_iff.2 ⟨⟨(v, u), hedge_rg, rfl, rfl⟩, hne⟩
  have hcwf : WF (condensation (reverse g)) := cond_wf hwf'
  have hacycC : ∀ x y, reaches (condensation (reverse g)).edges x y = true →
      reaches (condensation (reverse g)).edges y x = true → x = y :=
    fun x y h1 h2 =>
      cond_acyclic hwf' ((reaches_iff _ _ _).1 h1) ((reaches_iff _ _ _).1 h2)
  have hnoselfC : ∀ e ∈ (condensation (reverse g)).edges, e.1 ≠ e.2 :=
    fun e he => cond_no_self he
  set cond := condensation (reverse g) with hconddef
  set red := transitive_reduction cond with hreddef
  have hred_rtg :
      Relation.ReflTransGen (edgeRel red.edges) (sccIdx (reverse g) v)
        (sccIdx (reverse g) u) :=
    red_rtg_of_edge_aux hcwf hacycC hnoselfC
      (rank cond (sccIdx (reverse g) v) - rank cond (sccIdx (reverse g) u))
      _ _ hcond_edge (le_refl _)
  have hsubE : red.edges ⊆ cond.edges := red_edges_subset
  have hEwf : ∀ e ∈ red.edges, e.1 ∈ red.nodes ∧ e.2 ∈ red.nodes :=
    fun e he => hcwf e (hsubE he)
  have hacycR : ∀ x y, reaches red.edges x y = true →
      reaches red.edges y x = true → x = y := by
    intro x y h1 h2
    exact hacycC x y
      ((reaches_iff _ _ _).2 (rtg_sub hsubE ((reaches_iff _ _ _).1 h1)))
      ((reaches_iff _ _ _).2 (rtg_sub hsubE ((reaches_iff _ _ _).1 h2)))
  have hnoselfR : ∀ e ∈ red.edges, e.1 ≠ e.2 := fun e he => hnoselfC e (hsubE he)
  -- node membership of the two component indices
  have hv_node : sccIdx (reverse g) v ∈ red.nodes := by
    show sccIdx (reverse g) v ∈ List.range (sccsList (reverse g)).length
    rw [List.mem_range]
    exact sccIdx_lt hv
  have hu_node : sccIdx (reverse g) u ∈ red.nodes := by
    show sccIdx (reverse g) u ∈ List.range (sccsList (reverse g)).length
    rw [List.mem_range]
    exact sccIdx_lt hu
  obtain ⟨li, hli⟩ := topoGens_covers red.edges hacycR hnoselfR red.nodes.length
    red.nodes (le_refl _) _ hv_node
  obtain ⟨lj, hlj⟩ := topoGens_covers red.edges hacycR hnoselfR red.nodes.length
    red.nodes (le_refl _) _ hu_node
  -- the generation of the dependency's component precedes the dependent's
  have hord : ∀ i j,
      sccIdx (reverse g) v ∈ (topoGens red.edges red.nodes.length red.nodes).getD i [] →
      sccIdx (reverse g) u ∈ (topoGens red.edges red.nodes.length red.nodes).getD j [] →
      i < j := by
    intro i j hi hj
    rcases Relation.ReflTransGen.cases_head hred_rtg with heq | ⟨x, hix, hxj⟩
    · exact absurd heq hne
    · have hx_node : x ∈ red.nodes := (hEwf _ hix).2
      obtain ⟨k, hk⟩ := topoGens_covers red.edges hacycR hnoselfR
        red.nodes.length red.nodes (le_refl _) x hx_node
      have h1 : i < k :=
        topoGens_edge_lt red.edges hix red.nodes.length red.nodes i k
          (hEwf _ hix).1 hx_node hi hk
      have h2 : k ≤ j :=
        topoGens_path_le red.edges hacycR hnoselfR red.nodes hEwf
          red.nodes.length (le_refl _) hxj k j hk hj
      omega
  -- translate generation membership to level membership
  have hlvl : compute_batched_traversal_order g =
      (topoGens red.edges red.nodes.length red.nodes).map
        (fun gen => gen.map (fun i => (sccsList (reverse g)).getD i [])) := rfl
  have hgetD : ∀ i, (compute_batched_traversal_order g).getD i [] =
      ((topoGens red.edges red.nodes.length red.nodes).getD i []).map
        (fun i => (sccsList (reverse g)).getD i []) := by
    intro i
    rw [hlvl]
    exact getD_map_nil _ rfl _ i
  have hv_grp : v ∈ (sccsList (reverse g)).getD (sccIdx (reverse g) v) [] := by
    rw [sccsList_getD_sccIdx hv]
    exact self_mem_sccOf hv
  have hu_grp : u ∈ (sccsList (reverse g)).getD (sccIdx (reverse g) u) [] := by
    rw [sccsList_getD_sccIdx hu]
    exact self_mem_sccOf hu
  refine ⟨⟨li, (sccsList (reverse g)).getD (sccIdx (reverse g) v) [], ?_, hv_grp⟩,
    ⟨lj, (sccsList (reverse g)).getD (sccIdx (reverse g) u) [], ?_, hu_grp⟩, ?_⟩
  · rw [hgetD]
    exact List.mem_map.2 ⟨_, hli, rfl⟩
  · rw [hgetD]
    exact List.mem_map.2 ⟨_, hlj, rfl⟩
  · intro i j grpv grpu hgv hvmem hgu humem
    rw [hgetD] at hgv hgu
    obtain ⟨idxv, hidxv, hgve⟩ := List.mem_map.1 hgv
    obtain ⟨idxu, hidxu, hgue⟩ := List.mem_map.1 hgu
    have hidxv_rng : idxv ∈ red.nodes :=
      topoGens_mem_sub red.edges red.nodes.length red.nodes i idxv hidxv
    have hidxu_rng : idxu ∈ red.nodes :=
      topoGens_mem_sub red.edges red.nodes.length red.nodes j idxu hidxu
    have hidxv_lt : idxv < (sccsList (reverse g)).length := by
      have : idxv ∈ List.range (sccsList (reverse g)).length := hidxv_rng
      exact List.mem_range.1 this
    have hidxu_lt : idxu < (sccsList (reverse g)).length := by
      have : idxu ∈ List.range (sccsList (reverse g)).length := hidxu_rng
      exact List.mem_range.1 this
    have hvq : sccIdx (reverse g) v = idxv :=
      (group_mem_idx hidxv_lt (hgve ▸ hvmem)).2
    have huq : sccIdx (reverse g) u = idxu :=
      (group_mem_idx hidxu_lt (hgue ▸ humem)).2
    exact hord i j (hvq ▸ hidxv) (huq ▸ hidxu)

/-- Witness: in the two-node graph with the single edge `1 → 2`, node 2
(the dependency) is scheduled in level 0 and node 1 in level 1. -/
theorem c1_dependencies_before_dependents_witness :
    compute_batched_traversal_order { nodes := [1, 2], edges := [(1, 2)] } =
      [[[2]], [[1]]] ∧
    (∀ i j grpv grpu,
      grpv ∈ (compute_batched_traversal_order
        { nodes := [1, 2], edges := [(1, 2)] }).getD i [] → 2 ∈ grpv →
      grpu ∈ (compute_batched_traversal_order
        { nodes := [1, 2], edges := [(1, 2)] }).getD j [] → 1 ∈ grpu → i < j) :=
  ⟨by decide,
    (c1_dependencies_before_dependents { nodes := [1, 2], edges := [(1, 2)] }
      (by unfold WF; decide) 1 2 (by decide) (by decide)).2.2⟩

end DagTraversal

end AutoDocs
